import Mathlib

/-!
# A verification development for the UNIX shell of `shell.c`

The C program is embedded shallowly.  Character arrays are lists of `Char`
(the terminator is the character with code 0), `char *` values are a buffer
name and an offset, the C library's `strtok` keeps its single saved scan
position in the memory record, and arrays of `char *` are lists of optional
values (`none` is the pointer `NULL`).
-/

namespace Shell

/-! ## Constants of `shell.c` -/

/-- The constant `#define MAX_COMMAND_LENGTH 1024` -/
def MAX_COMMAND_LENGTH : Nat := 1024

/-- The constant `#define MAX_TOKENS 100` -/
def MAX_TOKENS : Nat := 100

/-- The constant `#define MAX_HISTORY 100` -/
def MAX_HISTORY : Nat := 100

/-! ## Strings and memory -/

/-- The characters of a C string, without its terminator. -/
abbrev Tok := List Char

/-- The characters of a string literal. -/
def tok (s : String) : Tok := s.toList

/-- The string terminator of C. -/
def NUL : Char := Char.ofNat 0

/-- A character array.  A byte that was never written reads as `NUL`; the code
reads no such byte. -/
abbrev Buf := List Char

/-- The byte at an offset of a character array. -/
def peek (b : Buf) (i : Nat) : Char := b.getD i NUL

/-- The bytes of a literal or of a line as stored: its characters, then the
terminator. -/
def stored (s : List Char) : Buf := s ++ [NUL]

/-- The C string that starts at offset `i`: the bytes before the first `NUL`. -/
def cstr (b : Buf) (i : Nat) : Tok := (b.drop i).takeWhile (fun c => c != NUL)

/-- The character arrays that the sequencing functions of `shell.c` use:
`command` of `main`, `command_copy` and `cmd_copy` of
`execute_multiple_commands`, `next_cmd` of `execute_logical_commands`. -/
inductive BufId
  | command
  | command_copy
  | cmd_copy
  | next_cmd
  deriving DecidableEq, Repr

/-- A `char *`: an array and an offset into it. -/
structure Ptr where
  buf : BufId
  off : Nat
  deriving DecidableEq, Repr

/-- The memory the sequencing functions work on, with the saved scan position
of `strtok` (one per process, shared by every caller). -/
structure Mem where
  command : Buf
  command_copy : Buf
  cmd_copy : Buf
  next_cmd : Buf
  save : Ptr
  deriving DecidableEq, Repr

/-- The contents of an array. -/
def Mem.get (m : Mem) : BufId → Buf
  | .command => m.command
  | .command_copy => m.command_copy
  | .cmd_copy => m.cmd_copy
  | .next_cmd => m.next_cmd

/-- Replace the contents of an array. -/
def Mem.put (m : Mem) (b : BufId) (x : Buf) : Mem :=
  match b with
  | .command => { m with command := x }
  | .command_copy => { m with command_copy := x }
  | .cmd_copy => { m with cmd_copy := x }
  | .next_cmd => { m with next_cmd := x }

/-- The C string a pointer points to. -/
def Mem.str (m : Mem) (p : Ptr) : Tok := cstr (m.get p.buf) p.off

/-! ## The C library functions the code calls -/

/-- The call `strspn(b + i, delim)`: the length of the run of delimiter bytes at `i`. -/
def strspn (b : Buf) (i : Nat) (delim : List Char) : Nat :=
  ((b.drop i).takeWhile (fun c => c != NUL && delim.contains c)).length

/-- The call `strcspn(b + i, delim)`: the length of the run of bytes at `i` that are
neither a delimiter nor the terminator. -/
def strcspn (b : Buf) (i : Nat) (delim : List Char) : Nat :=
  ((b.drop i).takeWhile (fun c => c != NUL && !delim.contains c)).length

/-- The function `strtok(str, delim)` of the C library (glibc's `strtok_r` on the one saved
position): `str = none` is the call `strtok(NULL, delim)`, which resumes at the
saved position, in whatever array that position lies.  A token that is followed
by a delimiter has that delimiter overwritten by `NUL`. -/
def strtok (m : Mem) (str : Option Ptr) (delim : List Char) : Mem × Option Ptr :=
  let s := match str with
    | some p => p
    | none => m.save
  let b := m.get s.buf
  if peek b s.off = NUL then
    ({ m with save := s }, none)
  else
    let s1 := s.off + strspn b s.off delim
    if peek b s1 = NUL then
      ({ m with save := ⟨s.buf, s1⟩ }, none)
    else
      let e := s1 + strcspn b s1 delim
      if peek b e = NUL then
        ({ m with save := ⟨s.buf, e⟩ }, some ⟨s.buf, s1⟩)
      else
        ({ m.put s.buf (b.set e NUL) with save := ⟨s.buf, e + 1⟩ }, some ⟨s.buf, s1⟩)

/-- The delimiters `" \t"` of `parse_command`. -/
def blanks : List Char := [' ', '\t']

/-! ## `parse_command` -/

/-- The `while` loop of `parse_command`; `room` is `MAX_TOKENS - 1 - *token_count`,
the number of further iterations the loop condition allows. -/
def parse_loop : Nat → Mem → Option Ptr → List (Option Ptr) → Nat →
    Mem × List (Option Ptr) × Nat
  | 0, m, _, tokens, token_count => (m, tokens, token_count)
  | _ + 1, m, none, tokens, token_count => (m, tokens, token_count)
  | room + 1, m, some token, tokens, token_count =>
    let tokens := tokens.set token_count (some token)
    let r := strtok m none blanks
    parse_loop room r.1 r.2 tokens (token_count + 1)

/-- The function `parse_command(command, tokens, &token_count)`: the memory afterwards, the
array `tokens` and `*token_count`. -/
def parse_command (m : Mem) (command : Ptr) (tokens : List (Option Ptr)) :
    Mem × List (Option Ptr) × Nat :=
  let r := strtok m (some command) blanks
  let l := parse_loop (MAX_TOKENS - 1) r.1 r.2 tokens 0
  (l.1, l.2.1.set l.2.2 none, l.2.2)

/-- Space or tab. -/
def is_blank (c : Char) : Bool := c == ' ' || c == '\t'

/-- The words of a line, as the specification has them: the maximal runs of
characters other than space and tab, in order (the line is cut at every space
and tab, and the empty pieces are left out). -/
def words (line : List Char) : List Tok :=
  (line.splitOnP is_blank).filter (fun w => !w.isEmpty)

/-- The strings an array of `char *` holds up to its first `NULL`: what
`execvp` and `strcmp` see of an argument vector. -/
def argv_of (m : Mem) (tokens : List (Option Ptr)) : List Tok :=
  (tokens.takeWhile Option.isSome).filterMap (fun p => p.map m.str)

/-- The array `char *tokens[MAX_TOKENS]` of a caller before `parse_command`
fills it. -/
def fresh_tokens : List (Option Ptr) := List.replicate MAX_TOKENS none

/-- The call `strcpy(dst, src)`: the string at `src` with its terminator is written at
`dst`.  The library copies the bytes from the first one on, so that a
destination at or before the source in the same array receives the string as
it does without overlap (the call `strcpy(next_cmd, cmd)` with `cmd` inside
`next_cmd`); a destination inside the source string overwrites the bytes that
are still to be read: `none`. -/
def strcpy (m : Mem) (dst src : Ptr) : Option Mem :=
  let s := m.str src
  if dst.buf = src.buf ∧ src.off < dst.off ∧ dst.off < src.off + (s.length + 1) then
    none
  else
    let b := m.get dst.buf
    some (m.put dst.buf (b.take dst.off ++ stored s ++ b.drop (dst.off + (s.length + 1))))

/-- The loop `while (*cmd == ' ' || *cmd == '\t') cmd++;` -/
def skip_blanks (m : Mem) (cmd : Ptr) : Ptr :=
  ⟨cmd.buf,
    cmd.off + (((m.get cmd.buf).drop cmd.off).takeWhile (fun c => c == ' ' || c == '\t')).length⟩

/-! ## The sequencer: `execute_multiple_commands`, `execute_logical_commands` -/

/-- What a sequencing function does that is visible outside it. -/
inductive Event
  /-- A child forked by `execute_logical_commands` itself ran
  `execvp(tokens[0], tokens)` on this argument vector, and `waitpid` stored
  this value in `status`. -/
  | exec (argv : List Tok) (status : Nat)
  /-- The call `execute_command(tokens, token_count)` on this argument vector. -/
  | dispatch (argv : List Tok)
  /-- The call `perror(s)` of the sequencing function itself. -/
  | perror (s : Tok)
  deriving DecidableEq, Repr

/-- How a sequencing function stops. -/
inductive Halt
  /-- It returns to `main`. -/
  | returned
  /-- It ends the interpreter: `exit(EXIT_FAILURE)` after a failed `fork`. -/
  | exited
  /-- A call that C leaves undefined: `strcpy` from `NULL` or to a
  destination inside the source string. -/
  | undefined
  /-- The iteration bound of the embedding was reached. -/
  | out_of_fuel
  deriving DecidableEq, Repr

/-- The events of a call, in order, and how the call stopped. -/
structure Run where
  trace : List Event
  halt : Halt
  deriving DecidableEq, Repr

/-- The `while (cmd != NULL)` loop of `execute_multiple_commands`. -/
def multiple_loop : Nat → Mem → Option Ptr → List Event → Run
  | 0, _, _, trace => ⟨trace, .out_of_fuel⟩
  | _ + 1, _, none, trace => ⟨trace, .returned⟩
  | fuel + 1, m, some cmd, trace =>
    let cmd := skip_blanks m cmd
    match strcpy m ⟨.cmd_copy, 0⟩ cmd with
    | none => ⟨trace, .undefined⟩
    | some m =>
      let p := parse_command m ⟨.cmd_copy, 0⟩ fresh_tokens
      let trace := if 0 < p.2.2 then trace ++ [Event.dispatch (argv_of p.1 p.2.1)] else trace
      let r := strtok p.1 none [';']
      multiple_loop fuel r.1 r.2 trace

/-- The function `execute_multiple_commands(command)`; the loop is cut after
`MAX_COMMAND_LENGTH` iterations. -/
def execute_multiple_commands (m : Mem) (command : Ptr) : Run :=
  match strcpy m ⟨.command_copy, 0⟩ command with
  | none => ⟨[], .undefined⟩
  | some m =>
    let r := strtok m (some ⟨.command_copy, 0⟩) [';']
    multiple_loop MAX_COMMAND_LENGTH r.1 r.2 []

/-- The macro `WIFEXITED(status)` of the C library, `((status) & 0x7f) == 0`:
the child ended by `exit` or by a return from `main`, not by a signal. -/
def WIFEXITED (status : Nat) : Bool := status % 128 == 0

/-- The macro `WEXITSTATUS(status)` of the C library, `((status) & 0xff00) >> 8`:
the exit status of a child that exited. -/
def WEXITSTATUS (status : Nat) : Nat := status / 256 % 256

/-- The operating system as `execute_logical_commands` sees it: whether its
`k`-th `fork` succeeds, and the value `waitpid` stores in `status` for its
`k`-th child (`k` counts the children it forked before): `256 * n` for a child
that exited with status `n`, the number of the signal for a child that a
signal ended. -/
structure World where
  fork_ok : Nat → Bool
  status : Nat → Nat

/-- The `while (cmd != NULL)` loop of `execute_logical_commands`. -/
def logical_loop (w : World) : Nat → Mem → Option Ptr → List Event → Run
  | 0, _, _, trace => ⟨trace, .out_of_fuel⟩
  | _ + 1, _, none, trace => ⟨trace, .returned⟩
  | fuel + 1, m, some _, trace =>
    let r := strtok m none ['&']
    match r.2 with
    | some cmd =>
      let cmd := skip_blanks r.1 cmd
      let p := parse_command r.1 ⟨.next_cmd, 0⟩ fresh_tokens
      if 0 < p.2.2 then
        if w.fork_ok trace.length then
          let status := w.status trace.length
          let trace := trace ++ [Event.exec (argv_of p.1 p.2.1) status]
          if WIFEXITED status = true ∧ WEXITSTATUS status ≠ 0 then
            ⟨trace, .returned⟩
          else
            match strcpy p.1 ⟨.next_cmd, 0⟩ cmd with
            | none => ⟨trace, .undefined⟩
            | some m => logical_loop w fuel m (some cmd) trace
        else
          ⟨trace ++ [Event.perror (tok "fork")], .exited⟩
      else
        match strcpy p.1 ⟨.next_cmd, 0⟩ cmd with
        | none => ⟨trace, .undefined⟩
        | some m => logical_loop w fuel m (some cmd) trace
    | none =>
      let p := parse_command r.1 ⟨.next_cmd, 0⟩ fresh_tokens
      let trace := if 0 < p.2.2 then trace ++ [Event.dispatch (argv_of p.1 p.2.1)] else trace
      logical_loop w fuel p.1 none trace

/-- The function `execute_logical_commands(command)`; the loop is cut after
`MAX_COMMAND_LENGTH` iterations. -/
def execute_logical_commands (w : World) (m : Mem) (command : Ptr) : Run :=
  let r := strtok m (some command) ['&']
  match r.2 with
  | none => ⟨[], .undefined⟩
  | some cmd =>
    match strcpy r.1 ⟨.next_cmd, 0⟩ cmd with
    | none => ⟨[], .undefined⟩
    | some m => logical_loop w MAX_COMMAND_LENGTH m (some cmd) []

/-- The memory when `main` has read a line into `command`: the local arrays of
the sequencing functions hold nothing yet. -/
def line_read (line : List Char) : Mem :=
  { command := stored line, command_copy := [], cmd_copy := [], next_cmd := [],
    save := ⟨.command, 0⟩ }

/-! ## `handle_redirection` -/

/-- The flags `handle_redirection` passes to `open`. -/
inductive OFlag
  | O_RDONLY
  | O_WRONLY
  | O_CREAT
  | O_TRUNC
  | O_APPEND
  deriving DecidableEq, Repr

/-- A call `open(path, flags)` or `open(path, flags, mode)`. -/
structure OpenCall where
  path : Tok
  flags : List OFlag
  mode : Option Nat
  deriving DecidableEq, Repr

/-- What a standard stream of a process is bound to. -/
inductive Stream
  /-- The stream the interpreter itself has. -/
  | inherited
  /-- The read end `pipes[i][0]`. -/
  | pipe_read (i : Nat)
  /-- The write end `pipes[i][1]`. -/
  | pipe_write (i : Nat)
  /-- The file a successful `open` returned. -/
  | file (call : OpenCall)
  deriving DecidableEq, Repr

/-- The two descriptors `handle_redirection` rebinds with `dup2`. -/
inductive Fd
  | STDIN_FILENO
  | STDOUT_FILENO
  deriving DecidableEq, Repr

/-- The state `handle_redirection` works on: the array `tokens` (strings, `none`
for `NULL`), `*token_count`, the bindings of the two standard streams of the
process, the calls of `open` made so far and the number of calls of `perror`. -/
structure Redir where
  tokens : List (Option Tok)
  token_count : Int
  stdin : Stream
  stdout : Stream
  opened : List OpenCall
  perrors : Nat
  deriving DecidableEq, Repr

/-- How `handle_redirection` ends. -/
inductive RedirEnd
  /-- The scan reached `*token_count` (inside the loop: before the last store). -/
  | finished
  /-- The `return` after `perror("open")`. -/
  | open_failed
  /-- An access to `tokens[i]` with `i` outside the array, or a `strcmp` or
  `open` on `NULL`. -/
  | bad_access (i : Int)
  deriving DecidableEq, Repr

/-- The read `tokens[i]`; `none` when `i` is outside the array. -/
def slot (tokens : List (Option Tok)) (i : Int) : Option (Option Tok) :=
  if 0 ≤ i then tokens[i.toNat]? else none

/-- The store `tokens[i] = x`; `none` when `i` is outside the array. -/
def store (tokens : List (Option Tok)) (i : Int) (x : Option Tok) : Option (List (Option Tok)) :=
  if 0 ≤ i ∧ i.toNat < tokens.length then some (tokens.set i.toNat x) else none

/-- The loop `for (j = i; j < *token_count - 2; j++) tokens[j] = tokens[j + 2];` with
`n` the number of iterations left, `*token_count - 2 - j`. -/
def shift_loop : Nat → Int → List (Option Tok) → Option (List (Option Tok))
  | 0, _, tokens => some tokens
  | n + 1, j, tokens =>
    match slot tokens (j + 2) with
    | none => none
    | some x =>
      match store tokens j x with
      | none => none
      | some tokens => shift_loop n (j + 1) tokens

/-- The calls `dup2(file, fd); close(file);` -/
def Redir.dup2 (st : Redir) (call : OpenCall) : Fd → Redir
  | .STDIN_FILENO => { st with stdin := .file call }
  | .STDOUT_FILENO => { st with stdout := .file call }

/-- The removal of the operator and its file name at the end of a branch: the
shift of the tokens behind them and `*token_count -= 2`.  The result is the
state with what the loop does next: `none` to go on (the branch has done
`i--`), or the way the function ends. -/
def splice (st : Redir) (i : Int) : Redir × Option RedirEnd :=
  match shift_loop (st.token_count - 2 - i).toNat i st.tokens with
  | none => (st, some (.bad_access i))
  | some tokens => ({ st with tokens := tokens, token_count := st.token_count - 2 }, none)

/-- The body of one of the three branches of the scan, for an operator found at
`tokens[i]`; the branches differ in the call of `open` and in the descriptor. -/
def redirect (open_ok : OpenCall → Bool) (st : Redir) (i : Int)
    (call : Tok → OpenCall) (fd : Fd) : Redir × Option RedirEnd :=
  if i + 1 < st.token_count then
    match slot st.tokens (i + 1) with
    | some (some name) =>
      let st := { st with opened := st.opened ++ [call name] }
      if open_ok (call name) then
        splice (st.dup2 (call name) fd) i
      else
        ({ st with perrors := st.perrors + 1 }, some .open_failed)
    | _ => (st, some (.bad_access (i + 1)))
  else
    splice st i

/-- The call `open(tokens[i + 1], O_RDONLY)` -/
def open_in (name : Tok) : OpenCall := ⟨name, [.O_RDONLY], none⟩

/-- The call `open(tokens[i + 1], O_WRONLY | O_CREAT | O_APPEND, 0644)` -/
def open_append (name : Tok) : OpenCall := ⟨name, [.O_WRONLY, .O_CREAT, .O_APPEND], some 0o644⟩

/-- The call `open(tokens[i + 1], O_WRONLY | O_CREAT | O_TRUNC, 0644)` -/
def open_trunc (name : Tok) : OpenCall := ⟨name, [.O_WRONLY, .O_CREAT, .O_TRUNC], some 0o644⟩

/-- The `for (i = 0; i < *token_count; i++)` loop of `handle_redirection`, from
the test of its condition at `i`.  Every iteration makes `*token_count - i`
smaller; `fuel` bounds the number of iterations and `none` is its exhaustion. -/
def redir_loop (open_ok : OpenCall → Bool) : Nat → Int → Redir → Option (Redir × RedirEnd)
  | fuel, i, st =>
    if i < st.token_count then
      match fuel with
      | 0 => none
      | fuel + 1 =>
        match slot st.tokens i with
        | some (some t) =>
          if t = ['<'] then
            match redirect open_ok st i open_in .STDIN_FILENO with
            | (st, some e) => some (st, e)
            | (st, none) => redir_loop open_ok fuel (i - 1 + 1) st
          else if t = ['>', '>'] then
            match redirect open_ok st i open_append .STDOUT_FILENO with
            | (st, some e) => some (st, e)
            | (st, none) => redir_loop open_ok fuel (i - 1 + 1) st
          else if t = ['>'] then
            match redirect open_ok st i open_trunc .STDOUT_FILENO with
            | (st, some e) => some (st, e)
            | (st, none) => redir_loop open_ok fuel (i - 1 + 1) st
          else
            redir_loop open_ok fuel (i + 1) st
        | _ => some (st, .bad_access i)
    else
      some (st, .finished)

/-- The function `handle_redirection(tokens, &token_count)`: the state when it returns and
how it ended; `none` only if the scan did not end within `*token_count`
iterations. -/
def handle_redirection (open_ok : OpenCall → Bool) (st : Redir) : Option (Redir × RedirEnd) :=
  match redir_loop open_ok st.token_count.toNat 0 st with
  | some (st, .finished) =>
    match store st.tokens st.token_count none with
    | some tokens => some ({ st with tokens := tokens }, .finished)
    | none => some (st, .bad_access st.token_count)
  | r => r

/-- The argument vector `execvp(tokens[0], tokens)` passes: the strings of the
array up to its first `NULL`. -/
def argv (tokens : List (Option Tok)) : List Tok :=
  (tokens.takeWhile Option.isSome).filterMap id

/-- The call `handle_redirection(tokens, &token_count)` as `execute_command` and
`handle_piping` make it in a child: the array holds the tokens, then `NULL`,
then `rest`; the streams are the ones the child has. -/
def redir_call (toks : List Tok) (rest : List (Option Tok)) (stdin stdout : Stream) : Redir :=
  { tokens := toks.map some ++ none :: rest, token_count := toks.length,
    stdin := stdin, stdout := stdout, opened := [], perrors := 0 }

/-- Whether a token is one of the operators `<`, `>>`, `>`. -/
def is_redirect (t : Tok) : Bool := t = ['<'] || t = ['>', '>'] || t = ['>']

/-- The functional filter of the specification: the tokens that are neither an
operator met by the left-to-right scan nor the token right after one. -/
def without_redirections : List Tok → List Tok
  | [] => []
  | [t] => if is_redirect t then [] else [t]
  | t :: name :: rest =>
    if is_redirect t then without_redirections rest
    else t :: without_redirections (name :: rest)

/-- Every operator met by the left-to-right scan is followed by another token. -/
def operators_have_names : List Tok → Bool
  | [] => true
  | [t] => !is_redirect t
  | t :: name :: rest =>
    if is_redirect t then operators_have_names rest
    else operators_have_names (name :: rest)

/-! ## `handle_piping`: the stages -/

/-- The token `|`. -/
def pipe_tok : Tok := ['|']

/-- The variables of the first loop of `handle_piping`. -/
structure PipeScan where
  tokens : List (Option Tok)
  pipe_count : Nat
  cmd_start : List Int
  cmd_end : List Int
  deriving DecidableEq, Repr

/-- The loop `for (i = 0; i < token_count; i++)` of `handle_piping` from `i`,
with `n` the number of iterations left, `token_count - i`. -/
def pipe_scan_loop : Nat → Nat → PipeScan → PipeScan
  | 0, _, s => s
  | n + 1, i, s =>
    if s.tokens.getD i none = some pipe_tok then
      pipe_scan_loop n (i + 1)
        { tokens := s.tokens.set i none,
          pipe_count := s.pipe_count + 1,
          cmd_start := s.cmd_start.set (s.pipe_count + 1) (i + 1),
          cmd_end := s.cmd_end.set s.pipe_count (i - 1) }
    else
      pipe_scan_loop n (i + 1) s

/-- The first part of `handle_piping(tokens, token_count)`: the stage ranges.
`cmd_start` and `cmd_end` are the two local arrays as they are on entry. -/
def pipe_scan (tokens : List (Option Tok)) (token_count : Nat) (cmd_start cmd_end : List Int) :
    PipeScan :=
  let s := pipe_scan_loop token_count 0
    { tokens := tokens, pipe_count := 0, cmd_start := cmd_start.set 0 0, cmd_end := cmd_end }
  { s with cmd_end := s.cmd_end.set s.pipe_count (token_count - 1) }

/-- The loop `for (j = cmd_start[i]; j <= cmd_end[i]; j++) cmd_tokens[k++] = tokens[j];`
with `n` the number of iterations left, `cmd_end[i] + 1 - j`. -/
def stage_copy_loop (tokens : List (Option Tok)) :
    Nat → Int → List (Option Tok) → Nat → List (Option Tok) × Nat
  | 0, _, cmd_tokens, k => (cmd_tokens, k)
  | n + 1, j, cmd_tokens, k =>
    stage_copy_loop tokens n (j + 1) (cmd_tokens.set k (tokens.getD j.toNat none)) (k + 1)

/-- The array `cmd_tokens` and `token_count_cmd` that the child of stage `i`
builds in `handle_piping`, `cmd_tokens[k] = NULL` included; `cmd_tokens` is the
local array as it is on entry. -/
def stage_tokens (s : PipeScan) (i : Nat) (cmd_tokens : List (Option Tok)) :
    List (Option Tok) × Nat :=
  let first := s.cmd_start.getD i 0
  let last := s.cmd_end.getD i 0
  let r := stage_copy_loop s.tokens (last + 1 - first).toNat first cmd_tokens 0
  (r.1.set r.2 none, r.2)

/-- The split of the specification: the pieces of a token list between its `|`
tokens. -/
def split_at_pipes : List Tok → List (List Tok)
  | [] => [[]]
  | t :: rest =>
    if t = pipe_tok then [] :: split_at_pipes rest
    else
      match split_at_pipes rest with
      | [] => [[t]]
      | piece :: pieces => (t :: piece) :: pieces

/-- The pieces joined again, with one `|` between two consecutive pieces. -/
def join_with_pipes : List (List Tok) → List Tok
  | [] => []
  | [q] => q
  | q :: q' :: qs => q ++ pipe_tok :: join_with_pipes (q' :: qs)

/-- The index at which every piece of a split starts, when the first piece
starts at index `i` and one `|` stands between two pieces. -/
def stage_starts : Nat → List (List Tok) → List Int
  | _, [] => []
  | i, q :: qs => (i : Int) :: stage_starts (i + q.length + 1) qs

/-- The index at which every piece of a split ends, when the first piece starts
at index `i`; an empty piece ends right before its start. -/
def stage_ends : Nat → List (List Tok) → List Int
  | _, [] => []
  | i, q :: qs => ((i : Int) + (q.length : Int) - 1) :: stage_ends (i + q.length + 1) qs

/-- A token list in which `NULL` stands for every `|`. -/
def pipes_to_null (toks : List Tok) : List (Option Tok) :=
  toks.map (fun t => if t = pipe_tok then none else some t)

/-! ## The history -/

/-- The globals `history` and `history_count`; a row of `history` is given by
the C string it holds. -/
structure History where
  history : List Tok
  history_count : Nat
  deriving DecidableEq, Repr

/-- The globals when the program starts: zero-initialised. -/
def history_start : History := ⟨List.replicate MAX_HISTORY [], 0⟩

/-- The loop `for (int i = 1; i < MAX_HISTORY; i++) strcpy(history[i-1], history[i]);`
with `n` the number of iterations left, `MAX_HISTORY - i`. -/
def history_shift : Nat → Nat → List Tok → List Tok
  | 0, _, history => history
  | n + 1, i, history => history_shift n (i + 1) (history.set (i - 1) (history.getD i []))

/-- The function `add_to_history(command)` -/
def add_to_history (h : History) (command : Tok) : History :=
  if h.history_count < MAX_HISTORY then
    { history := h.history.set h.history_count command, history_count := h.history_count + 1 }
  else
    { history := (history_shift (MAX_HISTORY - 1) 1 h.history).set (MAX_HISTORY - 1) command,
      history_count := h.history_count }

/-- The function `display_history()`: the lines it prints, each as the number and the text
that `printf("%d: %s\n", i+1, history[i])` formats. -/
def display_history (h : History) : List (Nat × Tok) :=
  (List.range h.history_count).map (fun i => (i + 1, h.history.getD i []))

/-- Local arrays `cmd_start`, `cmd_end` of `handle_piping` on entry. -/
def unset_ranges : List Int := List.replicate MAX_TOKENS 0

/-- The local array `cmd_tokens` of a stage child on entry. -/
def unset_tokens : List (Option Tok) := List.replicate MAX_TOKENS none

/-! ## `execute_command`, the processes of `handle_piping`, `main` -/

/-- The operating system as `execute_command` and `handle_piping` see it in one
call: whether a call of `open` succeeds, whether the `k`-th `fork` of the call
succeeds, whether `pipe(pipes[i])` succeeds, whether `chdir(path)` succeeds, and
the value `getenv("HOME")` returns. -/
structure Sys where
  open_ok : OpenCall → Bool
  fork_ok : Nat → Bool
  pipe_ok : Nat → Bool
  chdir_ok : Tok → Bool
  home : Tok

/-- What a call of `execute_command` or of `handle_piping` does: the working
directory of the interpreter afterwards (the path of the last `chdir` that
succeeded), the arguments of the calls of `perror` the interpreter made, the
children it forked in order, each given by its call of `handle_redirection`
(the state in which it calls `execvp(tokens[0], tokens)`), and how the call
stops. -/
structure Cmd where
  cwd : Tok
  perrors : List Tok
  children : List (Option (Redir × RedirEnd))
  halt : Halt
  deriving DecidableEq, Repr

/-- The first argument of `execvp(tokens[0], tokens)`: the slot `tokens[0]`,
`none` when it holds `NULL`. -/
def program (st : Redir) : Option Tok := st.tokens.getD 0 none

/-- The loop `for (i = 0; i < pipe_count; i++) if (pipe(pipes[i]) < 0) ...` from
`i`, with `n` the number of iterations left: whether every `pipe` succeeds. -/
def create_pipes (sys : Sys) : Nat → Nat → Bool
  | 0, _ => true
  | n + 1, i => if sys.pipe_ok i then create_pipes sys n (i + 1) else false

/-- The child of stage `i` in `handle_piping`, from `fork` to `execvp`: the two
`dup2` on the pipe ends, the copy of its tokens into `cmd_tokens`, and its call
of `handle_redirection`. -/
def stage_child (sys : Sys) (s : PipeScan) (i : Nat) : Option (Redir × RedirEnd) :=
  let stdin := if 0 < i then Stream.pipe_read (i - 1) else Stream.inherited
  let stdout := if i < s.pipe_count then Stream.pipe_write i else Stream.inherited
  let c := stage_tokens s i unset_tokens
  handle_redirection sys.open_ok
    { tokens := c.1, token_count := c.2, stdin := stdin, stdout := stdout, opened := [],
      perrors := 0 }

/-- The loop `for (i = 0; i <= pipe_count; i++)` of `handle_piping` that forks
the stages, from `i`, with `n` the number of iterations left: the children
forked, and `exited` when a `fork` failed. -/
def fork_stages (sys : Sys) (s : PipeScan) :
    Nat → Nat → List (Option (Redir × RedirEnd)) → List (Option (Redir × RedirEnd)) × Halt
  | 0, _, children => (children, .returned)
  | n + 1, i, children =>
    if sys.fork_ok i then fork_stages sys s n (i + 1) (children ++ [stage_child sys s i])
    else (children, .exited)

/-- The function `handle_piping(tokens, token_count)`, called with the array
that holds the tokens and then `NULL`. -/
def handle_piping (sys : Sys) (cwd : Tok) (toks : List Tok) : Cmd :=
  let s := pipe_scan (toks.map some ++ [none]) toks.length unset_ranges unset_ranges
  if create_pipes sys s.pipe_count 0 then
    let r := fork_stages sys s (s.pipe_count + 1) 0 []
    match r.2 with
    | .exited => ⟨cwd, [tok "fork"], r.1, .exited⟩
    | _ => ⟨cwd, [], r.1, .returned⟩
  else
    ⟨cwd, [tok "pipe"], [], .returned⟩

/-- The function `execute_command(tokens, token_count)`, called with the array
that holds the tokens and then `NULL`.  The local array `tokens_copy` has
`MAX_TOKENS` slots: the copy of the tokens, `NULL`, and the slots behind it as
they are on entry; the store `tokens_copy[token_count] = NULL` needs
`token_count < MAX_TOKENS`. -/
def execute_command (sys : Sys) (cwd : Tok) (toks : List Tok) : Cmd :=
  if pipe_tok ∈ toks then
    handle_piping sys cwd toks
  else if MAX_TOKENS ≤ toks.length then
    ⟨cwd, [], [], .undefined⟩
  else
    let tokens_copy := redir_call toks (unset_tokens.drop (toks.length + 1)) .inherited .inherited
    match toks with
    | [] => ⟨cwd, [], [], .undefined⟩
    | t0 :: args =>
      if t0 = tok "cd" then
        match args with
        | [] => ⟨if sys.chdir_ok sys.home then sys.home else cwd, [], [], .returned⟩
        | path :: _ =>
          if path = tok "~" then
            ⟨if sys.chdir_ok sys.home then sys.home else cwd, [], [], .returned⟩
          else if sys.chdir_ok path then
            ⟨path, [], [], .returned⟩
          else
            ⟨cwd, [tok "cd"], [], .returned⟩
      else if sys.fork_ok 0 then
        ⟨cwd, [], [handle_redirection sys.open_ok tokens_copy], .returned⟩
      else
        ⟨cwd, [tok "fork"], [], .exited⟩

/-- How one iteration of the `while (1)` loop of `main` ends. -/
inductive LineEnd
  /-- The loop goes on to the next prompt. -/
  | next_prompt
  /-- The `break` on `exit` and `quit`: `main` returns 0. -/
  | break_loop
  /-- The interpreter ends with `exit(EXIT_FAILURE)`. -/
  | exit_failure
  /-- A call that C leaves undefined. -/
  | undefined
  /-- The iteration bound of the embedding was reached. -/
  | out_of_fuel
  deriving DecidableEq, Repr

/-- The test `strstr(command, "&&") != NULL`. -/
def has_and : List Char → Bool
  | [] => false
  | [_] => false
  | c :: d :: rest => (c == '&' && d == '&') || has_and (d :: rest)

/-- How the iteration ends after a sequencing function ran: the interpreter
ends at the first call of `execute_command` in which a `fork` fails, else as
the sequencing function stopped. -/
def line_end (sys : Sys) (cwd : Tok) (r : Run) : LineEnd :=
  if r.trace.any (fun e =>
      match e with
      | .dispatch argv => (execute_command sys cwd argv).halt == .exited
      | _ => false) then
    .exit_failure
  else
    match r.halt with
    | .returned => .next_prompt
    | .exited => .exit_failure
    | .undefined => .undefined
    | .out_of_fuel => .out_of_fuel

/-- One iteration of the loop of `main` once `read_command` has filled
`command`: how it ends.  The history and the working directory have no part in
that. -/
def main_line (w : World) (sys : Sys) (m : Mem) (cwd : Tok) : LineEnd :=
  let command := m.str ⟨.command, 0⟩
  if command = tok "exit" ∨ command = tok "quit" then
    .break_loop
  else if ';' ∈ command then
    line_end sys cwd (execute_multiple_commands m ⟨.command, 0⟩)
  else if has_and command then
    line_end sys cwd (execute_logical_commands w m ⟨.command, 0⟩)
  else if command = tok "history" then
    .next_prompt
  else
    let p := parse_command m ⟨.command, 0⟩ fresh_tokens
    if 0 < p.2.2 then
      match (execute_command sys cwd (argv_of p.1 p.2.1)).halt with
      | .exited => .exit_failure
      | .undefined => .undefined
      | _ => .next_prompt
    else
      .next_prompt

/-! ## The redirections of the specification -/

/-- Whether a call of `open` is the one made for `<`. -/
def is_input (call : OpenCall) : Bool := call.flags == [.O_RDONLY]

/-- Whether a call of `open` is one made for `>` or `>>`. -/
def is_output (call : OpenCall) : Bool := call.flags.contains .O_WRONLY

/-- The binding of a stream after the given calls of `open`: the file of the
last call of the kind `kind` that succeeded, the binding `init` when there is
none. -/
def bound (open_ok : OpenCall → Bool) (kind : OpenCall → Bool) (init : Stream)
    (calls : List OpenCall) : Stream :=
  match (calls.filter (fun c => kind c && open_ok c)).getLast? with
  | some c => .file c
  | none => init

/-- The redirections of a token list in scan order, each as the call of `open`
the specification gives its operator: `<` read-only; `>>` write-only, create,
append, permission 0644; `>` write-only, create, truncate, permission 0644. -/
def redirections : List Tok → List OpenCall
  | [] => []
  | [_] => []
  | t :: name :: rest =>
    if t = ['<'] then ⟨name, [.O_RDONLY], none⟩ :: redirections rest
    else if t = ['>', '>'] then
      ⟨name, [.O_WRONLY, .O_CREAT, .O_APPEND], some 0o644⟩ :: redirections rest
    else if t = ['>'] then
      ⟨name, [.O_WRONLY, .O_CREAT, .O_TRUNC], some 0o644⟩ :: redirections rest
    else redirections (name :: rest)

/-! ## Inputs used in the theorems -/

/-- The call of a sequencing function on a line: `command` of `main` holds it. -/
def command_ptr : Ptr := ⟨.command, 0⟩

/-- An operating system in which every `fork` succeeds and every child exits
with the given status: `waitpid` stores `256 * status`. -/
def all_exit (status : Nat) : World := ⟨fun _ => true, fun _ => 256 * status⟩

/-- An operating system whose answers for the first two children are given and
whose other answers are those of `w`. -/
def World.start (f0 f1 : Bool) (s0 s1 : Nat) (w : World) : World :=
  ⟨fun k => if k = 0 then f0 else if k = 1 then f1 else w.fork_ok k,
   fun k => if k = 0 then s0 else if k = 1 then s1 else w.status k⟩

/-- A file system in which every `open` succeeds but the ones on `missing`. -/
def missing_fails : OpenCall → Bool := fun call => call.path != tok "missing"

/-- An operating system in which every call succeeds. -/
def sys_ok : Sys := ⟨fun _ => true, fun _ => true, fun _ => true, fun _ => true, tok "/home/user"⟩

/-- An operating system in which every `fork` fails. -/
def sys_no_fork : Sys :=
  ⟨fun _ => true, fun _ => false, fun _ => true, fun _ => true, tok "/home/user"⟩

/-- An operating system in which no `chdir` succeeds. -/
def sys_no_chdir : Sys :=
  ⟨fun _ => true, fun _ => true, fun _ => true, fun _ => false, tok "/home/user"⟩

/-- A world in which every `fork` of `execute_logical_commands` fails. -/
def world_no_fork : World := ⟨fun _ => false, fun _ => 0⟩

/-- A world in which the first `fork` of `execute_logical_commands` succeeds, its
child exits with status zero, and every later `fork` fails. -/
def world_one_fork : World := ⟨fun k => k == 0, fun _ => 0⟩

/-- A line of 100 words: `a a a ... a`. -/
def hundred_words : List Char := (List.replicate 99 ['a', ' ']).flatten ++ ['a']

/-- Lines to append to the history: `n` different lines of one character. -/
def sample_lines (n : Nat) : List Tok := (List.range n).map (fun i => [Char.ofNat (i + 33)])

/-! # Theorems -/

/-! ## Lists as arrays -/

theorem getElem?_at_length {α} (A : List α) (x : α) (R : List α) :
    (A ++ x :: R)[A.length]? = some x := by
  rw [List.getElem?_append_right (le_refl _)]
  simp

theorem getElem?_at_length_add_one {α} (A : List α) (x y : α) (R : List α) :
    (A ++ x :: y :: R)[A.length + 1]? = some y := by
  rw [List.getElem?_append_right (by omega)]
  simp

theorem getElem?_at_length_add_two {α} (A : List α) (x y z : α) (R : List α) :
    (A ++ x :: y :: z :: R)[A.length + 2]? = some z := by
  rw [List.getElem?_append_right (by omega)]
  simp

theorem set_at_length {α} (A : List α) (x y : α) (R : List α) :
    (A ++ x :: R).set A.length y = A ++ y :: R := by
  simp

/-! ## `execute_multiple_commands` -/

/-- C1 (the code fails it): on the line `false ; echo hi` the function
`execute_multiple_commands` calls `execute_command` once, on `false`, and
returns; the piece `echo hi` is never dispatched.  The `strtok(NULL, ";")` at
the end of the loop body resumes at the position `parse_command` left in
`cmd_copy`, which is the end of that string. -/
theorem execute_multiple_commands_drops_second_piece :
    execute_multiple_commands (line_read (tok "false ; echo hi")) command_ptr
      = ⟨[Event.dispatch [tok "false"]], Halt.returned⟩ := by
  decide

/-! ## `strtok` on a buffer of known shape -/

theorem peek_at_length (A : Buf) (x : Char) (R : Buf) : peek (A ++ x :: R) A.length = x := by
  rw [peek, List.getD_eq_getElem?_getD, getElem?_at_length]; rfl

theorem drop_at_length (A R : Buf) : (A ++ R).drop A.length = R := by
  simp

/-- A run of delimiters `bl` that ends at a byte that is no delimiter, or at
the terminator, is what `strspn` measures. -/
theorem strspn_run (delim : List Char) (A bl : Buf) (x : Char) (R : Buf)
    (hbl : ∀ c ∈ bl, c ≠ NUL ∧ c ∈ delim)
    (hx : x = NUL ∨ x ∉ delim) :
    strspn (A ++ (bl ++ x :: R)) A.length delim = bl.length := by
  simp only [strspn, drop_at_length]
  induction bl with
  | nil =>
    rcases hx with h | h <;> simp [List.takeWhile_cons, h]
  | cons c bl ih =>
    have hc := hbl c (by simp)
    simp only [List.cons_append, List.takeWhile_cons]
    have : (c != NUL && delim.contains c) = true := by simp [hc.1, hc.2]
    simp only [this, if_true, List.length_cons]
    rw [ih (fun d hd => hbl d (by simp [hd]))]

/-- A run `w` of bytes that are no delimiters and that ends at a delimiter, or
at the terminator, is what `strcspn` measures. -/
theorem strcspn_run (delim : List Char) (A w : Buf) (x : Char) (R : Buf)
    (hw : ∀ c ∈ w, c ≠ NUL ∧ c ∉ delim)
    (hx : x = NUL ∨ x ∈ delim) :
    strcspn (A ++ (w ++ x :: R)) A.length delim = w.length := by
  simp only [strcspn, drop_at_length]
  induction w with
  | nil =>
    rcases hx with h | h <;> simp [List.takeWhile_cons, h]
  | cons c w ih =>
    have hc := hw c (by simp)
    simp only [List.cons_append, List.takeWhile_cons]
    have : (c != NUL && !delim.contains c) = true := by simp [hc.1, hc.2]
    simp only [this, if_true, List.length_cons]
    rw [ih (fun d hd => hw d (by simp [hd]))]

theorem cstr_run (A w R : Buf) (hw : ∀ c ∈ w, c ≠ NUL) :
    cstr (A ++ (w ++ NUL :: R)) A.length = w := by
  simp only [cstr, drop_at_length]
  induction w with
  | nil => simp [List.takeWhile_cons]
  | cons c w ih =>
    have hc := hw c (by simp)
    simp only [List.cons_append, List.takeWhile_cons]
    have : (c != NUL) = true := by simp [hc]
    simp only [this, if_true]
    rw [ih (fun d hd => hw d (by simp [hd]))]

@[simp] theorem Mem.get_put (m : Mem) (b : BufId) (x : Buf) : (m.put b x).get b = x := by
  cases b <;> rfl

@[simp] theorem Mem.get_with_save (m : Mem) (p : Ptr) (b : BufId) :
    ({ m with save := p } : Mem).get b = m.get b := by
  cases b <;> rfl

theorem Mem.get_put_of_ne (m : Mem) (b b' : BufId) (x : Buf) (h : b' ≠ b) :
    (m.put b x).get b' = m.get b' := by
  cases b <;> cases b' <;> first | rfl | exact absurd rfl h

/-- The call `strtok(NULL, delim)` when only delimiters stand between the saved
position and the terminator: no token, nothing is written. -/
theorem strtok_none_left (m : Mem) (delim : List Char) (buf : BufId) (done bl junk : Buf)
    (hsave : m.save = ⟨buf, done.length⟩) (hbuf : m.get buf = done ++ (bl ++ NUL :: junk))
    (hbl : ∀ c ∈ bl, c ≠ NUL ∧ c ∈ delim) :
    strtok m none delim = ({ m with save := ⟨buf, done.length + bl.length⟩ }, none) := by
  simp only [strtok, hsave, hbuf]
  cases bl with
  | nil => simp [peek_at_length]
  | cons c bl =>
    have h0 : peek (done ++ (c :: bl ++ NUL :: junk)) done.length = c := peek_at_length _ _ _
    have hc : c ≠ NUL := (hbl c (by simp)).1
    have h1 : strspn (done ++ (c :: bl ++ NUL :: junk)) done.length delim = (c :: bl).length :=
      strspn_run delim done (c :: bl) NUL junk hbl (Or.inl rfl)
    have h2 : peek (done ++ (c :: bl ++ NUL :: junk)) (done.length + (c :: bl).length) = NUL := by
      have := peek_at_length (done ++ (c :: bl)) NUL junk
      simpa using this
    simp only [h0, hc, if_false, h1, h2, if_true]

/-- The call `strtok(NULL, delim)` when a token `w` runs up to the terminator: the token
starts behind the delimiters `bl`, nothing is written, the saved position is
the terminator. -/
theorem strtok_last_token (m : Mem) (delim : List Char) (buf : BufId) (done bl w junk : Buf)
    (hsave : m.save = ⟨buf, done.length⟩) (hbuf : m.get buf = done ++ (bl ++ (w ++ NUL :: junk)))
    (hbl : ∀ c ∈ bl, c ≠ NUL ∧ c ∈ delim) (hw : ∀ c ∈ w, c ≠ NUL ∧ c ∉ delim) (hne : w ≠ []) :
    strtok m none delim
      = ({ m with save := ⟨buf, done.length + bl.length + w.length⟩ },
          some ⟨buf, done.length + bl.length⟩) := by
  obtain ⟨x, w', rfl⟩ : ∃ x w', w = x :: w' := by
    cases w with
    | nil => exact absurd rfl hne
    | cons x w' => exact ⟨x, w', rfl⟩
  have hx := hw x (by simp)
  have h0 : peek (done ++ (bl ++ (x :: w' ++ NUL :: junk))) done.length ≠ NUL := by
    cases bl with
    | nil => simpa [peek_at_length] using hx.1
    | cons c bl =>
      have := peek_at_length done c (bl ++ (x :: w' ++ NUL :: junk))
      simp only [List.cons_append] at this ⊢
      rw [this]; exact (hbl c (by simp)).1
  have h1 : strspn (done ++ (bl ++ (x :: w' ++ NUL :: junk))) done.length delim = bl.length :=
    strspn_run delim done bl x (w' ++ NUL :: junk) hbl (Or.inr hx.2)
  have h2 : peek (done ++ (bl ++ (x :: w' ++ NUL :: junk))) (done.length + bl.length) = x := by
    have := peek_at_length (done ++ bl) x (w' ++ NUL :: junk)
    simpa using this
  have h3 : strcspn (done ++ (bl ++ (x :: w' ++ NUL :: junk))) (done.length + bl.length) delim
      = (x :: w').length := by
    have := strcspn_run delim (done ++ bl) (x :: w') NUL junk hw (Or.inl rfl)
    simpa using this
  have h4 : peek (done ++ (bl ++ (x :: w' ++ NUL :: junk)))
      (done.length + bl.length + (x :: w').length) = NUL := by
    have := peek_at_length (done ++ bl ++ (x :: w')) NUL junk
    simpa [Nat.add_assoc] using this
  simp only [strtok, hsave, hbuf, h0, if_false, h1, h2, hx.1, h3, h4, if_true]

/-- The call `strtok(NULL, delim)` when a token `w` is followed by a delimiter: that
delimiter is overwritten by the terminator and the saved position is the byte
behind it. -/
theorem strtok_cut_token (m : Mem) (delim : List Char) (buf : BufId) (done bl w : Buf) (c : Char)
    (tail : Buf) (hsave : m.save = ⟨buf, done.length⟩)
    (hbuf : m.get buf = done ++ (bl ++ (w ++ c :: tail)))
    (hbl : ∀ c ∈ bl, c ≠ NUL ∧ c ∈ delim) (hw : ∀ c ∈ w, c ≠ NUL ∧ c ∉ delim) (hne : w ≠ [])
    (hc : c ≠ NUL ∧ c ∈ delim) :
    strtok m none delim
      = ({ m.put buf (done ++ (bl ++ (w ++ NUL :: tail))) with
            save := ⟨buf, done.length + bl.length + w.length + 1⟩ },
          some ⟨buf, done.length + bl.length⟩) := by
  obtain ⟨x, w', rfl⟩ : ∃ x w', w = x :: w' := by
    cases w with
    | nil => exact absurd rfl hne
    | cons x w' => exact ⟨x, w', rfl⟩
  have hx := hw x (by simp)
  have h0 : peek (done ++ (bl ++ (x :: w' ++ c :: tail))) done.length ≠ NUL := by
    cases bl with
    | nil => simpa [peek_at_length] using hx.1
    | cons d bl =>
      have := peek_at_length done d (bl ++ (x :: w' ++ c :: tail))
      simp only [List.cons_append] at this ⊢
      rw [this]; exact (hbl d (by simp)).1
  have h1 : strspn (done ++ (bl ++ (x :: w' ++ c :: tail))) done.length delim = bl.length :=
    strspn_run delim done bl x (w' ++ c :: tail) hbl (Or.inr hx.2)
  have h2 : peek (done ++ (bl ++ (x :: w' ++ c :: tail))) (done.length + bl.length) = x := by
    have := peek_at_length (done ++ bl) x (w' ++ c :: tail)
    simpa using this
  have h3 : strcspn (done ++ (bl ++ (x :: w' ++ c :: tail))) (done.length + bl.length) delim
      = (x :: w').length := by
    have := strcspn_run delim (done ++ bl) (x :: w') c tail hw (Or.inr hc.2)
    simpa using this
  have h4 : peek (done ++ (bl ++ (x :: w' ++ c :: tail)))
      (done.length + bl.length + (x :: w').length) = c := by
    have := peek_at_length (done ++ bl ++ (x :: w')) c tail
    simpa [Nat.add_assoc] using this
  have h5 : (done ++ (bl ++ (x :: w' ++ c :: tail))).set
      (done.length + bl.length + (x :: w').length) NUL = done ++ (bl ++ (x :: w' ++ NUL :: tail)) := by
    have := set_at_length (done ++ bl ++ (x :: w')) c NUL tail
    simp only [List.length_append, List.append_assoc] at this
    rw [Nat.add_assoc]; exact this
  simp only [strtok, hsave, hbuf, h0, if_false, h1, h2, hx.1, h3, h4, hc.1, h5]

theorem strtok_some (m : Mem) (p : Ptr) (delim : List Char) :
    strtok m (some p) delim = strtok { m with save := p } none delim := by
  simp only [strtok, Mem.get_with_save]
  cases hb : p.buf <;> rfl

/-! ## The words of a line -/

theorem words_nil : words [] = [] := by
  simp [words, List.splitOnP_nil]

theorem words_cons_blank (c : Char) (s : List Char) (hc : is_blank c = true) :
    words (c :: s) = words s := by
  simp [words, List.splitOnP_cons, hc]

theorem words_blanks_append (bl s : List Char) (hbl : ∀ c ∈ bl, is_blank c = true) :
    words (bl ++ s) = words s := by
  induction bl with
  | nil => rfl
  | cons c bl ih =>
    rw [List.cons_append, words_cons_blank _ _ (hbl c (by simp)),
      ih (fun d hd => hbl d (by simp [hd]))]

theorem words_run (w : List Char) (hw : ∀ c ∈ w, is_blank c = false) (hne : w ≠ []) :
    words w = [w] := by
  have : w.splitOnP is_blank = [w] :=
    List.splitOnP_eq_single is_blank w (fun x hx => by simp [hw x hx])
  simp [words, this, hne]

theorem words_run_blank (w : List Char) (c : Char) (r : List Char)
    (hw : ∀ c ∈ w, is_blank c = false) (hne : w ≠ []) (hc : is_blank c = true) :
    words (w ++ c :: r) = w :: words r := by
  have : (w ++ c :: r).splitOnP is_blank = w :: r.splitOnP is_blank :=
    List.splitOnP_first is_blank w (fun x hx => by simp [hw x hx]) c hc r
  simp [words, this, hne]

/-- A line is blanks only, or blanks and a last word, or blanks, a word, a
blank and a rest. -/
theorem line_shape (s : List Char) :
    (∀ c ∈ s, is_blank c = true)
    ∨ (∃ bl w, s = bl ++ w ∧ (∀ c ∈ bl, is_blank c = true) ∧ (∀ c ∈ w, is_blank c = false)
        ∧ w ≠ [])
    ∨ (∃ bl w c r, s = bl ++ (w ++ c :: r) ∧ (∀ c ∈ bl, is_blank c = true)
        ∧ (∀ c ∈ w, is_blank c = false) ∧ w ≠ [] ∧ is_blank c = true) := by
  induction s with
  | nil => left; simp
  | cons a s ih =>
    by_cases ha : is_blank a = true
    · rcases ih with h | ⟨bl, w, rfl, h1, h2, h3⟩ | ⟨bl, w, c, r, rfl, h1, h2, h3, h4⟩
      · left; intro c hc
        rcases List.mem_cons.1 hc with h' | h'
        · rw [h']; exact ha
        · exact h c h'
      · right; left
        refine ⟨a :: bl, w, rfl, ?_, h2, h3⟩
        intro c hc
        rcases List.mem_cons.1 hc with h' | h'
        · rw [h']; exact ha
        · exact h1 c h'
      · right; right
        refine ⟨a :: bl, w, c, r, rfl, ?_, h2, h3, h4⟩
        intro c hc
        rcases List.mem_cons.1 hc with h' | h'
        · rw [h']; exact ha
        · exact h1 c h'
    · have ha' : is_blank a = false := by simpa using ha
      rcases ih with h | ⟨bl, w, rfl, h1, h2, h3⟩ | ⟨bl, w, c, r, rfl, h1, h2, h3, h4⟩
      · cases s with
        | nil => right; left; exact ⟨[], [a], rfl, by simp, by simpa using ha', by simp⟩
        | cons c r =>
          right; right
          exact ⟨[], [a], c, r, rfl, by simp, by simpa using ha', by simp, h c (by simp)⟩
      · cases bl with
        | nil =>
          right; left
          refine ⟨[], a :: w, rfl, by simp, ?_, by simp⟩
          intro c hc
          rcases List.mem_cons.1 hc with h' | h'
          · rw [h']; exact ha'
          · exact h2 c h'
        | cons b bl =>
          right; right
          exact ⟨[], [a], b, bl ++ w, rfl, by simp, by simpa using ha', by simp, h1 b (by simp)⟩
      · cases bl with
        | nil =>
          right; right
          refine ⟨[], a :: w, c, r, rfl, by simp, ?_, by simp, h4⟩
          intro c hc
          rcases List.mem_cons.1 hc with h' | h'
          · rw [h']; exact ha'
          · exact h2 c h'
        | cons b bl =>
          right; right
          exact ⟨[], [a], b, bl ++ (w ++ c :: r), rfl, by simp, by simpa using ha', by simp,
            h1 b (by simp)⟩

theorem blank_is_delim (c : Char) : is_blank c = true ↔ c ∈ blanks := by
  simp [is_blank, blanks]

theorem blank_ne_nul (c : Char) (h : is_blank c = true) : c ≠ NUL := by
  intro hc
  rw [hc] at h
  revert h
  decide

theorem not_blank_not_delim (c : Char) (h : is_blank c = false) : c ∉ blanks := by
  intro hm
  rw [(blank_is_delim c).2 hm] at h
  exact absurd h (by simp)

/-! ## `parse_command` returns the words of the line -/

/-- The loop of `parse_command` entered with the token of a call
`strtok(NULL, " \t")`, when the bytes from the saved position to the terminator
are `rem`: the slots from `TK.length` on receive pointers to the first `room`
words of `rem`, and only bytes of `rem` are overwritten. -/
theorem parse_loop_spec : ∀ (room : Nat) (m : Mem) (buf : BufId) (done rem junk : Buf)
    (TK slots : List (Option Ptr)),
    m.save = ⟨buf, done.length⟩ → m.get buf = done ++ (rem ++ NUL :: junk) →
    (∀ c ∈ rem, c ≠ NUL) → room ≤ slots.length →
    ∃ (new : List Ptr) (rem' : Buf) (m' : Mem),
      parse_loop room (strtok m none blanks).1 (strtok m none blanks).2 (TK ++ slots) TK.length
        = (m', TK ++ (new.map some ++ slots.drop new.length), TK.length + new.length)
      ∧ new.map m'.str = (words rem).take room
      ∧ m'.get buf = done ++ (rem' ++ NUL :: junk) ∧ rem'.length = rem.length
      ∧ (∀ b', b' ≠ buf → m'.get b' = m.get b')
      ∧ ((words rem).length ≤ room → m'.save = ⟨buf, done.length + rem.length⟩) := by
  intro room
  induction room with
  | zero =>
    intro m buf done rem junk TK slots hsave hbuf hnul _
    refine ⟨[], ?_⟩
    simp only [parse_loop, List.map_nil, List.length_nil, List.drop_zero, List.nil_append,
      Nat.add_zero, List.take_zero, true_and, exists_and_left]
    rcases line_shape rem with h | ⟨bl, w, rfl, h1, h2, h3⟩ | ⟨bl, w, c, r, rfl, h1, h2, h3, h4⟩
    · rw [strtok_none_left m blanks buf done rem junk hsave hbuf
        (fun c hc => ⟨hnul c hc, (blank_is_delim c).1 (h c hc)⟩)]
      exact ⟨rem, _, rfl, by simpa using hbuf, rfl, fun b' _ => by simp, fun _ => rfl⟩
    · rw [strtok_last_token m blanks buf done bl w junk hsave (by simpa using hbuf)
        (fun c hc => ⟨blank_ne_nul c (h1 c hc), (blank_is_delim c).1 (h1 c hc)⟩)
        (fun c hc => ⟨hnul c (by simp [hc]), not_blank_not_delim c (h2 c hc)⟩) h3]
      refine ⟨bl ++ w, _, rfl, by simpa using hbuf, rfl, fun b' _ => by simp, fun hle => ?_⟩
      rw [words_blanks_append bl w h1, words_run w h2 h3] at hle
      simp at hle
    · rw [strtok_cut_token m blanks buf done bl w c (r ++ NUL :: junk) hsave (by simpa using hbuf)
        (fun c hc => ⟨blank_ne_nul c (h1 c hc), (blank_is_delim c).1 (h1 c hc)⟩)
        (fun c hc => ⟨hnul c (by simp [hc]), not_blank_not_delim c (h2 c hc)⟩) h3
        ⟨blank_ne_nul c h4, (blank_is_delim c).1 h4⟩]
      refine ⟨bl ++ (w ++ NUL :: r), _, rfl, by simp, by simp, fun b' hb' => ?_, fun hle => ?_⟩
      · simp [Mem.get_put_of_ne _ _ _ _ hb']
      · rw [words_blanks_append bl _ h1, words_run_blank w c r h2 h3 h4] at hle
        simp at hle
  | succ room ih =>
    intro m buf done rem junk TK slots hsave hbuf hnul hroom
    obtain ⟨s0, slots', rfl⟩ : ∃ s0 slots', slots = s0 :: slots' := by
      cases slots with
      | nil => simp at hroom
      | cons s0 slots' => exact ⟨s0, slots', rfl⟩
    have hroom' : room ≤ slots'.length := by simpa using hroom
    rcases line_shape rem with h | ⟨bl, w, rfl, h1, h2, h3⟩ | ⟨bl, w, c, r, rfl, h1, h2, h3, h4⟩
    · -- no token is left
      rw [strtok_none_left m blanks buf done rem junk hsave hbuf
        (fun c hc => ⟨hnul c hc, (blank_is_delim c).1 (h c hc)⟩)]
      have hw : words rem = [] := by
        have := words_blanks_append rem [] h
        rw [List.append_nil, words_nil] at this
        exact this
      refine ⟨[], rem, { m with save := ⟨buf, done.length + rem.length⟩ }, by simp [parse_loop],
        by simp [hw], by simpa using hbuf, rfl, fun b' _ => by simp, fun _ => rfl⟩
    · -- the last token
      have hbl : ∀ c ∈ bl, c ≠ NUL ∧ c ∈ blanks :=
        fun c hc => ⟨blank_ne_nul c (h1 c hc), (blank_is_delim c).1 (h1 c hc)⟩
      have hwd : ∀ c ∈ w, c ≠ NUL ∧ c ∉ blanks := fun c hc => ⟨hnul c (by simp [hc]), not_blank_not_delim c (h2 c hc)⟩
      rw [strtok_last_token m blanks buf done bl w junk hsave (by simpa using hbuf) hbl hwd h3]
      obtain ⟨new, rem', m', e1, e2, e3, e4, e5, e6⟩ :=
        ih { m with save := ⟨buf, done.length + bl.length + w.length⟩ } buf (done ++ (bl ++ w)) []
          junk (TK ++ [some ⟨buf, done.length + bl.length⟩]) slots'
          (by simp [Nat.add_assoc]) (by simpa using hbuf) (by simp) hroom'
      have hnew : new = [] := by
        have := congrArg List.length e2
        simpa [words_nil] using this
      subst hnew
      have hrem' : rem' = [] := List.length_eq_zero.1 (by simpa using e4)
      subst hrem'
      refine ⟨[⟨buf, done.length + bl.length⟩], bl ++ w, m', ?_, ?_, by simpa using e3, rfl, ?_,
        fun _ => ?_⟩
      · simp only [parse_loop, set_at_length]
        simp only [List.length_append, List.length_singleton, List.map_nil, List.nil_append,
          List.length_nil, List.drop_zero, Nat.add_zero, List.append_assoc,
          List.singleton_append] at e1
        rw [e1]
        simp
      · have hstr : m'.str ⟨buf, done.length + bl.length⟩ = w := by
          simp only [Mem.str, e3]
          have := cstr_run (done ++ bl) w junk (fun c hc => (hwd c hc).1)
          simpa using this
        have hw : words (bl ++ w) = [w] := by
          rw [words_blanks_append bl w h1, words_run w h2 h3]
        simp [hstr, hw]
      · intro b' hb'
        rw [e5 b' hb']; simp
      · rw [e6 (by simp [words_nil])]
        simp [Nat.add_assoc]
    · -- a token that a blank follows
      have hbl : ∀ c ∈ bl, c ≠ NUL ∧ c ∈ blanks :=
        fun c hc => ⟨blank_ne_nul c (h1 c hc), (blank_is_delim c).1 (h1 c hc)⟩
      have hwd : ∀ c ∈ w, c ≠ NUL ∧ c ∉ blanks := fun c hc => ⟨hnul c (by simp [hc]), not_blank_not_delim c (h2 c hc)⟩
      rw [strtok_cut_token m blanks buf done bl w c (r ++ NUL :: junk) hsave (by simpa using hbuf)
        hbl hwd h3
        ⟨blank_ne_nul c h4, (blank_is_delim c).1 h4⟩]
      obtain ⟨new, rem', m', e1, e2, e3, e4, e5, e6⟩ :=
        ih { m.put buf (done ++ (bl ++ (w ++ NUL :: (r ++ NUL :: junk)))) with
              save := ⟨buf, done.length + bl.length + w.length + 1⟩ } buf
          (done ++ (bl ++ (w ++ [NUL]))) r junk (TK ++ [some ⟨buf, done.length + bl.length⟩]) slots'
          (by simp [Nat.add_assoc]) (by simp) (fun c hc => hnul c (by simp [hc])) hroom'
      refine ⟨⟨buf, done.length + bl.length⟩ :: new, bl ++ (w ++ NUL :: rem'), m', ?_, ?_,
        by simpa using e3, by simp [e4], ?_, fun hle => ?_⟩
      · simp only [parse_loop, set_at_length]
        simp only [List.length_append, List.length_singleton, List.append_assoc,
          List.singleton_append] at e1
        rw [e1]
        simp [Nat.add_assoc, Nat.add_comm 1]
      · have hstr : m'.str ⟨buf, done.length + bl.length⟩ = w := by
          simp only [Mem.str, e3]
          have := cstr_run (done ++ bl) w (rem' ++ NUL :: junk) (fun c hc => (hwd c hc).1)
          simpa using this
        have hw : words (bl ++ (w ++ c :: r)) = w :: words r := by
          rw [words_blanks_append bl _ h1, words_run_blank w c r h2 h3 h4]
        simp [hstr, hw, e2]
      · intro b' hb'
        rw [e5 b' hb']
        simp [Mem.get_put_of_ne _ _ _ _ hb']
      · rw [words_blanks_append bl _ h1, words_run_blank w c r h2 h3 h4] at hle
        rw [e6 (by simpa using hle)]
        simp only [List.length_append, List.length_cons, List.length_nil]
        congr 1; omega

theorem argv_of_map_some (m : Mem) (ptrs : List Ptr) (rest : List (Option Ptr)) :
    argv_of m (ptrs.map some ++ none :: rest) = ptrs.map m.str := by
  induction ptrs with
  | nil => simp [argv_of]
  | cons p ptrs ih =>
    simp only [argv_of] at ih ⊢
    simp [List.takeWhile_cons, ih]

/-- What `parse_command` leaves, for a buffer that holds `line` and its
terminator: pointers to the first `MAX_TOKENS - 1` words of the line, then
`NULL`, and their number in `*token_count`; only bytes of the line are
overwritten. -/
theorem parse_command_spec (m : Mem) (b : BufId) (line junk : Buf) (tokens : List (Option Ptr))
    (hline : ∀ c ∈ line, c ≠ NUL) (hbuf : m.get b = line ++ NUL :: junk)
    (htok : tokens.length = MAX_TOKENS) :
    ∃ (ptrs : List Ptr) (rest : List (Option Ptr)) (line' : Buf) (m' : Mem),
      parse_command m ⟨b, 0⟩ tokens = (m', ptrs.map some ++ none :: rest, ptrs.length)
      ∧ ptrs.map m'.str = (words line).take (MAX_TOKENS - 1)
      ∧ m'.get b = line' ++ NUL :: junk ∧ line'.length = line.length
      ∧ (∀ b', b' ≠ b → m'.get b' = m.get b')
      ∧ ((words line).length < MAX_TOKENS → m'.save = ⟨b, line.length⟩) := by
  obtain ⟨new, rem', m', e1, e2, e3, e4, e5, e6⟩ :=
    parse_loop_spec (MAX_TOKENS - 1) { m with save := ⟨b, 0⟩ } b [] line junk [] tokens rfl
      (by simpa using hbuf) hline (by rw [htok]; decide)
  simp only [List.nil_append, List.length_nil, Nat.zero_add] at e1 e3
  have hlen : new.length ≤ MAX_TOKENS - 1 := by
    have := congrArg List.length e2
    simp only [List.length_map, List.length_take] at this
    omega
  obtain ⟨x, rest, hx⟩ : ∃ x rest, tokens.drop new.length = x :: rest := by
    cases hd : tokens.drop new.length with
    | nil =>
      have := congrArg List.length hd
      simp only [List.length_drop, htok, List.length_nil, MAX_TOKENS] at this hlen
      omega
    | cons x rest => exact ⟨x, rest, rfl⟩
  refine ⟨new, rest, rem', m', ?_, e2, e3, e4, fun b' hb' => by rw [e5 b' hb']; simp,
    fun hlt => by rw [e6 (by simp only [MAX_TOKENS] at hlt ⊢; omega)]; simp⟩
  simp only [parse_command, strtok_some, e1, hx]
  have := set_at_length (new.map some) x none rest
  simp only [List.length_map] at this
  rw [this]

theorem words_mem_shape : ∀ (n : Nat) (line : List Char), line.length ≤ n →
    ∀ w ∈ words line, w ≠ [] ∧ ∀ c ∈ w, is_blank c = false := by
  intro n
  induction n with
  | zero =>
    intro line hn
    have : line = [] := List.length_eq_zero.1 (by omega)
    subst this
    simp [words_nil]
  | succ n ih =>
    intro line hn
    rcases line_shape line with h | ⟨bl, w, rfl, h1, h2, h3⟩ | ⟨bl, w, c, r, rfl, h1, h2, h3, h4⟩
    · have hw : words line = [] := by
        have := words_blanks_append line [] h
        rw [List.append_nil, words_nil] at this
        exact this
      simp [hw]
    · rw [words_blanks_append bl w h1, words_run w h2 h3]
      intro v hv
      rw [List.mem_singleton.1 hv]
      exact ⟨h3, h2⟩
    · rw [words_blanks_append bl _ h1, words_run_blank w c r h2 h3 h4]
      intro v hv
      rcases List.mem_cons.1 hv with h | h
      · rw [h]; exact ⟨h3, h2⟩
      · exact ih r (by simp at hn; omega) v h

/-- C8: for every line held in a buffer with its terminator, `parse_command`
stores, from slot 0 on, pointers to strings that are in order a prefix of the
words of the line (the first `MAX_TOKENS - 1` of them), then `NULL`, and sets
`*token_count` to their number; it returns all the words of a line that has
fewer than 100 of them; every returned token is non-empty and holds neither
space nor tab; an empty line and a line of spaces and tabs give no token. -/
theorem parse_command_returns_words (m : Mem) (b : BufId) (line junk : Buf)
    (tokens : List (Option Ptr)) (hline : ∀ c ∈ line, c ≠ NUL)
    (hbuf : m.get b = line ++ NUL :: junk) (htok : tokens.length = MAX_TOKENS) :
    (∃ (ptrs : List Ptr) (rest : List (Option Ptr)),
        (parse_command m ⟨b, 0⟩ tokens).2.1 = ptrs.map some ++ none :: rest
        ∧ (parse_command m ⟨b, 0⟩ tokens).2.2 = ptrs.length
        ∧ ptrs.map (parse_command m ⟨b, 0⟩ tokens).1.str = (words line).take (MAX_TOKENS - 1))
    ∧ argv_of (parse_command m ⟨b, 0⟩ tokens).1 (parse_command m ⟨b, 0⟩ tokens).2.1
        = (words line).take (MAX_TOKENS - 1)
    ∧ (words line).take (MAX_TOKENS - 1) <+: words line
    ∧ ((words line).length < MAX_TOKENS →
        argv_of (parse_command m ⟨b, 0⟩ tokens).1 (parse_command m ⟨b, 0⟩ tokens).2.1
          = words line)
    ∧ (∀ w ∈ argv_of (parse_command m ⟨b, 0⟩ tokens).1 (parse_command m ⟨b, 0⟩ tokens).2.1,
        w ≠ [] ∧ ' ' ∉ w ∧ '\t' ∉ w)
    ∧ ((∀ c ∈ line, c = ' ' ∨ c = '\t') → (parse_command m ⟨b, 0⟩ tokens).2.2 = 0) := by
  obtain ⟨ptrs, rest, line', m', h1, h2, _, _, _, _⟩ :=
    parse_command_spec m b line junk tokens hline hbuf htok
  have hargv : argv_of (parse_command m ⟨b, 0⟩ tokens).1 (parse_command m ⟨b, 0⟩ tokens).2.1
      = (words line).take (MAX_TOKENS - 1) := by
    rw [h1]; simp only; rw [argv_of_map_some, h2]
  refine ⟨⟨ptrs, rest, by rw [h1], by rw [h1], by rw [h1]; exact h2⟩, hargv,
    List.take_prefix _ _, ?_, ?_, ?_⟩
  · intro hlt
    rw [hargv, List.take_of_length_le (by omega)]
  · intro w hw
    rw [hargv] at hw
    have := words_mem_shape line.length line (le_refl _) w (List.mem_of_mem_take hw)
    refine ⟨this.1, fun h => ?_, fun h => ?_⟩
    · have := this.2 _ h; revert this; decide
    · have := this.2 _ h; revert this; decide
  · intro hall
    have hw : words line = [] := by
      have := words_blanks_append line [] (fun c hc => by
        rcases hall c hc with h | h <;> rw [h] <;> decide)
      rw [List.append_nil, words_nil] at this
      exact this
    have := congrArg List.length h2
    rw [hw] at this
    rw [h1]
    simpa using this

/-- C9 as amended: the tokenizer returns at most `MAX_TOKENS - 1 = 99` tokens:
for every line with at most 99 words `parse_command` returns all of its words,
and for every line with more than 99 words it returns exactly the first 99
words, with `*token_count = 99`. -/
theorem parse_command_limit_is_99 (m : Mem) (b : BufId) (line junk : Buf)
    (tokens : List (Option Ptr)) (hline : ∀ c ∈ line, c ≠ NUL)
    (hbuf : m.get b = line ++ NUL :: junk) (htok : tokens.length = MAX_TOKENS) :
    ((words line).length ≤ 99 →
        argv_of (parse_command m ⟨b, 0⟩ tokens).1 (parse_command m ⟨b, 0⟩ tokens).2.1
            = words line
        ∧ (parse_command m ⟨b, 0⟩ tokens).2.2 = (words line).length)
    ∧ (99 < (words line).length →
        argv_of (parse_command m ⟨b, 0⟩ tokens).1 (parse_command m ⟨b, 0⟩ tokens).2.1
            = (words line).take 99
        ∧ (parse_command m ⟨b, 0⟩ tokens).2.2 = 99) := by
  obtain ⟨ptrs, rest, line', m', h1, h2, _, _, _, _⟩ :=
    parse_command_spec m b line junk tokens hline hbuf htok
  have hargv : argv_of (parse_command m ⟨b, 0⟩ tokens).1 (parse_command m ⟨b, 0⟩ tokens).2.1
      = (words line).take 99 := by
    rw [h1]; simp only; rw [argv_of_map_some, h2]; rfl
  have hcount : (parse_command m ⟨b, 0⟩ tokens).2.2 = ((words line).take 99).length := by
    have := congrArg List.length h2
    rw [h1]
    simpa [MAX_TOKENS] using this
  constructor
  · intro hle
    rw [hargv, hcount, List.take_of_length_le hle]
    exact ⟨rfl, rfl⟩
  · intro hgt
    refine ⟨hargv, ?_⟩
    rw [hcount, List.length_take]
    omega

/-- C8 at the line `ls  -l`. -/
theorem parse_command_returns_words_witness :
    (∀ c ∈ tok "ls  -l", c ≠ NUL)
    ∧ (line_read (tok "ls  -l")).get .command = tok "ls  -l" ++ NUL :: []
    ∧ fresh_tokens.length = MAX_TOKENS
    ∧ argv_of (parse_command (line_read (tok "ls  -l")) ⟨.command, 0⟩ fresh_tokens).1
          (parse_command (line_read (tok "ls  -l")) ⟨.command, 0⟩ fresh_tokens).2.1
        = (words (tok "ls  -l")).take (MAX_TOKENS - 1)
    ∧ words (tok "ls  -l") = [tok "ls", tok "-l"] :=
  ⟨by decide, rfl, by decide,
   (parse_command_returns_words (line_read (tok "ls  -l")) .command (tok "ls  -l") [] fresh_tokens
      (by decide) rfl (by decide)).2.1,
   by decide⟩

set_option maxRecDepth 1000000 in
/-- C9 as stated fails: the line `a a ... a` of 100 words has at most 100
words, and `parse_command` returns 99 tokens for it, not all of its words. -/
theorem parse_command_drops_hundredth_word :
    (words hundred_words).length = 100
    ∧ (parse_command (line_read hundred_words) command_ptr fresh_tokens).2.2 = 99
    ∧ argv_of (parse_command (line_read hundred_words) command_ptr fresh_tokens).1
          (parse_command (line_read hundred_words) command_ptr fresh_tokens).2.1
        ≠ words hundred_words := by
  decide

set_option maxRecDepth 1000000 in
/-- C9 as amended, at the line of 100 words. -/
theorem parse_command_limit_is_99_witness :
    (∀ c ∈ hundred_words, c ≠ NUL)
    ∧ (line_read hundred_words).get .command = hundred_words ++ NUL :: []
    ∧ fresh_tokens.length = MAX_TOKENS
    ∧ 99 < (words hundred_words).length
    ∧ argv_of (parse_command (line_read hundred_words) ⟨.command, 0⟩ fresh_tokens).1
          (parse_command (line_read hundred_words) ⟨.command, 0⟩ fresh_tokens).2.1
        = (words hundred_words).take 99
    ∧ (parse_command (line_read hundred_words) ⟨.command, 0⟩ fresh_tokens).2.2 = 99 :=
  ⟨by decide, rfl, by decide, by decide,
   ((parse_command_limit_is_99 (line_read hundred_words) .command hundred_words [] fresh_tokens
      (by decide) rfl (by decide)).2 (by decide)).1,
   ((parse_command_limit_is_99 (line_read hundred_words) .command hundred_words [] fresh_tokens
      (by decide) rfl (by decide)).2 (by decide)).2⟩

/-! ## `handle_redirection`: the splice and the filter -/

theorem slot_cast (a : List (Option Tok)) (n : Nat) : slot a (n : Int) = a[n]? := by
  simp [slot]

theorem store_cast (a : List (Option Tok)) (n : Nat) (x : Option Tok) (h : n < a.length) :
    store a (n : Int) x = some (a.set n x) := by
  simp [store, h]

/-- The shift loop moves the tokens behind the operator and its file name two
slots to the left and leaves the slots before and behind them alone. -/
theorem shift_loop_spec (R : List (Option Tok)) : ∀ (A : List (Option Tok)) (a b : Option Tok)
    (J : List (Option Tok)),
    ∃ X : List (Option Tok), X.length = 2 ∧
      shift_loop R.length (A.length : Int) (A ++ a :: b :: (R ++ J)) = some (A ++ (R ++ (X ++ J))) := by
  induction R with
  | nil => intro A a b J; exact ⟨[a, b], rfl, by simp [shift_loop]⟩
  | cons c R ih =>
    intro A a b J
    obtain ⟨X, hX, h⟩ := ih (A ++ [c]) b c J
    refine ⟨X, hX, ?_⟩
    have h1 : slot (A ++ a :: b :: (c :: R ++ J)) ((A.length : Int) + 2) = some c := by
      have : ((A.length : Int) + 2) = ((A.length + 2 : Nat) : Int) := by push_cast; ring
      rw [this, slot_cast]
      exact getElem?_at_length_add_two A a b c (R ++ J)
    have h2 : store (A ++ a :: b :: (c :: R ++ J)) (A.length : Int) c
        = some ((A ++ [c]) ++ b :: c :: (R ++ J)) := by
      rw [store_cast _ _ _ (by simp)]
      simp
    have h3 : ((A.length : Int) + 1) = (((A ++ [c]).length : Nat) : Int) := by simp
    simp only [List.length_cons, shift_loop, h1, h2, h3]
    rw [h]
    simp

/-- A branch of the scan on an operator that has a file name, when the `open`
succeeds: the call is recorded, the stream is rebound, operator and file name
leave the array and nothing else moves. -/
theorem redirect_spec (open_ok : OpenCall → Bool) (hopen : ∀ c, open_ok c = true)
    (st : Redir) (pre : List Tok) (t name : Tok) (rest : List Tok) (junk : List (Option Tok))
    (call : Tok → OpenCall) (fd : Fd)
    (htok : st.tokens = (pre ++ t :: name :: rest).map some ++ junk)
    (hcount : st.token_count = (pre.length : Int) + ((rest.length : Int) + 2)) :
    ∃ X : List (Option Tok), X.length = 2 ∧
      redirect open_ok st pre.length call fd =
        ({ ({ st with opened := st.opened ++ [call name] }.dup2 (call name) fd) with
            tokens := (pre ++ rest).map some ++ (X ++ junk),
            token_count := (pre.length : Int) + (rest.length : Int) }, none) := by
  have htok' : st.tokens
      = pre.map some ++ some t :: some name :: (rest.map some ++ junk) := by
    rw [htok]; simp
  obtain ⟨X, hX, hshift⟩ := shift_loop_spec (rest.map some) (pre.map some) (some t) (some name) junk
  simp only [List.length_map] at hshift
  have h1 : (pre.length : Int) + 1 < st.token_count := by rw [hcount]; omega
  have h2 : slot st.tokens ((pre.length : Int) + 1) = some (some name) := by
    have : ((pre.length : Int) + 1) = ((pre.length + 1 : Nat) : Int) := by push_cast; ring
    rw [this, slot_cast, htok']
    have := getElem?_at_length_add_one (pre.map some) (some t) (some name) (rest.map some ++ junk)
    simpa using this
  have h3 : (st.token_count - 2 - (pre.length : Int)).toNat = rest.length := by
    rw [hcount]; omega
  have h4 : st.token_count - 2 = (pre.length : Int) + (rest.length : Int) := by
    rw [hcount]; omega
  refine ⟨X, hX, ?_⟩
  simp only [redirect, h1, if_true, h2, hopen, splice]
  cases fd <;> simp only [Redir.dup2, h3, htok', hshift, List.map_append, List.append_assoc] <;>
    rw [h4]

theorem without_redirections_cons (t : Tok) (rest : List Tok) (h : is_redirect t = false) :
    without_redirections (t :: rest) = t :: without_redirections rest := by
  cases rest <;> simp [without_redirections, h]

theorem operators_have_names_cons (t : Tok) (rest : List Tok) (h : is_redirect t = false) :
    operators_have_names (t :: rest) = operators_have_names rest := by
  cases rest <;> simp [operators_have_names, h]

theorem without_redirections_length_le : ∀ (n : Nat) (toks : List Tok), toks.length ≤ n →
    (without_redirections toks).length ≤ toks.length := by
  intro n
  induction n with
  | zero => intro toks h; cases toks <;> simp_all [without_redirections]
  | succ n ih =>
    intro toks h
    match toks with
    | [] => simp [without_redirections]
    | [t] => simp only [without_redirections]; split <;> simp
    | t :: name :: rest =>
      simp only [without_redirections]
      split
      · have := ih rest (by simp at h; omega)
        simp; omega
      · have := ih (name :: rest) (by simp at h ⊢; omega)
        simp at this ⊢; omega

theorem is_redirect_eq_false (t : Tok) (h1 : ¬ t = ['<']) (h2 : ¬ t = ['>', '>'])
    (h3 : ¬ t = ['>']) : is_redirect t = false := by
  simp [is_redirect, h1, h2, h3]

/-- The scan from index `pre.length`, when the tokens from there on are `rest`:
it ends, and the array then holds `pre` followed by the filter of `rest`. -/
theorem redir_loop_spec (open_ok : OpenCall → Bool) (hopen : ∀ c, open_ok c = true) :
    ∀ (n : Nat) (rest pre : List Tok) (junk : List (Option Tok)) (st : Redir) (fuel : Nat),
      rest.length ≤ n → operators_have_names rest = true → rest.length ≤ fuel →
      st.tokens = (pre ++ rest).map some ++ junk →
      st.token_count = (pre.length : Int) + (rest.length : Int) →
      ∃ st' junk', redir_loop open_ok fuel pre.length st = some (st', RedirEnd.finished)
        ∧ st'.tokens = (pre ++ without_redirections rest).map some ++ junk'
        ∧ junk.length ≤ junk'.length
        ∧ st'.token_count = (pre.length : Int) + ((without_redirections rest).length : Int)
        ∧ st'.perrors = st.perrors := by
  intro n
  induction n with
  | zero =>
    intro rest pre junk st fuel hn _ _ htok hcount
    have : rest = [] := by
      cases rest with
      | nil => rfl
      | cons _ _ => simp at hn
    subst this
    refine ⟨st, junk, ?_, by simpa using htok, le_refl _, by simpa using hcount, rfl⟩
    unfold redir_loop
    simp [hcount]
  | succ n ih =>
    intro rest pre junk st fuel hn hnames hfuel htok hcount
    match rest, hn, hnames, hfuel, htok, hcount with
    | [], _, _, _, htok, hcount =>
      refine ⟨st, junk, ?_, by simpa using htok, le_refl _, by simpa using hcount, rfl⟩
      unfold redir_loop
      simp [hcount]
    | t :: rest, hn, hnames, hfuel, htok, hcount =>
      obtain ⟨fuel, rfl⟩ : ∃ f, fuel = f + 1 := ⟨fuel - 1, by simp at hfuel; omega⟩
      have hlt : (pre.length : Int) < st.token_count := by
        rw [hcount]; simp only [List.length_cons]; push_cast; omega
      have hslot : slot st.tokens (pre.length : Int) = some (some t) := by
        rw [slot_cast, htok]
        have := getElem?_at_length (pre.map some) (some t) (rest.map some ++ junk)
        simpa using this
      have hnext : (pre.length : Int) - 1 + 1 = (pre.length : Int) := by omega
      by_cases hop : is_redirect t = true
      · -- an operator: it has a file name behind it
        match rest, hn, hnames, hfuel, htok, hcount with
        | [], _, hnames, _, _, _ => simp [operators_have_names, hop] at hnames
        | name :: rest, hn, hnames, hfuel, htok, hcount =>
          have hnames' : operators_have_names rest = true := by
            simpa [operators_have_names, hop] using hnames
          have hfilter : without_redirections (t :: name :: rest) = without_redirections rest := by
            simp [without_redirections, hop]
          have hcount' : st.token_count = (pre.length : Int) + ((rest.length : Int) + 2) := by
            rw [hcount]; simp only [List.length_cons]; push_cast; omega
          have key : ∀ (call : Tok → OpenCall) (fd : Fd),
              ∃ st' junk', (match redirect open_ok st pre.length call fd with
                  | (st, some e) => some (st, e)
                  | (st, none) => redir_loop open_ok fuel ((pre.length : Int) - 1 + 1) st)
                    = some (st', RedirEnd.finished)
                ∧ st'.tokens = (pre ++ without_redirections rest).map some ++ junk'
                ∧ junk.length ≤ junk'.length
                ∧ st'.token_count = (pre.length : Int) + ((without_redirections rest).length : Int)
                ∧ st'.perrors = st.perrors := by
            intro call fd
            obtain ⟨X, hX, hred⟩ := redirect_spec open_ok hopen st pre t name rest junk call fd
              htok hcount'
            rw [hred, hnext]
            have hn' : rest.length ≤ n := by simp at hn; omega
            have hfuel' : rest.length ≤ fuel := by simp at hfuel; omega
            obtain ⟨st', junk', h1, h2, h3, h4, h5⟩ := ih rest pre (X ++ junk)
              { ({ st with opened := st.opened ++ [call name] }.dup2 (call name) fd) with
                tokens := (pre ++ rest).map some ++ (X ++ junk),
                token_count := (pre.length : Int) + (rest.length : Int) } fuel
              hn' hnames' hfuel' rfl rfl
            refine ⟨st', junk', h1, h2, ?_, h4, ?_⟩
            · simp at h3; omega
            · rw [h5]; cases fd <;> rfl
          rw [hfilter]
          unfold redir_loop
          simp only [hlt, if_true, hslot]
          simp only [is_redirect, Bool.or_eq_true, decide_eq_true_eq] at hop
          by_cases h1 : t = ['<']
          · simp only [h1, if_true]; exact key open_in .STDIN_FILENO
          · by_cases h2 : t = ['>', '>']
            · simp only [h1, h2, if_true, if_false]; exact key open_append .STDOUT_FILENO
            · have h3 : t = ['>'] := by tauto
              simp only [h1, h2, h3, if_true, if_false]; exact key open_trunc .STDOUT_FILENO
      · -- an ordinary token: the scan moves on
        have hop' : is_redirect t = false := by simpa using hop
        have h1 : ¬ t = ['<'] := by intro h; simp [is_redirect, h] at hop'
        have h2 : ¬ t = ['>', '>'] := by intro h; simp [is_redirect, h] at hop'
        have h3 : ¬ t = ['>'] := by intro h; simp [is_redirect, h] at hop'
        rw [without_redirections_cons t rest hop']
        rw [operators_have_names_cons t rest hop'] at hnames
        obtain ⟨st', junk', g1, g2, g3, g4, g5⟩ := ih rest (pre ++ [t]) junk st fuel
          (by simp at hn; omega) hnames (by simp at hfuel; omega) (by simpa using htok)
          (by rw [hcount]; simp only [List.length_cons, List.length_append, List.length_nil];
              push_cast; omega)
        refine ⟨st', junk', ?_, by simpa using g2, g3, ?_, g5⟩
        · unfold redir_loop
          simp only [hlt, if_true, hslot, h1, h2, h3, if_false]
          simpa using g1
        · rw [g4]; simp only [List.length_cons, List.length_append, List.length_nil]
          push_cast; omega

/-- The scan over tokens none of which is an operator changes nothing. -/
theorem redir_loop_no_operator (open_ok : OpenCall → Bool) :
    ∀ (rest pre : List Tok) (junk : List (Option Tok)) (st : Redir) (fuel : Nat),
      (∀ t ∈ rest, is_redirect t = false) → rest.length ≤ fuel →
      st.tokens = (pre ++ rest).map some ++ junk →
      st.token_count = (pre.length : Int) + (rest.length : Int) →
      redir_loop open_ok fuel pre.length st = some (st, RedirEnd.finished) := by
  intro rest
  induction rest with
  | nil =>
    intro pre junk st fuel _ _ _ hcount
    unfold redir_loop
    simp [hcount]
  | cons t rest ih =>
    intro pre junk st fuel hno hfuel htok hcount
    obtain ⟨fuel, rfl⟩ : ∃ f, fuel = f + 1 := ⟨fuel - 1, by simp at hfuel; omega⟩
    have hlt : (pre.length : Int) < st.token_count := by
      rw [hcount]; simp only [List.length_cons]; push_cast; omega
    have hslot : slot st.tokens (pre.length : Int) = some (some t) := by
      rw [slot_cast, htok]
      have := getElem?_at_length (pre.map some) (some t) (rest.map some ++ junk)
      simpa using this
    have hop : is_redirect t = false := hno t (by simp)
    have h1 : ¬ t = ['<'] := by intro h; simp [is_redirect, h] at hop
    have h2 : ¬ t = ['>', '>'] := by intro h; simp [is_redirect, h] at hop
    have h3 : ¬ t = ['>'] := by intro h; simp [is_redirect, h] at hop
    have := ih (pre ++ [t]) junk st fuel (fun u hu => hno u (by simp [hu]))
      (by simp at hfuel; omega) (by simpa using htok)
      (by rw [hcount]; simp only [List.length_cons, List.length_append, List.length_nil];
          push_cast; omega)
    unfold redir_loop
    simp only [hlt, if_true, hslot, h1, h2, h3, if_false]
    simpa using this

theorem argv_map_some (l : List Tok) (rest : List (Option Tok)) :
    argv (l.map some ++ none :: rest) = l := by
  induction l with
  | nil => simp [argv]
  | cons t l ih =>
    simp only [argv] at ih ⊢
    simp [List.takeWhile_cons, ih]

theorem without_redirections_of_no_operator (toks : List Tok)
    (h : ∀ t ∈ toks, is_redirect t = false) : without_redirections toks = toks := by
  induction toks with
  | nil => rfl
  | cons t toks ih =>
    rw [without_redirections_cons t toks (h t (by simp)), ih (fun u hu => h u (by simp [hu]))]

/-- C2: when every operator met by the scan has a token behind it and every
`open` succeeds, `handle_redirection` ends its scan and what it leaves is the
functional filter: the array holds the tokens that are neither a scanned
operator nor the token after one, in their order, then `NULL`;
`*token_count` is their number; the argument vector read from the array is
that list.  A token list without any operator is returned as it was, array,
count, streams and all, and no file is opened. -/
theorem handle_redirection_eq_filter (open_ok : OpenCall → Bool) (toks : List Tok)
    (rest : List (Option Tok)) (stdin stdout : Stream)
    (hnames : operators_have_names toks = true) (hopen : ∀ c, open_ok c = true) :
    (∃ st rest', handle_redirection open_ok (redir_call toks rest stdin stdout)
          = some (st, RedirEnd.finished)
        ∧ st.tokens = (without_redirections toks).map some ++ none :: rest'
        ∧ st.token_count = ((without_redirections toks).length : Int)
        ∧ argv st.tokens = without_redirections toks
        ∧ st.perrors = 0)
    ∧ ((∀ t ∈ toks, is_redirect t = false) →
        without_redirections toks = toks
        ∧ handle_redirection open_ok (redir_call toks rest stdin stdout)
            = some (redir_call toks rest stdin stdout, RedirEnd.finished)) := by
  constructor
  · obtain ⟨st', junk', h1, h2, h3, h4, h5⟩ := redir_loop_spec open_ok hopen toks.length toks []
      (none :: rest) (redir_call toks rest stdin stdout) toks.length (le_refl _) hnames (le_refl _)
      (by simp [redir_call]) (by simp [redir_call])
    simp only [List.nil_append, List.length_nil, Int.ofNat_zero, Nat.cast_zero, zero_add] at h1 h2 h4
    obtain ⟨x, junk'', rfl⟩ : ∃ x r, junk' = x :: r := by
      cases junk' with
      | nil => simp at h3
      | cons x r => exact ⟨x, r, rfl⟩
    have hstore : store st'.tokens st'.token_count none
        = some ((without_redirections toks).map some ++ none :: junk'') := by
      rw [h4, h2, store_cast _ _ _ (by simp)]
      simp
    have hmain : handle_redirection open_ok (redir_call toks rest stdin stdout)
        = some ({ st' with tokens := (without_redirections toks).map some ++ none :: junk'' },
            RedirEnd.finished) := by
      unfold handle_redirection
      have : (redir_call toks rest stdin stdout).token_count.toNat = toks.length := by
        simp [redir_call]
      rw [this]
      have h1' : redir_loop open_ok toks.length 0 (redir_call toks rest stdin stdout)
          = some (st', RedirEnd.finished) := by simpa using h1
      rw [h1']
      simp only [hstore]
    refine ⟨_, junk'', hmain, rfl, h4, argv_map_some _ _, ?_⟩
    simp [h5, redir_call]
  · intro hno
    refine ⟨without_redirections_of_no_operator toks hno, ?_⟩
    have h1 := redir_loop_no_operator open_ok toks [] (none :: rest)
      (redir_call toks rest stdin stdout) toks.length hno (le_refl _)
      (by simp [redir_call]) (by simp [redir_call])
    have h1' : redir_loop open_ok toks.length 0 (redir_call toks rest stdin stdout)
        = some (redir_call toks rest stdin stdout, RedirEnd.finished) := by simpa using h1
    have hstore : store (redir_call toks rest stdin stdout).tokens
        (redir_call toks rest stdin stdout).token_count none
        = some (redir_call toks rest stdin stdout).tokens := by
      simp only [redir_call]
      rw [store_cast _ _ _ (by simp)]
      simp
    unfold handle_redirection
    have : (redir_call toks rest stdin stdout).token_count.toNat = toks.length := by
      simp [redir_call]
    rw [this, h1']
    simp only [hstore]

/-- C2 at the tokens `echo hi > out.txt`, every `open` succeeding. -/
theorem handle_redirection_eq_filter_witness :
    operators_have_names [tok "echo", tok "hi", tok ">", tok "out.txt"] = true
    ∧ (∃ st rest', handle_redirection (fun _ => true)
            (redir_call [tok "echo", tok "hi", tok ">", tok "out.txt"] [] .inherited .inherited)
          = some (st, RedirEnd.finished)
        ∧ st.tokens = (without_redirections [tok "echo", tok "hi", tok ">", tok "out.txt"]).map some
            ++ none :: rest'
        ∧ st.token_count = ((without_redirections [tok "echo", tok "hi", tok ">", tok "out.txt"]).length : Int)
        ∧ argv st.tokens = without_redirections [tok "echo", tok "hi", tok ">", tok "out.txt"]
        ∧ st.perrors = 0)
    ∧ without_redirections [tok "echo", tok "hi", tok ">", tok "out.txt"] = [tok "echo", tok "hi"] :=
  ⟨by decide,
   (handle_redirection_eq_filter (fun _ => true) [tok "echo", tok "hi", tok ">", tok "out.txt"] []
      .inherited .inherited (by decide) (fun _ => rfl)).1,
   by decide⟩

/-! ## `handle_redirection` on concrete argument lists -/

/-- C3 (the code fails it): for the tokens `echo hi >` the function
`handle_redirection` opens nothing and rebinds nothing, but it takes two away
from `*token_count` all the same: it stores `NULL` at index 1, so that the
program receives the argument vector `echo` alone, without `hi`. -/
theorem handle_redirection_trailing_operator_drops_argument :
    handle_redirection (fun _ => true)
        (redir_call [tok "echo", tok "hi", tok ">"] [] .inherited .inherited)
      = some ({ tokens := [some (tok "echo"), none, some (tok ">"), none], token_count := 1,
                stdin := .inherited, stdout := .inherited, opened := [], perrors := 0 },
              RedirEnd.finished)
    ∧ argv [some (tok "echo"), none, some (tok ">"), none] = [tok "echo"] := by
  decide

/-- C4 (the code fails it): for the tokens `cat < missing > out`, when the
`open` of `missing` fails, `handle_redirection` calls `perror` and returns at
once: `out` is never opened, standard output keeps its binding, the array is
left as it was, and the program receives all five tokens as its argument
vector, `<`, `missing`, `>` and `out` included. -/
theorem handle_redirection_failed_open_returns_early :
    handle_redirection missing_fails
        (redir_call [tok "cat", tok "<", tok "missing", tok ">", tok "out"] [] .inherited .inherited)
      = some ({ tokens := [some (tok "cat"), some (tok "<"), some (tok "missing"),
                           some (tok ">"), some (tok "out"), none],
                token_count := 5, stdin := .inherited, stdout := .inherited,
                opened := [open_in (tok "missing")], perrors := 1 },
              RedirEnd.open_failed)
    ∧ argv [some (tok "cat"), some (tok "<"), some (tok "missing"),
            some (tok ">"), some (tok "out"), none]
        = [tok "cat", tok "<", tok "missing", tok ">", tok "out"] := by
  decide

/-! ## `handle_piping`: the stage ranges -/

theorem split_at_pipes_ne_nil (toks : List Tok) : split_at_pipes toks ≠ [] := by
  cases toks with
  | nil => simp [split_at_pipes]
  | cons t rest =>
    simp only [split_at_pipes]
    split
    · simp
    · split <;> simp

theorem split_at_pipes_cons_pipe (rest : List Tok) :
    split_at_pipes (pipe_tok :: rest) = [] :: split_at_pipes rest := by
  simp [split_at_pipes]

theorem split_at_pipes_cons_other (t : Tok) (rest : List Tok) (h : t ≠ pipe_tok) :
    ∃ q qs, split_at_pipes rest = q :: qs ∧ split_at_pipes (t :: rest) = (t :: q) :: qs := by
  cases hs : split_at_pipes rest with
  | nil => exact absurd hs (split_at_pipes_ne_nil rest)
  | cons q qs => exact ⟨q, qs, rfl, by simp [split_at_pipes, h, hs]⟩

theorem stage_ends_ne_nil (i : Nat) (q : List Tok) (qs : List (List Tok)) :
    stage_ends i (q :: qs) ≠ [] := by
  simp [stage_ends]

/-- The scan loop over the tokens `rest` that start at index `i`. -/
theorem pipe_scan_loop_spec : ∀ (rest : List Tok) (i : Nat) (D J : List (Option Tok)) (pc : Nat)
    (CS : List Int) (c : Int) (T CE T2 : List Int),
    D.length = i → CS.length = pc → CE.length = pc →
    (split_at_pipes rest).length - 1 ≤ T.length →
    (split_at_pipes rest).length - 1 ≤ T2.length →
    pipe_scan_loop rest.length i ⟨D ++ (rest.map some ++ J), pc, CS ++ c :: T, CE ++ T2⟩
      = ⟨D ++ (pipes_to_null rest ++ J), pc + ((split_at_pipes rest).length - 1),
          CS ++ c :: ((stage_starts i (split_at_pipes rest)).tail
            ++ T.drop ((split_at_pipes rest).length - 1)),
          CE ++ ((stage_ends i (split_at_pipes rest)).dropLast
            ++ T2.drop ((split_at_pipes rest).length - 1))⟩ := by
  intro rest
  induction rest with
  | nil =>
    intro i D J pc CS c T CE T2 _ _ _ _ _
    simp [pipe_scan_loop, split_at_pipes, stage_starts, stage_ends, pipes_to_null]
  | cons t rest ih =>
    intro i D J pc CS c T CE T2 hD hCS hCE hT hT2
    have hget : (D ++ ((t :: rest).map some ++ J)).getD i none = some t := by
      rw [List.getD_eq_getElem?_getD, ← hD]
      have := getElem?_at_length D (some t) (rest.map some ++ J)
      simp only [List.map_cons, List.cons_append]
      rw [this]; rfl
    by_cases ht : t = pipe_tok
    · subst ht
      rw [split_at_pipes_cons_pipe] at hT hT2 ⊢
      obtain ⟨q, qs, hq⟩ : ∃ q qs, split_at_pipes rest = q :: qs := by
        cases hs : split_at_pipes rest with
        | nil => exact absurd hs (split_at_pipes_ne_nil rest)
        | cons q qs => exact ⟨q, qs, rfl⟩
      rw [hq] at hT hT2 ⊢
      simp only [List.length_cons, Nat.add_sub_cancel] at hT hT2 ⊢
      obtain ⟨t0, T', rfl⟩ : ∃ t0 T', T = t0 :: T' := by
        cases T with
        | nil => simp at hT
        | cons t0 T' => exact ⟨t0, T', rfl⟩
      obtain ⟨e0, T2', rfl⟩ : ∃ e0 T2', T2 = e0 :: T2' := by
        cases T2 with
        | nil => simp at hT2
        | cons e0 T2' => exact ⟨e0, T2', rfl⟩
      have h1 : (D ++ ((pipe_tok :: rest).map some ++ J)).set i none
          = (D ++ [none]) ++ (rest.map some ++ J) := by
        rw [← hD]; simp
      have h2 : (CS ++ c :: t0 :: T').set (pc + 1) ((i : Int) + 1)
          = (CS ++ [c]) ++ ((i : Int) + 1) :: T' := by
        rw [← hCS]
        have := set_at_length (CS ++ [c]) t0 ((i : Int) + 1) T'
        simp only [List.length_append, List.length_singleton, List.append_assoc,
          List.singleton_append] at this
        rw [this]; simp
      have h3 : (CE ++ e0 :: T2').set pc ((i : Int) - 1) = (CE ++ [(i : Int) - 1]) ++ T2' := by
        rw [← hCE]; simp
      have := ih (i + 1) (D ++ [none]) J (pc + 1) (CS ++ [c]) ((i : Int) + 1) T'
        (CE ++ [(i : Int) - 1]) T2' (by simp [hD]) (by simp [hCS]) (by simp [hCE])
        (by rw [hq]; simp at hT ⊢; omega) (by rw [hq]; simp at hT2 ⊢; omega)
      rw [hq] at this
      simp only [List.length_cons, Nat.add_sub_cancel] at this
      simp only [pipe_scan_loop, hget, if_true, h1, h2, h3]
      rw [this]
      simp [pipes_to_null, stage_starts, stage_ends, List.dropLast_cons_of_ne_nil, Nat.add_assoc,
        Nat.add_comm 1]
    · obtain ⟨q, qs, hq, hsplit⟩ := split_at_pipes_cons_other t rest ht
      rw [hsplit] at hT hT2 ⊢
      have h1 : D ++ ((t :: rest).map some ++ J) = (D ++ [some t]) ++ (rest.map some ++ J) := by
        simp
      have := ih (i + 1) (D ++ [some t]) J pc CS c T CE T2 (by simp [hD]) hCS hCE
        (by rw [hq]; simpa using hT) (by rw [hq]; simpa using hT2)
      rw [hq] at this
      have hne : ¬ (some t = some pipe_tok) := by simpa using ht
      simp only [pipe_scan_loop, hget, hne, if_false]
      rw [h1, this]
      simp [pipes_to_null, ht, stage_starts, stage_ends, List.dropLast_cons_of_ne_nil]
      have e1 : i + 1 + q.length + 1 = i + (q.length + 1) + 1 := by omega
      have e2 : (i : Int) + 1 + (q.length : Int) - 1 = (i : Int) + ((q.length : Int) + 1) - 1 := by
        omega
      rw [e1, e2]
      exact ⟨rfl, rfl⟩

theorem split_at_pipes_length (toks : List Tok) :
    (split_at_pipes toks).length = toks.count pipe_tok + 1 := by
  induction toks with
  | nil => simp [split_at_pipes]
  | cons t rest ih =>
    by_cases ht : t = pipe_tok
    · subst ht; rw [split_at_pipes_cons_pipe]; simp [ih]
    · obtain ⟨q, qs, hq, hsplit⟩ := split_at_pipes_cons_other t rest ht
      rw [hsplit, List.count_cons_of_ne (Ne.symm ht), ← ih, hq]
      simp

theorem stage_ends_last : ∀ (rest : List Tok) (i : Nat),
    stage_ends i (split_at_pipes rest)
      = (stage_ends i (split_at_pipes rest)).dropLast ++ [(i : Int) + (rest.length : Int) - 1] := by
  intro rest
  induction rest with
  | nil => intro i; simp [split_at_pipes, stage_ends]
  | cons t rest ih =>
    intro i
    by_cases ht : t = pipe_tok
    · subst ht
      rw [split_at_pipes_cons_pipe]
      obtain ⟨q, qs, hq⟩ : ∃ q qs, split_at_pipes rest = q :: qs := by
        cases hs : split_at_pipes rest with
        | nil => exact absurd hs (split_at_pipes_ne_nil rest)
        | cons q qs => exact ⟨q, qs, rfl⟩
      have := ih (i + 1)
      rw [hq] at this ⊢
      simp only [stage_ends, List.length_nil, Nat.add_zero] at this ⊢
      rw [List.dropLast_cons_of_ne_nil (by simp), List.cons_append, ← List.cons_append]
      rw [List.cons_append, List.cons_inj_right]
      rw [this]
      simp only [List.length_cons]
      rw [List.dropLast_concat]
      congr 2
      push_cast; omega
    · obtain ⟨q, qs, hq, hsplit⟩ := split_at_pipes_cons_other t rest ht
      have := ih (i + 1)
      rw [hq] at this
      rw [hsplit]
      simp only [stage_ends, List.length_cons] at this ⊢
      have e1 : i + (q.length + 1) + 1 = i + 1 + q.length + 1 := by omega
      have e2 : (i : Int) + ((q.length + 1 : Nat) : Int) - 1 = ((i + 1 : Nat) : Int) + (q.length : Int) - 1 := by
        push_cast; omega
      have e3 : (i : Int) + ((rest.length + 1 : Nat) : Int) - 1
          = ((i + 1 : Nat) : Int) + (rest.length : Int) - 1 := by push_cast; omega
      rw [e1, e2, e3]
      exact this

/-- What the first loop of `handle_piping` leaves: `NULL` for every `|`, the
number of `|` tokens, and the start and end index of every piece. -/
theorem pipe_scan_spec (toks : List Tok) (rest : List (Option Tok)) (cmd_start cmd_end : List Int)
    (hlen : toks.length < MAX_TOKENS) (hcs : cmd_start.length = MAX_TOKENS)
    (hce : cmd_end.length = MAX_TOKENS) :
    pipe_scan (toks.map some ++ none :: rest) toks.length cmd_start cmd_end
      = ⟨pipes_to_null toks ++ none :: rest, toks.count pipe_tok,
          stage_starts 0 (split_at_pipes toks) ++ cmd_start.drop (toks.count pipe_tok + 1),
          stage_ends 0 (split_at_pipes toks) ++ cmd_end.drop (toks.count pipe_tok + 1)⟩ := by
  have hcount : toks.count pipe_tok ≤ toks.length := List.count_le_length _ _
  have hP := split_at_pipes_length toks
  obtain ⟨c0, T, rfl⟩ : ∃ c0 T, cmd_start = c0 :: T := by
    cases cmd_start with
    | nil => simp [MAX_TOKENS] at hcs
    | cons c0 T => exact ⟨c0, T, rfl⟩
  simp only [MAX_TOKENS, List.length_cons] at hlen hcs hce
  have hloop := pipe_scan_loop_spec toks 0 [] (none :: rest) 0 [] 0 T [] cmd_end rfl rfl rfl
    (by rw [hP]; simp; omega) (by rw [hP]; simp; omega)
  simp only [List.nil_append, hP, Nat.add_sub_cancel, Nat.zero_add] at hloop
  have hstarts : stage_starts 0 (split_at_pipes toks)
      = 0 :: (stage_starts 0 (split_at_pipes toks)).tail := by
    cases hs : split_at_pipes toks with
    | nil => exact absurd hs (split_at_pipes_ne_nil toks)
    | cons q qs => simp [stage_starts]
  have hdl : (stage_ends 0 (split_at_pipes toks)).dropLast.length = toks.count pipe_tok := by
    have : (stage_ends 0 (split_at_pipes toks)).length = (split_at_pipes toks).length := by
      generalize split_at_pipes toks = P
      generalize (0 : Nat) = i
      induction P generalizing i with
      | nil => rfl
      | cons q qs ih => simp [stage_ends, ih]
    simp [this, hP]
  obtain ⟨e0, E, hE⟩ : ∃ e0 E, cmd_end.drop (toks.count pipe_tok) = e0 :: E := by
    cases hd : cmd_end.drop (toks.count pipe_tok) with
    | nil =>
      have := congrArg List.length hd
      simp at this; omega
    | cons e0 E => exact ⟨e0, E, rfl⟩
  have hE' : cmd_end.drop (toks.count pipe_tok + 1) = E := by
    rw [← List.drop_drop, hE]; rfl
  have hset : ∀ v : Int, ((stage_ends 0 (split_at_pipes toks)).dropLast ++ e0 :: E).set
      (toks.count pipe_tok) v = (stage_ends 0 (split_at_pipes toks)).dropLast ++ v :: E := by
    intro v; rw [← hdl]; exact set_at_length _ _ _ _
  have hl := stage_ends_last toks 0
  simp only [Int.ofNat_zero, Nat.cast_zero, zero_add] at hl
  simp only [pipe_scan, List.set_cons_zero, hloop]
  rw [hE, hset, hE']
  congr 1
  · rw [hstarts]; simp
  · rw [List.append_cons, ← hl]

/-- The copy loop of a stage child copies the slots of its range. -/
theorem stage_copy_loop_spec (P : List (Option Tok)) : ∀ (A B K C : List (Option Tok)),
    P.length ≤ C.length →
    stage_copy_loop (A ++ (P ++ B)) P.length (A.length : Int) (K ++ C) K.length
      = (K ++ (P ++ C.drop P.length), K.length + P.length) := by
  induction P with
  | nil => intro A B K C _; simp [stage_copy_loop]
  | cons x P ih =>
    intro A B K C hC
    obtain ⟨c, C', rfl⟩ : ∃ c C', C = c :: C' := by
      cases C with
      | nil => simp at hC
      | cons c C' => exact ⟨c, C', rfl⟩
    have h1 : (A ++ (x :: P ++ B)).getD (A.length : Int).toNat none = x := by
      rw [List.getD_eq_getElem?_getD, Int.toNat_ofNat]
      have := getElem?_at_length A x (P ++ B)
      simp only [List.cons_append]
      rw [this]; rfl
    have := ih (A ++ [x]) B (K ++ [x]) C' (by simpa using hC)
    simp only [List.length_append, List.length_singleton, List.append_assoc, List.singleton_append,
      Nat.cast_add, Nat.cast_one] at this
    simp only [List.length_cons, stage_copy_loop, h1, set_at_length]
    rw [List.cons_append, this]
    simp [Nat.add_assoc, Nat.add_comm 1]

theorem pipes_to_null_first_piece (rest : List Tok) :
    ∃ B, pipes_to_null rest = ((split_at_pipes rest).getD 0 []).map some ++ B := by
  induction rest with
  | nil => exact ⟨[], by simp [pipes_to_null, split_at_pipes]⟩
  | cons t rest ih =>
    by_cases ht : t = pipe_tok
    · subst ht
      exact ⟨pipes_to_null (pipe_tok :: rest), by rw [split_at_pipes_cons_pipe]; simp⟩
    · obtain ⟨q, qs, hq, hsplit⟩ := split_at_pipes_cons_other t rest ht
      obtain ⟨B, hB⟩ := ih
      rw [hq] at hB
      refine ⟨B, ?_⟩
      rw [hsplit]
      simp only [pipes_to_null, List.map_cons, ht, if_false, List.getD_cons_zero,
        List.cons_append] at hB ⊢
      rw [hB]

/-- Where piece `k` of the split lies in the array that the scan leaves: at the
indices that `stage_starts` and `stage_ends` give. -/
theorem piece_location : ∀ (rest : List Tok) (i : Nat) (D J : List (Option Tok)) (k : Nat),
    D.length = i → k < (split_at_pipes rest).length →
    ∃ A B, D ++ (pipes_to_null rest ++ J) = A ++ (((split_at_pipes rest).getD k []).map some ++ B)
      ∧ (stage_starts i (split_at_pipes rest)).getD k 0 = (A.length : Int)
      ∧ (stage_ends i (split_at_pipes rest)).getD k 0
          = (A.length : Int) + (((split_at_pipes rest).getD k []).length : Int) - 1 := by
  intro rest
  induction rest with
  | nil =>
    intro i D J k hD hk
    have : k = 0 := by simp [split_at_pipes] at hk; exact hk
    subst this
    exact ⟨D, J, by simp [pipes_to_null, split_at_pipes], by simp [split_at_pipes, stage_starts, hD],
      by simp [split_at_pipes, stage_ends, hD]⟩
  | cons t rest ih =>
    intro i D J k hD hk
    cases k with
    | zero =>
      obtain ⟨B, hB⟩ := pipes_to_null_first_piece (t :: rest)
      refine ⟨D, B ++ J, by rw [hB]; simp, ?_, ?_⟩
      · cases hs : split_at_pipes (t :: rest) with
        | nil => exact absurd hs (split_at_pipes_ne_nil _)
        | cons q qs => simp [stage_starts, hD]
      · cases hs : split_at_pipes (t :: rest) with
        | nil => exact absurd hs (split_at_pipes_ne_nil _)
        | cons q qs => simp [stage_ends, hD]
    | succ k =>
      by_cases ht : t = pipe_tok
      · subst ht
        rw [split_at_pipes_cons_pipe] at hk ⊢
        obtain ⟨A, B, h1, h2, h3⟩ := ih (i + 1) (D ++ [none]) J k (by simp [hD])
          (by simpa using hk)
        refine ⟨A, B, ?_, ?_, ?_⟩
        · rw [List.getD_cons_succ, ← h1]; simp [pipes_to_null]
        · simpa [stage_starts] using h2
        · simpa [stage_ends] using h3
      · obtain ⟨q, qs, hq, hsplit⟩ := split_at_pipes_cons_other t rest ht
        rw [hsplit] at hk ⊢
        obtain ⟨A, B, h1, h2, h3⟩ := ih (i + 1) (D ++ [some t]) J (k + 1) (by simp [hD])
          (by rw [hq]; simpa using hk)
        rw [hq] at h1 h2 h3
        have e1 : i + (q.length + 1) + 1 = i + 1 + q.length + 1 := by omega
        refine ⟨A, B, ?_, ?_, ?_⟩
        · rw [List.getD_cons_succ] at h1 ⊢
          rw [← h1]; simp [pipes_to_null, ht]
        · simpa [stage_starts, e1] using h2
        · simpa [stage_ends, e1] using h3

theorem pipe_not_mem_piece (toks : List Tok) : ∀ q ∈ split_at_pipes toks, pipe_tok ∉ q := by
  induction toks with
  | nil => simp [split_at_pipes]
  | cons t rest ih =>
    by_cases ht : t = pipe_tok
    · subst ht
      rw [split_at_pipes_cons_pipe]
      intro q hq
      rcases List.mem_cons.1 hq with h | h
      · subst h; simp
      · exact ih q h
    · obtain ⟨q', qs, hq, hsplit⟩ := split_at_pipes_cons_other t rest ht
      rw [hsplit]
      rw [hq] at ih
      intro q hq
      rcases List.mem_cons.1 hq with h | h
      · subst h
        have := ih q' (by simp)
        simp [this, Ne.symm ht]
      · exact ih q (by simp [h])

theorem join_with_pipes_split (toks : List Tok) :
    join_with_pipes (split_at_pipes toks) = toks := by
  induction toks with
  | nil => simp [split_at_pipes, join_with_pipes]
  | cons t rest ih =>
    by_cases ht : t = pipe_tok
    · subst ht
      rw [split_at_pipes_cons_pipe]
      cases hs : split_at_pipes rest with
      | nil => exact absurd hs (split_at_pipes_ne_nil rest)
      | cons q qs =>
        rw [hs] at ih
        simp [join_with_pipes, ih]
    · obtain ⟨q, qs, hq, hsplit⟩ := split_at_pipes_cons_other t rest ht
      rw [hsplit]
      rw [hq] at ih
      cases qs with
      | nil => simpa [join_with_pipes] using ih
      | cons q' qs => simpa [join_with_pipes] using ih

theorem piece_length_le (toks : List Tok) : ∀ q ∈ split_at_pipes toks, q.length ≤ toks.length := by
  induction toks with
  | nil => simp [split_at_pipes]
  | cons t rest ih =>
    by_cases ht : t = pipe_tok
    · subst ht
      rw [split_at_pipes_cons_pipe]
      intro q hq
      rcases List.mem_cons.1 hq with h | h
      · subst h; simp
      · have := ih q h
        simp; omega
    · obtain ⟨q', qs, hq, hsplit⟩ := split_at_pipes_cons_other t rest ht
      rw [hsplit]
      rw [hq] at ih
      intro q hq
      rcases List.mem_cons.1 hq with h | h
      · subst h
        have := ih q' (by simp)
        simp; omega
      · have := ih q (by simp [h])
        simp; omega

theorem stage_starts_length (P : List (List Tok)) : ∀ i, (stage_starts i P).length = P.length := by
  induction P with
  | nil => intro i; rfl
  | cons q qs ih => intro i; simp [stage_starts, ih]

theorem stage_ends_length (P : List (List Tok)) : ∀ i, (stage_ends i P).length = P.length := by
  induction P with
  | nil => intro i; rfl
  | cons q qs ih => intro i; simp [stage_ends, ih]

/-- C5: for a token list with `n` tokens `|` (any `n`, so `n ≥ 1` included)
`handle_piping` counts `n` pipes, hence runs `n + 1` stages; the split at the
`|` tokens has `n + 1` pieces; the array `cmd_tokens` that the child of stage
`i` builds holds exactly piece `i`, then `NULL`, with `token_count_cmd` its
length; no piece holds a `|`; and the pieces joined with a `|` between two
consecutive ones are the token list. -/
theorem handle_piping_stages_are_pieces (toks : List Tok) (rest : List (Option Tok))
    (cmd_start cmd_end : List Int) (cmd_tokens : List (Option Tok))
    (hlen : toks.length < MAX_TOKENS) (hcs : cmd_start.length = MAX_TOKENS)
    (hce : cmd_end.length = MAX_TOKENS) (hct : cmd_tokens.length = MAX_TOKENS)
    (n : Nat) (hn : toks.count pipe_tok = n) :
    (pipe_scan (toks.map some ++ none :: rest) toks.length cmd_start cmd_end).pipe_count = n
    ∧ (split_at_pipes toks).length = n + 1
    ∧ (∀ i, i ≤ n → ∃ junk,
        stage_tokens (pipe_scan (toks.map some ++ none :: rest) toks.length cmd_start cmd_end)
            i cmd_tokens
          = (((split_at_pipes toks).getD i []).map some ++ none :: junk,
             ((split_at_pipes toks).getD i []).length)
        ∧ argv (stage_tokens (pipe_scan (toks.map some ++ none :: rest) toks.length cmd_start
            cmd_end) i cmd_tokens).1 = (split_at_pipes toks).getD i []
        ∧ pipe_tok ∉ (split_at_pipes toks).getD i [])
    ∧ join_with_pipes (split_at_pipes toks) = toks := by
  have hP := split_at_pipes_length toks
  rw [hn] at hP
  rw [pipe_scan_spec toks rest cmd_start cmd_end hlen hcs hce, hn]
  refine ⟨rfl, hP, ?_, join_with_pipes_split toks⟩
  intro i hi
  have hi' : i < (split_at_pipes toks).length := by omega
  have hmem : (split_at_pipes toks).getD i [] ∈ split_at_pipes toks := by
    rw [List.getD_eq_getElem?_getD, List.getElem?_eq_getElem hi']
    exact List.getElem_mem _
  have hql := piece_length_le toks _ hmem
  obtain ⟨A, B, h1, h2, h3⟩ := piece_location toks 0 [] (none :: rest) i rfl hi'
  simp only [List.nil_append] at h1
  have hfirst : (stage_starts 0 (split_at_pipes toks) ++ cmd_start.drop (n + 1)).getD i 0
      = (A.length : Int) := by
    rw [List.getD_eq_getElem?_getD, List.getElem?_append_left (by rw [stage_starts_length]; exact hi'),
      ← List.getD_eq_getElem?_getD, h2]
  have hlast : (stage_ends 0 (split_at_pipes toks) ++ cmd_end.drop (n + 1)).getD i 0
      = (A.length : Int) + (((split_at_pipes toks).getD i []).length : Int) - 1 := by
    rw [List.getD_eq_getElem?_getD, List.getElem?_append_left (by rw [stage_ends_length]; exact hi'),
      ← List.getD_eq_getElem?_getD, h3]
  have hcnt : ((A.length : Int) + (((split_at_pipes toks).getD i []).length : Int) - 1 + 1
      - (A.length : Int)).toNat = (((split_at_pipes toks).getD i []).map some).length := by
    simp only [List.length_map]; omega
  have hcopy := stage_copy_loop_spec (((split_at_pipes toks).getD i []).map some) A B []
    cmd_tokens (by simp only [List.length_map, hct, MAX_TOKENS]; simp only [MAX_TOKENS] at hlen; omega)
  simp only [List.nil_append, List.length_nil, Nat.zero_add] at hcopy
  obtain ⟨c, C, hC⟩ : ∃ c C, cmd_tokens.drop (((split_at_pipes toks).getD i []).map some).length
      = c :: C := by
    cases hd : cmd_tokens.drop (((split_at_pipes toks).getD i []).map some).length with
    | nil =>
      have := congrArg List.length hd
      simp only [List.length_drop, List.length_map, hct, MAX_TOKENS, List.length_nil] at this
      simp only [MAX_TOKENS] at hlen
      omega
    | cons c C => exact ⟨c, C, rfl⟩
  have hst : stage_tokens ⟨pipes_to_null toks ++ none :: rest, n,
        stage_starts 0 (split_at_pipes toks) ++ cmd_start.drop (n + 1),
        stage_ends 0 (split_at_pipes toks) ++ cmd_end.drop (n + 1)⟩ i cmd_tokens
      = (((split_at_pipes toks).getD i []).map some ++ none :: C,
         ((split_at_pipes toks).getD i []).length) := by
    simp only [stage_tokens, hfirst, hlast, hcnt, h1, hcopy, hC]
    rw [set_at_length]
    simp
  refine ⟨C, hst, ?_, pipe_not_mem_piece toks _ hmem⟩
  rw [hst]
  exact argv_map_some _ _

/-- C5 at the tokens `ls | wc`. -/
theorem handle_piping_stages_are_pieces_witness :
    [tok "ls", tok "|", tok "wc"].length < MAX_TOKENS
    ∧ unset_ranges.length = MAX_TOKENS
    ∧ unset_tokens.length = MAX_TOKENS
    ∧ [tok "ls", tok "|", tok "wc"].count pipe_tok = 1
    ∧ (pipe_scan ([tok "ls", tok "|", tok "wc"].map some ++ none :: []) [tok "ls", tok "|", tok "wc"].length
          unset_ranges unset_ranges).pipe_count = 1
    ∧ (split_at_pipes [tok "ls", tok "|", tok "wc"]).length = 1 + 1
    ∧ join_with_pipes (split_at_pipes [tok "ls", tok "|", tok "wc"]) = [tok "ls", tok "|", tok "wc"] :=
  ⟨by decide, by decide, by decide, by decide,
   (handle_piping_stages_are_pieces [tok "ls", tok "|", tok "wc"] [] unset_ranges unset_ranges
      unset_tokens (by decide) (by decide) (by decide) (by decide) 1 (by decide)).1,
   (handle_piping_stages_are_pieces [tok "ls", tok "|", tok "wc"] [] unset_ranges unset_ranges
      unset_tokens (by decide) (by decide) (by decide) (by decide) 1 (by decide)).2.1,
   (handle_piping_stages_are_pieces [tok "ls", tok "|", tok "wc"] [] unset_ranges unset_ranges
      unset_tokens (by decide) (by decide) (by decide) (by decide) 1 (by decide)).2.2.2⟩

/-! ## `execute_logical_commands`: the chain stops at the first failure -/

theorem World.eq_start (w : World) :
    w = World.start (w.fork_ok 0) (w.fork_ok 1) (w.status 0) (w.status 1) w := by
  cases w with
  | mk f s =>
    simp only [World.start]
    congr
    · funext k
      by_cases h0 : k = 0
      · simp [h0]
      · by_cases h1 : k = 1
        · simp [h1]
        · simp [h0, h1]
    · funext k
      by_cases h0 : k = 0
      · simp [h0]
      · by_cases h1 : k = 1
        · simp [h1]
        · simp [h0, h1]

theorem logical_loop_none (w : World) (fuel : Nat) (m : Mem) (trace : List Event) :
    (logical_loop w fuel m none trace).trace = trace := by
  cases fuel <;> rfl

/-- The loop adds events only behind children that did not exit with a
non-zero status. -/
theorem logical_loop_prefix_zero (w : World) : ∀ (fuel : Nat) (m : Mem) (cmd : Option Ptr)
    (trace : List Event),
    (∀ e ∈ trace, ∃ argv status, e = Event.exec argv status
      ∧ (WIFEXITED status = true → WEXITSTATUS status = 0)) →
    ∀ e ∈ (logical_loop w fuel m cmd trace).trace.dropLast,
      ∃ argv status, e = Event.exec argv status
        ∧ (WIFEXITED status = true → WEXITSTATUS status = 0) := by
  intro fuel
  induction fuel with
  | zero =>
    intro m cmd trace h e he
    exact h e (List.mem_of_mem_dropLast he)
  | succ fuel ih =>
    intro m cmd trace h e he
    cases cmd with
    | none => exact h e (List.mem_of_mem_dropLast he)
    | some c =>
      simp only [logical_loop] at he
      split at he
      · -- another sub-command follows
        split at he
        · split at he
          · split at he
            · simp only [List.dropLast_concat] at he
              exact h e he
            · have hz : ∀ e ∈ trace ++ [Event.exec
                  (argv_of (parse_command (strtok m none ['&']).1 ⟨.next_cmd, 0⟩ fresh_tokens).1
                    (parse_command (strtok m none ['&']).1 ⟨.next_cmd, 0⟩ fresh_tokens).2.1)
                  (w.status trace.length)], ∃ argv status, e = Event.exec argv status
                    ∧ (WIFEXITED status = true → WEXITSTATUS status = 0) := by
                intro e' he'
                rcases List.mem_append.1 he' with h' | h'
                · exact h e' h'
                · rw [List.mem_singleton.1 h']
                  rename_i hst
                  exact ⟨_, _, rfl, fun hx => by_contra (fun hy => hst ⟨hx, hy⟩)⟩
              split at he
              · simp only [List.dropLast_concat] at he
                exact h e he
              · exact ih _ _ _ hz e he
          · simp only [List.dropLast_concat] at he
            exact h e he
        · split at he
          · exact h e (List.mem_of_mem_dropLast he)
          · exact ih _ _ _ h e he
      · -- the last sub-command
        rw [logical_loop_none] at he
        split at he
        · simp only [List.dropLast_concat] at he
          exact h e he
        · exact h e (List.mem_of_mem_dropLast he)

/-- In every run every event that is followed by another one is a child that
did not exit with a non-zero status. -/
theorem logical_events_after_zero (w : World) (m : Mem) (command : Ptr)
    (pre : List Event) (e : Event) (post : List Event)
    (htrace : (execute_logical_commands w m command).trace = pre ++ e :: post)
    (hpost : post ≠ []) :
    ∃ argv status, e = Event.exec argv status
      ∧ (WIFEXITED status = true → WEXITSTATUS status = 0) := by
  have hmem : e ∈ (execute_logical_commands w m command).trace.dropLast := by
    rw [htrace]
    obtain ⟨x, post', rfl⟩ : ∃ x post', post = post' ++ [x] :=
      ⟨post.getLast hpost, post.dropLast, (List.dropLast_append_getLast hpost).symm⟩
    rw [show pre ++ e :: (post' ++ [x]) = (pre ++ e :: post') ++ [x] by simp,
      List.dropLast_concat]
    simp
  have hall : ∀ e ∈ (execute_logical_commands w m command).trace.dropLast,
      ∃ argv status, e = Event.exec argv status
        ∧ (WIFEXITED status = true → WEXITSTATUS status = 0) := by
    simp only [execute_logical_commands]
    split
    · intro e he; simp at he
    · split
      · intro e he; simp at he
      · exact logical_loop_prefix_zero w _ _ _ [] (by simp)
  exact hall e hmem

/-! ## `execute_logical_commands` on two clauses -/

theorem strtok_at_nul (m : Mem) (delim : List Char) (h : peek (m.get m.save.buf) m.save.off = NUL) :
    strtok m none delim = ({ m with save := m.save }, none) := by
  simp only [strtok, h, if_true]

theorem strcpy_from_other (m : Mem) (dst src : BufId) (o : Nat) (h : dst ≠ src) :
    strcpy m ⟨dst, 0⟩ ⟨src, o⟩
      = some (m.put dst (stored (m.str ⟨src, o⟩)
          ++ (m.get dst).drop ((m.str ⟨src, o⟩).length + 1))) := by
  simp [strcpy, h]

theorem Mem.save_put (m : Mem) (b : BufId) (x : Buf) : (m.put b x).save = m.save := by
  cases b <;> rfl

theorem skip_blanks_spec (m : Mem) (buf : BufId) (done bl rest : Buf)
    (hbuf : m.get buf = done ++ (bl ++ rest)) (hbl : ∀ c ∈ bl, is_blank c = true)
    (hrest : ∀ c, rest.head? = some c → is_blank c = false) :
    skip_blanks m ⟨buf, done.length⟩ = ⟨buf, done.length + bl.length⟩ := by
  simp only [skip_blanks, hbuf, drop_at_length]
  congr 2
  clear hbuf
  induction bl with
  | nil =>
    cases rest with
    | nil => rfl
    | cons c r =>
      have := hrest c rfl
      simp only [is_blank] at this
      simp [List.takeWhile_cons, this]
  | cons c bl ih =>
    have hc := hbl c (by simp)
    simp only [is_blank] at hc
    simp only [List.cons_append, List.takeWhile_cons, hc, if_true, List.length_cons]
    rw [ih (fun d hd => hbl d (by simp [hd]))]

/-- The events of the loop start with the events it was entered with. -/
theorem logical_loop_trace_prefix (w : World) : ∀ (fuel : Nat) (m : Mem) (cmd : Option Ptr)
    (trace : List Event), ∃ rest, (logical_loop w fuel m cmd trace).trace = trace ++ rest := by
  intro fuel
  induction fuel with
  | zero => intro m cmd trace; exact ⟨[], by simp [logical_loop]⟩
  | succ fuel ih =>
    intro m cmd trace
    cases cmd with
    | none => exact ⟨[], by simp [logical_loop]⟩
    | some c =>
      simp only [logical_loop]
      split
      · split
        · split
          · split
            · exact ⟨_, rfl⟩
            · split
              · exact ⟨_, rfl⟩
              · obtain ⟨rest, h⟩ := ih _ _ (trace ++ [Event.exec
                  (argv_of (parse_command (strtok m none ['&']).1 ⟨.next_cmd, 0⟩ fresh_tokens).1
                    (parse_command (strtok m none ['&']).1 ⟨.next_cmd, 0⟩ fresh_tokens).2.1)
                  (w.status trace.length)])
                exact ⟨_, by rw [h, List.append_assoc]⟩
          · exact ⟨_, rfl⟩
        · split
          · exact ⟨[], by simp⟩
          · exact ih _ _ _
      · rw [logical_loop_none]
        split
        · exact ⟨_, rfl⟩
        · exact ⟨[], by simp⟩

theorem not_amp (c : Char) (h : c ≠ '&') : c ∉ ['&'] := by simpa using h

theorem words_ne_nil_shape (B : List Char) (hB : words B ≠ []) :
    ∃ bl B', B = bl ++ B' ∧ (∀ c ∈ bl, is_blank c = true) ∧ B' ≠ []
      ∧ (∀ c, B'.head? = some c → is_blank c = false) ∧ words B' = words B := by
  rcases line_shape B with h | ⟨bl, w, rfl, h1, h2, h3⟩ | ⟨bl, w, c, r, rfl, h1, h2, h3, h4⟩
  · exfalso; apply hB
    have := words_blanks_append B [] h
    rw [List.append_nil, words_nil] at this
    exact this
  · refine ⟨bl, w, rfl, h1, h3, ?_, (words_blanks_append bl w h1).symm⟩
    intro c hc
    cases w with
    | nil => exact absurd rfl h3
    | cons x w' => simp at hc; rw [← hc]; exact h2 x (by simp)
  · refine ⟨bl, w ++ c :: r, rfl, h1, by simp, ?_, (words_blanks_append bl _ h1).symm⟩
    intro d hd
    cases w with
    | nil => exact absurd rfl h3
    | cons x w' => simp at hd; rw [← hd]; exact h2 x (by simp)

/-- A line of two clauses `A && B`, each with at least one word and fewer than
`MAX_TOKENS` words: the words of `A` are run first; when that child exits with
a non-zero status nothing else is run; when it exits with zero, or ends without
exiting, the words of `B` are run next, by the loop's own `fork` or by
`execute_command`. -/
theorem logical_two_clauses (w : World) (m : Mem) (A B junk : List Char)
    (hA : ∀ c ∈ A, c ≠ NUL ∧ c ≠ '&') (hB : ∀ c ∈ B, c ≠ NUL ∧ c ≠ '&')
    (hwA : words A ≠ []) (hlA : (words A).length < MAX_TOKENS)
    (hwB : words B ≠ []) (hlB : (words B).length < MAX_TOKENS)
    (hcmd : m.command = A ++ '&' :: '&' :: (B ++ NUL :: junk))
    (hf0 : w.fork_ok 0 = true) :
    (WIFEXITED (w.status 0) = true → WEXITSTATUS (w.status 0) ≠ 0 →
        execute_logical_commands w m command_ptr
          = ⟨[Event.exec (words A) (w.status 0)], Halt.returned⟩)
    ∧ ((WIFEXITED (w.status 0) = true → WEXITSTATUS (w.status 0) = 0) → w.fork_ok 1 = true →
        ∃ e rest, (execute_logical_commands w m command_ptr).trace
            = Event.exec (words A) (w.status 0) :: e :: rest
          ∧ (e = Event.exec (words B) (w.status 1) ∨ e = Event.dispatch (words B))) := by
  have hAne : A ≠ [] := by
    intro h; rw [h, words_nil] at hwA; exact hwA rfl
  have hBne : B ≠ [] := by
    intro h; rw [h, words_nil] at hwB; exact hwB rfl
  -- the first `strtok` cuts the first clause
  have h1 : strtok m (some command_ptr) ['&']
      = ({ m.put .command (A ++ NUL :: '&' :: (B ++ NUL :: junk)) with
            save := ⟨.command, A.length + 1⟩ }, some ⟨.command, 0⟩) := by
    rw [strtok_some]
    have := strtok_cut_token { m with save := command_ptr } ['&'] .command [] [] A '&'
      ('&' :: (B ++ NUL :: junk)) rfl (by simpa [Mem.get] using hcmd) (by simp)
      (fun c hc => ⟨(hA c hc).1, not_amp c (hA c hc).2⟩) hAne ⟨by decide, by simp⟩
    simpa using this
  -- the first clause is copied to `next_cmd`
  have hstrA : cstr (A ++ NUL :: '&' :: (B ++ NUL :: junk)) 0 = A := by
    have := cstr_run [] A ('&' :: (B ++ NUL :: junk)) (fun c hc => (hA c hc).1)
    simpa using this
  have h2 : strcpy { m.put .command (A ++ NUL :: '&' :: (B ++ NUL :: junk)) with
        save := ⟨.command, A.length + 1⟩ } ⟨.next_cmd, 0⟩ ⟨.command, 0⟩
      = some ⟨A ++ NUL :: '&' :: (B ++ NUL :: junk), m.command_copy, m.cmd_copy,
          A ++ NUL :: m.next_cmd.drop (A.length + 1), ⟨.command, A.length + 1⟩⟩ := by
    rw [strcpy_from_other _ _ _ _ (by decide)]
    simp [Mem.str, Mem.get, Mem.put, hstrA, stored]
  -- the second `strtok` finds the second clause
  have h3 : strtok ⟨A ++ NUL :: '&' :: (B ++ NUL :: junk), m.command_copy, m.cmd_copy,
        A ++ NUL :: m.next_cmd.drop (A.length + 1), ⟨.command, A.length + 1⟩⟩ none ['&']
      = (⟨A ++ NUL :: '&' :: (B ++ NUL :: junk), m.command_copy, m.cmd_copy,
          A ++ NUL :: m.next_cmd.drop (A.length + 1), ⟨.command, A.length + 1 + 1 + B.length⟩⟩,
        some ⟨.command, A.length + 1 + 1⟩) := by
    have := strtok_last_token ⟨A ++ NUL :: '&' :: (B ++ NUL :: junk), m.command_copy, m.cmd_copy,
        A ++ NUL :: m.next_cmd.drop (A.length + 1), ⟨.command, A.length + 1⟩⟩ ['&'] .command
      (A ++ [NUL]) ['&'] B junk (by simp) (by simp [Mem.get])
      (by simp; decide) (fun c hc => ⟨(hB c hc).1, not_amp c (hB c hc).2⟩) hBne
    simpa using this
  obtain ⟨bl, B', rfl, hbl, hB'ne, hB'head, hwB'⟩ := words_ne_nil_shape B hwB
  -- the leading blanks of the second clause are skipped
  have h4 : skip_blanks ⟨A ++ NUL :: '&' :: (bl ++ B' ++ NUL :: junk), m.command_copy, m.cmd_copy,
        A ++ NUL :: m.next_cmd.drop (A.length + 1),
        ⟨.command, A.length + 1 + 1 + (bl ++ B').length⟩⟩ ⟨.command, A.length + 1 + 1⟩
      = ⟨.command, A.length + 1 + 1 + bl.length⟩ := by
    have := skip_blanks_spec ⟨A ++ NUL :: '&' :: (bl ++ B' ++ NUL :: junk), m.command_copy,
        m.cmd_copy, A ++ NUL :: m.next_cmd.drop (A.length + 1),
        ⟨.command, A.length + 1 + 1 + (bl ++ B').length⟩⟩ .command (A ++ [NUL, '&']) bl
      (B' ++ NUL :: junk) (by simp [Mem.get]) hbl (by
        intro c hc
        cases B' with
        | nil => exact absurd rfl hB'ne
        | cons x r => exact hB'head c (by simpa using hc))
    simpa using this
  -- the first clause is tokenized in `next_cmd`
  obtain ⟨ptrs, rest, A', m4, h5, h5str, h5buf, h5len, h5other, h5save⟩ :=
    parse_command_spec ⟨A ++ NUL :: '&' :: (bl ++ B' ++ NUL :: junk), m.command_copy, m.cmd_copy,
        A ++ NUL :: m.next_cmd.drop (A.length + 1),
        ⟨.command, A.length + 1 + 1 + (bl ++ B').length⟩⟩ .next_cmd A
      (m.next_cmd.drop (A.length + 1)) fresh_tokens (fun c hc => (hA c hc).1) (by simp [Mem.get])
      rfl
  have h5save := h5save hlA
  have h5cmd := h5other .command (by decide)
  simp only [Mem.get] at h5buf h5cmd
  rw [List.take_of_length_le (by simp only [MAX_TOKENS] at hlA ⊢; omega)] at h5str
  have hptrs : 0 < ptrs.length := by
    have := congrArg List.length h5str
    simp only [List.length_map] at this
    rw [this]
    exact List.length_pos.2 hwA
  have hargvA : argv_of m4 (ptrs.map some ++ none :: rest) = words A := by
    rw [argv_of_map_some, h5str]
  obtain ⟨f, hfuel⟩ : ∃ f, MAX_COMMAND_LENGTH = f + 1 + 1 := ⟨1022, rfl⟩
  -- the run up to the exit status of the first child
  have hrun : execute_logical_commands w m command_ptr
      = if WIFEXITED (w.status 0) = true ∧ WEXITSTATUS (w.status 0) ≠ 0 then
          ⟨[Event.exec (words A) (w.status 0)], Halt.returned⟩
        else match strcpy m4 ⟨.next_cmd, 0⟩ ⟨.command, A.length + 1 + 1 + bl.length⟩ with
          | none => ⟨[Event.exec (words A) (w.status 0)], Halt.undefined⟩
          | some m => logical_loop w (f + 1) m (some ⟨.command, A.length + 1 + 1 + bl.length⟩)
              [Event.exec (words A) (w.status 0)] := by
    simp only [execute_logical_commands, h1, h2, hfuel]
    rw [logical_loop]
    simp only [h3, h4, h5, hptrs, if_true, List.length_nil, hf0, hargvA, List.nil_append]
  constructor
  · intro hs1 hs2
    rw [hrun, if_pos ⟨hs1, hs2⟩]
  · intro hs hf1
    have hB'nul : ∀ c ∈ B', c ≠ NUL := fun c hc => (hB c (by simp [hc])).1
    have hB'amp : ∀ c ∈ B', c ≠ NUL ∧ c ∉ ['&'] :=
      fun c hc => ⟨(hB c (by simp [hc])).1, not_amp c (hB c (by simp [hc])).2⟩
    -- the second clause is copied to `next_cmd`
    have hstrB : m4.str ⟨.command, A.length + 1 + 1 + bl.length⟩ = B' := by
      simp only [Mem.str, Mem.get, h5cmd]
      have := cstr_run (A ++ NUL :: '&' :: bl) B' junk hB'nul
      have hl : (A ++ NUL :: '&' :: bl).length = A.length + 1 + 1 + bl.length := by
        simp only [List.length_append, List.length_cons]; omega
      rw [hl] at this
      simpa using this
    have h6 : strcpy m4 ⟨.next_cmd, 0⟩ ⟨.command, A.length + 1 + 1 + bl.length⟩
        = some (m4.put .next_cmd
            (B' ++ NUL :: (A' ++ NUL :: m.next_cmd.drop (A.length + 1)).drop (B'.length + 1))) := by
      rw [strcpy_from_other _ _ _ _ (by decide), hstrB]
      simp [Mem.get, h5buf, stored]
    have h6save : (m4.put .next_cmd
        (B' ++ NUL :: (A' ++ NUL :: m.next_cmd.drop (A.length + 1)).drop (B'.length + 1))).save
          = ⟨.next_cmd, A.length⟩ := by
      rw [Mem.save_put, h5save]
    rw [hrun, if_neg (fun hx => hx.2 (hs hx.1)), h6]
    simp only
    -- the tokens of `next_cmd` are the words of the second clause, whatever `strtok` saved
    have hparse : ∀ s : Ptr, ∃ (ptrs' : List Ptr) (rest' : List (Option Ptr)) (m7 : Mem),
        parse_command { m4.put .next_cmd (B' ++ NUL ::
              (A' ++ NUL :: m.next_cmd.drop (A.length + 1)).drop (B'.length + 1)) with save := s }
            ⟨.next_cmd, 0⟩ fresh_tokens = (m7, ptrs'.map some ++ none :: rest', ptrs'.length)
          ∧ argv_of m7 (ptrs'.map some ++ none :: rest') = words (bl ++ B')
          ∧ 0 < ptrs'.length := by
      intro s
      obtain ⟨ptrs', rest', _, m7, g1, g2, _, _, _, _⟩ :=
        parse_command_spec { m4.put .next_cmd (B' ++ NUL ::
              (A' ++ NUL :: m.next_cmd.drop (A.length + 1)).drop (B'.length + 1)) with save := s }
          .next_cmd B' ((A' ++ NUL :: m.next_cmd.drop (A.length + 1)).drop (B'.length + 1))
          fresh_tokens hB'nul (by simp) rfl
      rw [hwB', List.take_of_length_le (by simp only [MAX_TOKENS] at hlB ⊢; omega)] at g2
      refine ⟨ptrs', rest', m7, g1, by rw [argv_of_map_some, g2], ?_⟩
      have := congrArg List.length g2
      simp only [List.length_map] at this
      rw [this]
      exact List.length_pos.2 hwB
    rw [logical_loop]
    by_cases hcase : B'.length ≤ A.length
    · -- `strtok` resumes at or behind the end of the second clause: the `else` branch
      have hpeek : peek (B' ++ NUL ::
          (A' ++ NUL :: m.next_cmd.drop (A.length + 1)).drop (B'.length + 1)) A.length = NUL := by
        rw [peek, List.getD_eq_getElem?_getD, List.getElem?_append_right hcase]
        rcases Nat.eq_zero_or_pos (A.length - B'.length) with h0 | hpos
        · rw [h0]; simp
        · obtain ⟨k, hk⟩ : ∃ k, A.length - B'.length = k + 1 :=
            ⟨A.length - B'.length - 1, by omega⟩
          rw [hk, List.getElem?_cons_succ, List.getElem?_drop]
          have : B'.length + 1 + k = A'.length := by omega
          rw [this, getElem?_at_length]; rfl
      have hst := strtok_at_nul (m4.put .next_cmd (B' ++ NUL ::
          (A' ++ NUL :: m.next_cmd.drop (A.length + 1)).drop (B'.length + 1))) ['&']
        (by rw [h6save]; simpa using hpeek)
      obtain ⟨ptrs', rest', m7, g1, g2, g3⟩ := hparse (m4.put .next_cmd (B' ++ NUL ::
          (A' ++ NUL :: m.next_cmd.drop (A.length + 1)).drop (B'.length + 1))).save
      simp only [hst, g1, g3, if_true, g2, logical_loop_none]
      exact ⟨_, [], rfl, Or.inr rfl⟩
    · -- `strtok` resumes inside the second clause: the branch of the inner clauses
      have hlt : A.length < B'.length := by omega
      have hst := strtok_last_token (m4.put .next_cmd (B' ++ NUL ::
          (A' ++ NUL :: m.next_cmd.drop (A.length + 1)).drop (B'.length + 1))) ['&'] .next_cmd
        (B'.take A.length) [] (B'.drop A.length)
        ((A' ++ NUL :: m.next_cmd.drop (A.length + 1)).drop (B'.length + 1))
        (by rw [h6save, List.length_take, Nat.min_eq_left (le_of_lt hlt)])
        (by rw [Mem.get_put, List.nil_append, ← List.append_assoc, List.take_append_drop])
        (by simp) (fun c hc => hB'amp c (List.mem_of_mem_drop hc))
        (by
          intro h
          have := congrArg List.length h
          simp only [List.length_drop, List.length_nil] at this
          omega)
      obtain ⟨ptrs', rest', m7, g1, g2, g3⟩ := hparse
        ⟨.next_cmd, (B'.take A.length).length + ([] : List Char).length + (B'.drop A.length).length⟩
      simp only [hst, g1, g3, if_true, g2]
      simp only [List.length_singleton, hf1, if_true]
      split
      · exact ⟨_, [], rfl, Or.inl rfl⟩
      · split
        · exact ⟨_, [], rfl, Or.inl rfl⟩
        · rename_i m8 _
          obtain ⟨rest, hrest⟩ := logical_loop_trace_prefix w f m8
            (some (skip_blanks
              { m4.put .next_cmd (B' ++ NUL ::
                  (A' ++ NUL :: m.next_cmd.drop (A.length + 1)).drop (B'.length + 1)) with
                save := ⟨.next_cmd, (B'.take A.length).length + ([] : List Char).length
                  + (B'.drop A.length).length⟩ }
              ⟨.next_cmd, (B'.take A.length).length + ([] : List Char).length⟩))
            ([Event.exec (words A) (w.status 0)] ++ [Event.exec (words (bl ++ B')) (w.status 1)])
          exact ⟨_, rest, by rw [hrest]; rfl, Or.inl rfl⟩

/-- C6: with the value that `waitpid` stores for each child given by the oracle
`w`, in every run of `execute_logical_commands` every event that is followed by
another one is a child forked by the function that did not exit with a
non-zero status (the test is `WIFEXITED(status) && WEXITSTATUS(status) != 0`):
among children that exit, a sub-command is run only if every sub-command run
before it exited with status zero, and a child that exits with a non-zero
status is the last event of the run, nothing is run after it.  On a line of
two clauses `A && B` (each with at least one word and fewer than 100,
`true && echo always` and `false && echo never` among them) the words of `A`
are run first; when that child exits with a non-zero status the function
returns and `B` is not run; when it exits with zero (or is ended by a signal)
the words of `B` are run next. -/
theorem execute_logical_commands_short_circuit (w : World) (m : Mem) (A B junk : List Char)
    (hA : ∀ c ∈ A, c ≠ NUL ∧ c ≠ '&') (hB : ∀ c ∈ B, c ≠ NUL ∧ c ≠ '&')
    (hwA : words A ≠ []) (hlA : (words A).length < MAX_TOKENS)
    (hwB : words B ≠ []) (hlB : (words B).length < MAX_TOKENS)
    (hcmd : m.command = A ++ '&' :: '&' :: (B ++ NUL :: junk))
    (hf0 : w.fork_ok 0 = true) :
    (∀ (m' : Mem) (command : Ptr) (pre : List Event) (e : Event) (post : List Event),
        (execute_logical_commands w m' command).trace = pre ++ e :: post →
        post ≠ [] → ∃ argv status, e = Event.exec argv status
          ∧ (WIFEXITED status = true → WEXITSTATUS status = 0))
    ∧ (∀ (m' : Mem) (command : Ptr) (pre : List Event) (argv : List Tok) (status : Nat)
        (post : List Event),
        (execute_logical_commands w m' command).trace = pre ++ Event.exec argv status :: post →
        WIFEXITED status = true → WEXITSTATUS status ≠ 0 → post = [])
    ∧ (WIFEXITED (w.status 0) = true → WEXITSTATUS (w.status 0) ≠ 0 →
        execute_logical_commands w m command_ptr
          = ⟨[Event.exec (words A) (w.status 0)], Halt.returned⟩)
    ∧ ((WIFEXITED (w.status 0) = true → WEXITSTATUS (w.status 0) = 0) → w.fork_ok 1 = true →
        ∃ e rest, (execute_logical_commands w m command_ptr).trace
            = Event.exec (words A) (w.status 0) :: e :: rest
          ∧ (e = Event.exec (words B) (w.status 1) ∨ e = Event.dispatch (words B))) := by
  refine ⟨fun m' command pre e post => logical_events_after_zero w m' command pre e post, ?_,
    (logical_two_clauses w m A B junk hA hB hwA hlA hwB hlB hcmd hf0).1,
    (logical_two_clauses w m A B junk hA hB hwA hlA hwB hlB hcmd hf0).2⟩
  intro m' command pre argv status post htrace hexit hstatus
  by_contra hpost
  obtain ⟨argv', status', he, hz⟩ :=
    logical_events_after_zero w m' command pre _ post htrace hpost
  cases he
  exact hstatus (hz hexit)

/-- C6 on `true && echo always` where every child exits with status zero, and
on `false && echo never` where every child exits with status one; the whole
run on `true && echo always`. -/
theorem execute_logical_commands_short_circuit_witness :
    ((∀ c ∈ tok "true ", c ≠ NUL ∧ c ≠ '&') ∧ (∀ c ∈ tok " echo always", c ≠ NUL ∧ c ≠ '&')
      ∧ words (tok "true ") = [tok "true"] ∧ words (tok " echo always") = [tok "echo", tok "always"]
      ∧ (line_read (tok "true && echo always")).command
          = tok "true " ++ '&' :: '&' :: (tok " echo always" ++ NUL :: [])
      ∧ WEXITSTATUS ((all_exit 0).status 0) = 0
      ∧ ∃ e rest, (execute_logical_commands (all_exit 0) (line_read (tok "true && echo always"))
            command_ptr).trace
            = Event.exec (words (tok "true ")) ((all_exit 0).status 0) :: e :: rest
          ∧ (e = Event.exec (words (tok " echo always")) ((all_exit 0).status 1)
              ∨ e = Event.dispatch (words (tok " echo always"))))
    ∧ ((∀ c ∈ tok "false ", c ≠ NUL ∧ c ≠ '&') ∧ (∀ c ∈ tok " echo never", c ≠ NUL ∧ c ≠ '&')
      ∧ words (tok "false ") = [tok "false"] ∧ words (tok " echo never") = [tok "echo", tok "never"]
      ∧ (line_read (tok "false && echo never")).command
          = tok "false " ++ '&' :: '&' :: (tok " echo never" ++ NUL :: [])
      ∧ WIFEXITED ((all_exit 1).status 0) = true ∧ WEXITSTATUS ((all_exit 1).status 0) = 1
      ∧ execute_logical_commands (all_exit 1) (line_read (tok "false && echo never")) command_ptr
          = ⟨[Event.exec (words (tok "false ")) ((all_exit 1).status 0)], Halt.returned⟩)
    ∧ execute_logical_commands (all_exit 0) (line_read (tok "true && echo always")) command_ptr
        = ⟨[Event.exec [tok "true"] 0, Event.exec [tok "echo", tok "always"] 0,
            Event.dispatch [tok "always"]], Halt.returned⟩ :=
  ⟨⟨by decide, by decide, by decide, by decide, by decide, by decide,
    (execute_logical_commands_short_circuit (all_exit 0) (line_read (tok "true && echo always"))
      (tok "true ") (tok " echo always") [] (by decide) (by decide) (by decide) (by decide)
      (by decide) (by decide) (by decide) rfl).2.2.2 (fun _ => by decide) rfl⟩,
   ⟨by decide, by decide, by decide, by decide, by decide, by decide, by decide,
    (execute_logical_commands_short_circuit (all_exit 1) (line_read (tok "false && echo never"))
      (tok "false ") (tok " echo never") [] (by decide) (by decide) (by decide) (by decide)
      (by decide) (by decide) (by decide) rfl).2.2.1 (by decide) (by decide)⟩,
   by decide⟩

/-! ## `execute_logical_commands` on concrete lines -/

/-- C7 (the code fails it): on the line `true && echo hi > out.txt`, with every
child exiting with status zero, `execute_logical_commands` runs the last
sub-command through its own `fork` and `execvp(tokens[0], tokens)`, so that
`echo` receives `hi`, `>` and `out.txt` as arguments and no redirection is
made; the one call of `execute_command` it makes is on the token `hi`.  The
`strtok(NULL, "&")` at the head of the loop resumes at the position
`parse_command` left in `next_cmd`, whose contents `strcpy` has replaced. -/
theorem execute_logical_commands_last_clause_not_dispatched :
    execute_logical_commands (all_exit 0) (line_read (tok "true && echo hi > out.txt")) command_ptr
      = ⟨[Event.exec [tok "true"] 0,
          Event.exec [tok "echo", tok "hi", tok ">", tok "out.txt"] 0,
          Event.dispatch [tok "hi"]], Halt.returned⟩ := by
  decide

/-! ## The history -/

theorem history_shift_spec (R : List Tok) : ∀ (A : List Tok) (x : Tok),
    history_shift R.length (A.length + 1) (A ++ x :: R) = A ++ R ++ [(x :: R).getLast (by simp)] := by
  induction R with
  | nil => intro A x; simp [history_shift]
  | cons y R ih =>
    intro A x
    have h1 : (A ++ x :: y :: R).getD (A.length + 1) [] = y := by
      rw [List.getD_eq_getElem?_getD, getElem?_at_length_add_one]; rfl
    have h2 : (A ++ x :: y :: R).set A.length y = (A ++ [y]) ++ y :: R := by
      simp
    have := ih (A ++ [y]) y
    simp only [List.length_append, List.length_singleton] at this
    simp only [List.length_cons, history_shift, Nat.add_sub_cancel, h1, h2, this]
    simp

/-- The rows of the history after the given lines were appended. -/
theorem add_to_history_foldl (lines : List Tok) :
    lines.foldl add_to_history history_start =
      ⟨lines.drop (lines.length - MAX_HISTORY) ++ List.replicate (MAX_HISTORY - lines.length) [],
        min lines.length MAX_HISTORY⟩ := by
  induction lines using List.reverseRecOn with
  | nil => simp [history_start]
  | append_singleton lines l ih =>
    rw [List.foldl_append, ih]
    simp only [List.foldl_cons, List.foldl_nil, add_to_history, MAX_HISTORY]
    by_cases h : lines.length < 100
    · have h1 : min lines.length 100 = lines.length := by omega
      have h2 : lines.length - 100 = 0 := by omega
      have h3 : 100 - lines.length = (100 - (lines.length + 1)) + 1 := by omega
      simp only [h1, h, if_true, h2, List.drop_zero, List.length_append, List.length_singleton]
      rw [h3, List.replicate_succ, set_at_length]
      have h4 : lines.length + 1 - 100 = 0 := by omega
      have h5 : min (lines.length + 1) 100 = lines.length + 1 := by omega
      simp [h4, h5]
    · have h1 : min lines.length 100 = 100 := by omega
      have h2 : 100 - lines.length = 0 := by omega
      simp only [h1, lt_irrefl, if_false, h2, List.replicate_zero, List.append_nil,
        List.length_append, List.length_singleton]
      obtain ⟨x, R, hR⟩ : ∃ x R, lines.drop (lines.length - 100) = x :: R := by
        cases hd : lines.drop (lines.length - 100) with
        | nil => 
          have := congrArg List.length hd
          simp at this; omega
        | cons x R => exact ⟨x, R, rfl⟩
      have hlen : R.length = 99 := by
        have := congrArg List.length hR
        simp at this; omega
      have hs := history_shift_spec R [] x
      simp only [List.length_nil, Nat.zero_add, List.nil_append, hlen] at hs
      rw [hR, hs]
      have h3 : (R ++ [(x :: R).getLast (by simp)]).set 99 l = R ++ [l] := by
        rw [← hlen, set_at_length]
      rw [h3]
      have h4 : 100 - (lines.length + 1) = 0 := by omega
      have h5 : min (lines.length + 1) 100 = 100 := by omega
      have h6 : (lines ++ [l]).drop (lines.length + 1 - 100) = R ++ [l] := by
        have : lines.length + 1 - 100 = (lines.length - 100) + 1 := by omega
        rw [this, List.drop_append_of_le_length (by omega), ← List.drop_drop, hR]
        simp
      rw [h4, h5, h6]
      simp

/-- C10: after the lines of any list were appended to the empty history with
`add_to_history`, `history_count` is the minimum of their number and 100, the
rows below `history_count` are the last that many lines in their order, and
`display_history` lists them numbered from 1; after 101 appends it shows the
2nd to the 101st line numbered 1 to 100. -/
theorem add_to_history_keeps_last_lines (lines : List Tok)
    (_hshort : ∀ l ∈ lines, l.length < MAX_COMMAND_LENGTH) :
    (lines.foldl add_to_history history_start).history_count = min lines.length MAX_HISTORY
    ∧ (lines.foldl add_to_history history_start).history.take
          (lines.foldl add_to_history history_start).history_count
        = lines.drop (lines.length - min lines.length MAX_HISTORY)
    ∧ display_history (lines.foldl add_to_history history_start)
        = (lines.drop (lines.length - min lines.length MAX_HISTORY)).enumFrom 1
    ∧ (lines.length = 101 →
        display_history (lines.foldl add_to_history history_start) = (lines.drop 1).enumFrom 1
        ∧ (lines.drop 1).length = 100) := by
  have hsub : lines.length - min lines.length MAX_HISTORY = lines.length - MAX_HISTORY := by
    simp only [MAX_HISTORY]; omega
  have hlast : (lines.drop (lines.length - MAX_HISTORY)).length = min lines.length MAX_HISTORY := by
    simp only [List.length_drop, MAX_HISTORY]; omega
  have hdisp : display_history (lines.foldl add_to_history history_start)
      = (lines.drop (lines.length - MAX_HISTORY)).enumFrom 1 := by
    rw [add_to_history_foldl]
    simp only [display_history]
    apply List.ext_getElem
    · simp [List.enumFrom_length, hlast]
    · intro i h1 h2
      simp only [List.length_map, List.length_range] at h1
      have hi : i < (lines.drop (lines.length - MAX_HISTORY)).length := by omega
      simp only [List.getElem_map, List.getElem_range, List.getElem_enumFrom]
      rw [List.getD_eq_getElem?_getD, List.getElem?_append_left hi, List.getElem?_eq_getElem hi]
      simp [Nat.add_comm]
  refine ⟨?_, ?_, ?_, ?_⟩
  · rw [add_to_history_foldl]
  · rw [add_to_history_foldl, hsub]
    simp only
    rw [← hlast, List.take_left]
  · rw [hsub]; exact hdisp
  · intro h101
    have : lines.length - MAX_HISTORY = 1 := by simp only [MAX_HISTORY]; omega
    rw [hdisp, this]
    exact ⟨rfl, by simp [h101]⟩

/-- C10 at 101 one-character lines: the first is evicted. -/
theorem add_to_history_keeps_last_lines_witness :
    (∀ l ∈ sample_lines 101, l.length < MAX_COMMAND_LENGTH)
    ∧ display_history ((sample_lines 101).foldl add_to_history history_start)
        = ((sample_lines 101).drop 1).enumFrom 1
    ∧ ((sample_lines 101).drop 1).length = 100 :=
  ⟨by decide, (add_to_history_keeps_last_lines (sample_lines 101) (by decide)).2.2.2 (by decide)⟩

/-! ## The streams after `handle_redirection` -/

theorem bound_append_one (open_ok kind : OpenCall → Bool) (init : Stream) (calls : List OpenCall)
    (c : OpenCall) :
    bound open_ok kind init (calls ++ [c])
      = if (kind c && open_ok c) = true then Stream.file c else bound open_ok kind init calls := by
  unfold bound
  rw [List.filter_append]
  by_cases h : (kind c && open_ok c) = true
  · simp [List.filter_cons, h]
  · simp [List.filter_cons, h]

theorem splice_streams (st : Redir) (i : Int) :
    (splice st i).1.stdin = st.stdin ∧ (splice st i).1.stdout = st.stdout
    ∧ (splice st i).1.opened = st.opened
    ∧ ((splice st i).2 = none → (splice st i).1.token_count = st.token_count - 2) := by
  unfold splice
  split <;> simp

/-- A branch of the scan keeps the two streams what the calls of `open` made so
far give, whether its `open` succeeds or not. -/
theorem redirect_streams (open_ok : OpenCall → Bool) (stdin0 stdout0 : Stream) (st : Redir)
    (i : Int) (call : Tok → OpenCall) (fd : Fd)
    (hin : ∀ name, is_input (call name) = decide (fd = Fd.STDIN_FILENO))
    (hout : ∀ name, is_output (call name) = decide (fd = Fd.STDOUT_FILENO))
    (h1 : st.stdin = bound open_ok is_input stdin0 st.opened)
    (h2 : st.stdout = bound open_ok is_output stdout0 st.opened) :
    (redirect open_ok st i call fd).1.stdin
        = bound open_ok is_input stdin0 (redirect open_ok st i call fd).1.opened
    ∧ (redirect open_ok st i call fd).1.stdout
        = bound open_ok is_output stdout0 (redirect open_ok st i call fd).1.opened
    ∧ ((redirect open_ok st i call fd).2 = none →
        (redirect open_ok st i call fd).1.token_count = st.token_count - 2) := by
  unfold redirect
  split
  · split
    · rename_i name _
      by_cases hok : open_ok (call name) = true
      · simp only [hok, if_true]
        obtain ⟨g1, g2, g3, g4⟩ := splice_streams
          (({ st with opened := st.opened ++ [call name] } : Redir).dup2 (call name) fd) i
        rw [g1, g2, g3]
        refine ⟨?_, ?_, ?_⟩
        · cases fd <;>
            simp [Redir.dup2, bound_append_one, hin, hout, hok, h1]
        · cases fd <;>
            simp [Redir.dup2, bound_append_one, hin, hout, hok, h2]
        · intro h; rw [g4 h]; cases fd <;> rfl
      · simp only [hok]
        simp [bound_append_one, hok, h1, h2]
    · exact ⟨h1, h2, by simp⟩
  · obtain ⟨g1, g2, g3, g4⟩ := splice_streams st i
    rw [g1, g2, g3]
    exact ⟨h1, h2, g4⟩

/-- The scan ends within `*token_count - i` iterations, and it keeps the two
streams what the calls of `open` made so far give. -/
theorem redir_loop_streams (open_ok : OpenCall → Bool) (stdin0 stdout0 : Stream) :
    ∀ (fuel : Nat) (i : Int) (st : Redir), (st.token_count - i).toNat ≤ fuel →
      st.stdin = bound open_ok is_input stdin0 st.opened →
      st.stdout = bound open_ok is_output stdout0 st.opened →
      ∃ st' e, redir_loop open_ok fuel i st = some (st', e)
        ∧ st'.stdin = bound open_ok is_input stdin0 st'.opened
        ∧ st'.stdout = bound open_ok is_output stdout0 st'.opened := by
  intro fuel
  induction fuel with
  | zero =>
    intro i st hfuel h1 h2
    have : ¬ i < st.token_count := by omega
    unfold redir_loop
    simp only [this, if_false]
    exact ⟨st, _, rfl, h1, h2⟩
  | succ fuel ih =>
    intro i st hfuel h1 h2
    have key : ∀ (call : Tok → OpenCall) (fd : Fd),
        (∀ name, is_input (call name) = decide (fd = Fd.STDIN_FILENO)) →
        (∀ name, is_output (call name) = decide (fd = Fd.STDOUT_FILENO)) →
        i < st.token_count →
        ∃ st' e, (match redirect open_ok st i call fd with
            | (st, some e) => some (st, e)
            | (st, none) => redir_loop open_ok fuel (i - 1 + 1) st) = some (st', e)
          ∧ st'.stdin = bound open_ok is_input stdin0 st'.opened
          ∧ st'.stdout = bound open_ok is_output stdout0 st'.opened := by
      intro call fd hin hout hlt
      obtain ⟨g1, g2, g3⟩ := redirect_streams open_ok stdin0 stdout0 st i call fd hin hout h1 h2
      rcases hr : redirect open_ok st i call fd with ⟨st1, _ | e⟩
      · rw [hr] at g1 g2 g3
        simp only at g1 g2 g3 ⊢
        have hc := g3 trivial
        exact ih (i - 1 + 1) st1 (by omega) g1 g2
      · rw [hr] at g1 g2
        exact ⟨st1, e, rfl, g1, g2⟩
    unfold redir_loop
    by_cases hlt : i < st.token_count
    · simp only [hlt, if_true]
      split
      · split
        · exact key open_in .STDIN_FILENO (fun _ => rfl) (fun _ => rfl) hlt
        · split
          · exact key open_append .STDOUT_FILENO (fun _ => rfl) (fun _ => rfl) hlt
          · split
            · exact key open_trunc .STDOUT_FILENO (fun _ => rfl) (fun _ => rfl) hlt
            · exact ih (i + 1) st (by omega) h1 h2
      · exact ⟨st, _, rfl, h1, h2⟩
    · simp only [hlt, if_false]
      exact ⟨st, _, rfl, h1, h2⟩

/-- The function `handle_redirection` returns, and on return each of the two
streams is bound to the file of the last call of `open` of its kind that
succeeded, or is what it was on entry when there is none. -/
theorem handle_redirection_streams (open_ok : OpenCall → Bool) (st : Redir)
    (hopened : st.opened = []) :
    ∃ st' e, handle_redirection open_ok st = some (st', e)
      ∧ st'.stdin = bound open_ok is_input st.stdin st'.opened
      ∧ st'.stdout = bound open_ok is_output st.stdout st'.opened := by
  obtain ⟨st', e, h, g1, g2⟩ := redir_loop_streams open_ok st.stdin st.stdout
    st.token_count.toNat 0 st (by simp) (by rw [hopened]; rfl) (by rw [hopened]; rfl)
  unfold handle_redirection
  rw [h]
  cases e with
  | finished =>
    simp only
    split
    · exact ⟨_, _, rfl, g1, g2⟩
    · exact ⟨_, _, rfl, g1, g2⟩
  | open_failed => exact ⟨_, _, rfl, g1, g2⟩
  | bad_access k => exact ⟨_, _, rfl, g1, g2⟩

/-! ## `handle_redirection`: the files opened -/

theorem redirections_cons_other (t : Tok) (rest : List Tok) (h : is_redirect t = false) :
    redirections (t :: rest) = redirections rest := by
  have h1 : ¬ t = ['<'] := by intro h'; simp [is_redirect, h'] at h
  have h2 : ¬ t = ['>', '>'] := by intro h'; simp [is_redirect, h'] at h
  have h3 : ¬ t = ['>'] := by intro h'; simp [is_redirect, h'] at h
  cases rest <;> simp [redirections, h1, h2, h3]

/-- A branch of the scan on an operator that is the last token: nothing is
opened, and two are taken away from `*token_count` all the same. -/
theorem redirect_last_token (open_ok : OpenCall → Bool) (st : Redir) (i : Int)
    (call : Tok → OpenCall) (fd : Fd) (hcount : st.token_count = i + 1) :
    redirect open_ok st i call fd = ({ st with token_count := st.token_count - 2 }, none) := by
  have h1 : ¬ i + 1 < st.token_count := by omega
  have h2 : (st.token_count - 2 - i).toNat = 0 := by omega
  simp [redirect, h1, splice, h2, shift_loop]

/-- The scan from index `pre.length`, when the tokens from there on are `rest`
and every `open` succeeds: it ends, and the calls of `open` it has made are the
redirections of `rest` in scan order. -/
theorem redir_loop_opened (open_ok : OpenCall → Bool) (hopen : ∀ c, open_ok c = true) :
    ∀ (n : Nat) (rest pre : List Tok) (junk : List (Option Tok)) (st : Redir) (fuel : Nat),
      rest.length ≤ n → rest.length ≤ fuel →
      st.tokens = (pre ++ rest).map some ++ junk →
      st.token_count = (pre.length : Int) + (rest.length : Int) →
      ∃ st', redir_loop open_ok fuel pre.length st = some (st', RedirEnd.finished)
        ∧ st'.opened = st.opened ++ redirections rest := by
  intro n
  induction n with
  | zero =>
    intro rest pre junk st fuel hn _ htok hcount
    have : rest = [] := by
      cases rest with
      | nil => rfl
      | cons _ _ => simp at hn
    subst this
    refine ⟨st, ?_, by simp [redirections]⟩
    unfold redir_loop
    simp [hcount]
  | succ n ih =>
    intro rest pre junk st fuel hn hfuel htok hcount
    match rest, hn, hfuel, htok, hcount with
    | [], _, _, htok, hcount =>
      refine ⟨st, ?_, by simp [redirections]⟩
      unfold redir_loop
      simp [hcount]
    | t :: rest, hn, hfuel, htok, hcount =>
      obtain ⟨fuel, rfl⟩ : ∃ f, fuel = f + 1 := ⟨fuel - 1, by simp at hfuel; omega⟩
      have hlt : (pre.length : Int) < st.token_count := by
        rw [hcount]; simp only [List.length_cons]; push_cast; omega
      have hslot : slot st.tokens (pre.length : Int) = some (some t) := by
        rw [slot_cast, htok]
        have := getElem?_at_length (pre.map some) (some t) (rest.map some ++ junk)
        simpa using this
      have hnext : (pre.length : Int) - 1 + 1 = (pre.length : Int) := by omega
      by_cases hop : is_redirect t = true
      · match rest, hn, hfuel, htok, hcount with
        | [], _, _, _, hcount =>
          -- the operator is the last token
          have hcount' : st.token_count = (pre.length : Int) + 1 := by
            rw [hcount]; simp
          have key : ∀ (call : Tok → OpenCall) (fd : Fd),
              ∃ st', (match redirect open_ok st pre.length call fd with
                  | (st, some e) => some (st, e)
                  | (st, none) => redir_loop open_ok fuel ((pre.length : Int) - 1 + 1) st)
                    = some (st', RedirEnd.finished)
                ∧ st'.opened = st.opened ++ [] := by
            intro call fd
            rw [redirect_last_token open_ok st pre.length call fd hcount', hnext]
            refine ⟨{ st with token_count := st.token_count - 2 }, ?_, by simp⟩
            simp only
            unfold redir_loop
            have : ¬ (pre.length : Int) < st.token_count - 2 := by omega
            simp only [this, if_false]
          have hnil : redirections [t] = [] := by simp [redirections]
          rw [hnil]
          unfold redir_loop
          simp only [hlt, if_true, hslot]
          simp only [is_redirect, Bool.or_eq_true, decide_eq_true_eq] at hop
          by_cases h1 : t = ['<']
          · simp only [h1, if_true]; exact key open_in .STDIN_FILENO
          · by_cases h2 : t = ['>', '>']
            · simp only [h1, h2, if_true, if_false]; exact key open_append .STDOUT_FILENO
            · have h3 : t = ['>'] := by tauto
              simp only [h1, h2, h3, if_true, if_false]
              exact key open_trunc .STDOUT_FILENO
        | name :: rest, hn, hfuel, htok, hcount =>
          have hcount' : st.token_count = (pre.length : Int) + ((rest.length : Int) + 2) := by
            rw [hcount]; simp only [List.length_cons]; push_cast; omega
          have key : ∀ (call : Tok → OpenCall) (fd : Fd),
              ∃ st', (match redirect open_ok st pre.length call fd with
                  | (st, some e) => some (st, e)
                  | (st, none) => redir_loop open_ok fuel ((pre.length : Int) - 1 + 1) st)
                    = some (st', RedirEnd.finished)
                ∧ st'.opened = st.opened ++ call name :: redirections rest := by
            intro call fd
            obtain ⟨X, hX, hred⟩ := redirect_spec open_ok hopen st pre t name rest junk call fd
              htok hcount'
            rw [hred, hnext]
            have hn' : rest.length ≤ n := by simp at hn; omega
            have hfuel' : rest.length ≤ fuel := by simp at hfuel; omega
            obtain ⟨st', h1, h2⟩ := ih rest pre (X ++ junk)
              { ({ st with opened := st.opened ++ [call name] }.dup2 (call name) fd) with
                tokens := (pre ++ rest).map some ++ (X ++ junk),
                token_count := (pre.length : Int) + (rest.length : Int) } fuel
              hn' hfuel' rfl rfl
            refine ⟨st', h1, ?_⟩
            rw [h2]; cases fd <;> simp [Redir.dup2]
          unfold redir_loop
          simp only [hlt, if_true, hslot]
          simp only [is_redirect, Bool.or_eq_true, decide_eq_true_eq] at hop
          by_cases h1 : t = ['<']
          · simp only [h1, if_true, redirections]; exact key open_in .STDIN_FILENO
          · by_cases h2 : t = ['>', '>']
            · simp only [h1, h2, if_true, if_false, redirections]
              exact key open_append .STDOUT_FILENO
            · have h3 : t = ['>'] := by tauto
              simp only [h1, h2, h3, if_true, if_false, redirections]
              exact key open_trunc .STDOUT_FILENO
      · have hop' : is_redirect t = false := by simpa using hop
        have h1 : ¬ t = ['<'] := by intro h; simp [is_redirect, h] at hop'
        have h2 : ¬ t = ['>', '>'] := by intro h; simp [is_redirect, h] at hop'
        have h3 : ¬ t = ['>'] := by intro h; simp [is_redirect, h] at hop'
        rw [redirections_cons_other t rest hop']
        obtain ⟨st', g1, g2⟩ := ih rest (pre ++ [t]) junk st fuel
          (by simp at hn; omega) (by simp at hfuel; omega) (by simpa using htok)
          (by rw [hcount]; simp only [List.length_cons, List.length_append, List.length_nil];
              push_cast; omega)
        refine ⟨st', ?_, g2⟩
        unfold redir_loop
        simp only [hlt, if_true, hslot, h1, h2, h3, if_false]
        simpa using g1

/-- With every `open` succeeding, `handle_redirection` returns, it has made the
calls of `open` that the redirections of the token list give, in scan order,
and the streams are bound to the last file of each kind. -/
theorem handle_redirection_calls (open_ok : OpenCall → Bool) (toks : List Tok)
    (rest : List (Option Tok)) (stdin stdout : Stream) (hopen : ∀ c, open_ok c = true) :
    ∃ st e, handle_redirection open_ok (redir_call toks rest stdin stdout) = some (st, e)
      ∧ st.opened = redirections toks
      ∧ st.stdin = bound open_ok is_input stdin (redirections toks)
      ∧ st.stdout = bound open_ok is_output stdout (redirections toks)
      ∧ (operators_have_names toks = true → e = RedirEnd.finished) := by
  obtain ⟨st1, h1, h2⟩ := redir_loop_opened open_ok hopen toks.length toks []
    (none :: rest) (redir_call toks rest stdin stdout) toks.length (le_refl _) (le_refl _)
    (by simp [redir_call]) (by simp [redir_call])
  have h1' : redir_loop open_ok toks.length 0 (redir_call toks rest stdin stdout)
      = some (st1, RedirEnd.finished) := by simpa using h1
  have h2' : st1.opened = redirections toks := by simpa [redir_call] using h2
  have hfuel : (redir_call toks rest stdin stdout).token_count.toNat = toks.length := by
    simp [redir_call]
  obtain ⟨st, e, h, g1, g2⟩ := handle_redirection_streams open_ok
    (redir_call toks rest stdin stdout) rfl
  have hopened : st.opened = st1.opened := by
    unfold handle_redirection at h
    rw [hfuel, h1'] at h
    simp only at h
    split at h
    · cases h; rfl
    · cases h; rfl
  refine ⟨st, e, h, by rw [hopened, h2'], ?_, ?_, ?_⟩
  · rw [g1, hopened, h2']; rfl
  · rw [g2, hopened, h2']; rfl
  · intro hnames
    obtain ⟨st2, junk', k1, k2, k3, k4, _⟩ := redir_loop_spec open_ok hopen toks.length toks []
      (none :: rest) (redir_call toks rest stdin stdout) toks.length (le_refl _) hnames (le_refl _)
      (by simp [redir_call]) (by simp [redir_call])
    have k1' : redir_loop open_ok toks.length 0 (redir_call toks rest stdin stdout)
        = some (st2, RedirEnd.finished) := by simpa using k1
    simp only [List.nil_append, List.length_nil, Int.ofNat_zero, Nat.cast_zero, zero_add] at k2 k4
    have hlen : (without_redirections toks).length < st2.tokens.length := by
      rw [k2]
      simp only [List.length_append, List.length_map]
      simp only [List.length_cons] at k3
      omega
    have hstore : store st2.tokens st2.token_count none
        = some (st2.tokens.set (without_redirections toks).length none) := by
      rw [k4, store_cast _ _ _ hlen]
    unfold handle_redirection at h
    rw [hfuel, k1'] at h
    simp only [hstore] at h
    cases h
    rfl

/-- C13: when every `open` succeeds, `handle_redirection` on a token list
returns, and the calls of `open` it has made are the redirections of the list
in scan order, each with the flags and the permission of its operator (`<`
read-only; `>>` write-only, create, append, 0644; `>` write-only, create,
truncate, 0644); standard input is then bound to the file of the last `<`,
standard output to the file of the last `>` or `>>`, and a stream no operator
names keeps its binding.  When every operator has a file name behind it the
function ends with its last store inside the array. -/
theorem handle_redirection_opens_in_scan_order (open_ok : OpenCall → Bool) (toks : List Tok)
    (rest : List (Option Tok)) (stdin stdout : Stream) (hopen : ∀ c, open_ok c = true) :
    ∃ st e, handle_redirection open_ok (redir_call toks rest stdin stdout) = some (st, e)
      ∧ st.opened = redirections toks
      ∧ st.stdin = bound open_ok is_input stdin (redirections toks)
      ∧ st.stdout = bound open_ok is_output stdout (redirections toks)
      ∧ (operators_have_names toks = true → e = RedirEnd.finished) :=
  handle_redirection_calls open_ok toks rest stdin stdout hopen

/-- C13 at the tokens `sort < in > a >> b`, every `open` succeeding: `in`, `a`
and `b` are opened in this order, standard input is bound to `in` and standard
output to `b`, the last of the two output files. -/
theorem handle_redirection_opens_in_scan_order_witness :
    (∃ st e, handle_redirection (fun _ => true)
          (redir_call [tok "sort", tok "<", tok "in", tok ">", tok "a", tok ">>", tok "b"] []
            .inherited .inherited) = some (st, e)
      ∧ st.opened = redirections [tok "sort", tok "<", tok "in", tok ">", tok "a", tok ">>", tok "b"]
      ∧ st.stdin = bound (fun _ => true) is_input .inherited
          (redirections [tok "sort", tok "<", tok "in", tok ">", tok "a", tok ">>", tok "b"])
      ∧ st.stdout = bound (fun _ => true) is_output .inherited
          (redirections [tok "sort", tok "<", tok "in", tok ">", tok "a", tok ">>", tok "b"])
      ∧ (operators_have_names [tok "sort", tok "<", tok "in", tok ">", tok "a", tok ">>", tok "b"]
          = true → e = RedirEnd.finished))
    ∧ redirections [tok "sort", tok "<", tok "in", tok ">", tok "a", tok ">>", tok "b"]
        = [⟨tok "in", [.O_RDONLY], none⟩, ⟨tok "a", [.O_WRONLY, .O_CREAT, .O_TRUNC], some 0o644⟩,
           ⟨tok "b", [.O_WRONLY, .O_CREAT, .O_APPEND], some 0o644⟩]
    ∧ bound (fun _ => true) is_input .inherited
        (redirections [tok "sort", tok "<", tok "in", tok ">", tok "a", tok ">>", tok "b"])
        = .file ⟨tok "in", [.O_RDONLY], none⟩
    ∧ bound (fun _ => true) is_output .inherited
        (redirections [tok "sort", tok "<", tok "in", tok ">", tok "a", tok ">>", tok "b"])
        = .file ⟨tok "b", [.O_WRONLY, .O_CREAT, .O_APPEND], some 0o644⟩ :=
  ⟨handle_redirection_opens_in_scan_order (fun _ => true)
      [tok "sort", tok "<", tok "in", tok ">", tok "a", tok ">>", tok "b"] [] .inherited .inherited
      (fun _ => rfl),
   by decide, by decide, by decide⟩

/-! ## `handle_piping`: the children -/

/-- The array `cmd_tokens` of the child of stage `i` holds piece `i` of the
split, then `NULL`. -/
theorem stage_tokens_piece (toks : List Tok) (rest : List (Option Tok))
    (cmd_start cmd_end : List Int) (cmd_tokens : List (Option Tok))
    (hlen : toks.length < MAX_TOKENS) (hcs : cmd_start.length = MAX_TOKENS)
    (hce : cmd_end.length = MAX_TOKENS) (hct : cmd_tokens.length = MAX_TOKENS)
    (i : Nat) (hi : i ≤ toks.count pipe_tok) :
    ∃ junk,
      stage_tokens (pipe_scan (toks.map some ++ none :: rest) toks.length cmd_start cmd_end)
          i cmd_tokens
        = (((split_at_pipes toks).getD i []).map some ++ none :: junk,
           ((split_at_pipes toks).getD i []).length) := by
  have hP := split_at_pipes_length toks
  rw [pipe_scan_spec toks rest cmd_start cmd_end hlen hcs hce]
  have hi' : i < (split_at_pipes toks).length := by omega
  have hmem : (split_at_pipes toks).getD i [] ∈ split_at_pipes toks := by
    rw [List.getD_eq_getElem?_getD, List.getElem?_eq_getElem hi']
    exact List.getElem_mem _
  have hql := piece_length_le toks _ hmem
  obtain ⟨A, B, h1, h2, h3⟩ := piece_location toks 0 [] (none :: rest) i rfl hi'
  simp only [List.nil_append] at h1
  have hfirst : (stage_starts 0 (split_at_pipes toks)
      ++ cmd_start.drop (toks.count pipe_tok + 1)).getD i 0 = (A.length : Int) := by
    rw [List.getD_eq_getElem?_getD, List.getElem?_append_left (by rw [stage_starts_length]; exact hi'),
      ← List.getD_eq_getElem?_getD, h2]
  have hlast : (stage_ends 0 (split_at_pipes toks)
      ++ cmd_end.drop (toks.count pipe_tok + 1)).getD i 0
      = (A.length : Int) + (((split_at_pipes toks).getD i []).length : Int) - 1 := by
    rw [List.getD_eq_getElem?_getD, List.getElem?_append_left (by rw [stage_ends_length]; exact hi'),
      ← List.getD_eq_getElem?_getD, h3]
  have hcnt : ((A.length : Int) + (((split_at_pipes toks).getD i []).length : Int) - 1 + 1
      - (A.length : Int)).toNat = (((split_at_pipes toks).getD i []).map some).length := by
    simp only [List.length_map]; omega
  have hcopy := stage_copy_loop_spec (((split_at_pipes toks).getD i []).map some) A B []
    cmd_tokens (by simp only [List.length_map, hct, MAX_TOKENS]; simp only [MAX_TOKENS] at hlen; omega)
  simp only [List.nil_append, List.length_nil, Nat.zero_add] at hcopy
  obtain ⟨c, C, hC⟩ : ∃ c C, cmd_tokens.drop (((split_at_pipes toks).getD i []).map some).length
      = c :: C := by
    cases hd : cmd_tokens.drop (((split_at_pipes toks).getD i []).map some).length with
    | nil =>
      have := congrArg List.length hd
      simp only [List.length_drop, List.length_map, hct, MAX_TOKENS, List.length_nil] at this
      simp only [MAX_TOKENS] at hlen
      omega
    | cons c C => exact ⟨c, C, rfl⟩
  refine ⟨C, ?_⟩
  simp only [stage_tokens, hfirst, hlast, hcnt, h1, hcopy, hC]
  rw [set_at_length]
  simp

/-- The child of stage `i` calls `handle_redirection` on piece `i` of the split,
with the pipe ends as its streams. -/
theorem stage_child_piece (sys : Sys) (toks : List Tok) (hlen : toks.length < MAX_TOKENS)
    (i : Nat) (hi : i ≤ toks.count pipe_tok) :
    ∃ junk,
      stage_child sys (pipe_scan (toks.map some ++ [none]) toks.length unset_ranges unset_ranges) i
        = handle_redirection sys.open_ok (redir_call ((split_at_pipes toks).getD i []) junk
            (if 0 < i then Stream.pipe_read (i - 1) else Stream.inherited)
            (if i < toks.count pipe_tok then Stream.pipe_write i else Stream.inherited)) := by
  obtain ⟨junk, h⟩ := stage_tokens_piece toks [] unset_ranges unset_ranges unset_tokens hlen
    (by decide) (by decide) (by decide) i hi
  have hpc : (pipe_scan (toks.map some ++ [none]) toks.length unset_ranges unset_ranges).pipe_count
      = toks.count pipe_tok := by
    rw [pipe_scan_spec toks [] unset_ranges unset_ranges hlen (by decide) (by decide)]
  refine ⟨junk, ?_⟩
  simp only [stage_child, h, hpc, redir_call]

theorem create_pipes_all (sys : Sys) : ∀ (n i : Nat),
    (∀ k, i ≤ k → k < i + n → sys.pipe_ok k = true) → create_pipes sys n i = true := by
  intro n
  induction n with
  | zero => intro i _; rfl
  | succ n ih =>
    intro i h
    simp only [create_pipes, h i (le_refl _) (by omega), if_true]
    exact ih (i + 1) (fun k h1 h2 => h k (by omega) (by omega))

theorem fork_stages_all (sys : Sys) (s : PipeScan) : ∀ (n i : Nat)
    (children : List (Option (Redir × RedirEnd))),
    (∀ k, i ≤ k → k < i + n → sys.fork_ok k = true) →
    fork_stages sys s n i children
      = (children ++ (List.range' i n).map (stage_child sys s), Halt.returned) := by
  intro n
  induction n with
  | zero => intro i children _; simp [fork_stages]
  | succ n ih =>
    intro i children h
    simp only [fork_stages, h i (le_refl _) (by omega), if_true]
    rw [ih (i + 1) _ (fun k h1 h2 => h k (by omega) (by omega))]
    simp [List.range'_succ]

/-- The loop that forks the stages ends the interpreter at the first `fork`
that fails. -/
theorem fork_stages_fails (sys : Sys) (s : PipeScan) : ∀ (n i : Nat)
    (children : List (Option (Redir × RedirEnd))) (k : Nat),
    i ≤ k → k < i + n → (∀ j, i ≤ j → j < k → sys.fork_ok j = true) → sys.fork_ok k = false →
    fork_stages sys s n i children
      = (children ++ (List.range' i (k - i)).map (stage_child sys s), Halt.exited) := by
  intro n
  induction n with
  | zero => intro i children k h1 h2; omega
  | succ n ih =>
    intro i children k h1 h2 hbefore hk
    by_cases hik : i = k
    · subst hik
      simp [fork_stages, hk]
    · simp only [fork_stages, hbefore i (le_refl _) (by omega), if_true]
      rw [ih (i + 1) _ k (by omega) (by omega) (fun j g1 g2 => hbefore j (by omega) g2) hk]
      have : k - i = (k - (i + 1)) + 1 := by omega
      rw [this]
      simp [List.range'_succ]

/-- When its pipes and its forks succeed, `handle_piping` forks one child for
each stage and returns. -/
theorem handle_piping_children (sys : Sys) (cwd : Tok) (toks : List Tok)
    (hlen : toks.length < MAX_TOKENS)
    (hpipe : ∀ i, i < toks.count pipe_tok → sys.pipe_ok i = true)
    (hfork : ∀ i, i ≤ toks.count pipe_tok → sys.fork_ok i = true) :
    handle_piping sys cwd toks
      = ⟨cwd, [], (List.range' 0 (toks.count pipe_tok + 1)).map
          (stage_child sys (pipe_scan (toks.map some ++ [none]) toks.length unset_ranges
            unset_ranges)), Halt.returned⟩ := by
  have hpc : (pipe_scan (toks.map some ++ [none]) toks.length unset_ranges unset_ranges).pipe_count
      = toks.count pipe_tok := by
    rw [pipe_scan_spec toks [] unset_ranges unset_ranges hlen (by decide) (by decide)]
  simp only [handle_piping, hpc]
  rw [create_pipes_all sys _ 0 (fun k _ h => hpipe k (by omega)),
    fork_stages_all sys _ _ 0 [] (fun k _ h => hfork k (by omega))]
  simp

theorem execute_command_of_pipe (sys : Sys) (cwd : Tok) (toks : List Tok) (h : pipe_tok ∈ toks) :
    execute_command sys cwd toks = handle_piping sys cwd toks := by
  simp [execute_command, h]

/-- C12: for a token list with `n ≥ 1` tokens `|`, when the pipes and the forks
succeed, `execute_command` forks `n + 1` children, one for each stage, and the
child of every stage `i` calls `handle_redirection` on piece `i` of the token
list, with the read end of pipe `i - 1` as its standard input when `i > 0` and
the write end of pipe `i` as its standard output when `i < n`; that call
returns, and in the state in which the child then loads its program standard
input is the file of the last `<` it opened with success, else the read end of
pipe `i - 1` when `i > 0`, else the interpreter's input; standard output is the
file of the last `>` or `>>` it opened with success, else the write end of pipe
`i` when `i < n`, else the interpreter's output.  When every `open` succeeds
the files opened are the redirections of piece `i`. -/
theorem execute_command_pipeline_streams (sys : Sys) (cwd : Tok) (toks : List Tok) (n : Nat)
    (hlen : toks.length < MAX_TOKENS) (hn : toks.count pipe_tok = n) (hn1 : 1 ≤ n)
    (hpipe : ∀ i, i < n → sys.pipe_ok i = true) (hfork : ∀ i, i ≤ n → sys.fork_ok i = true) :
    (execute_command sys cwd toks).children.length = n + 1
    ∧ ∀ i, i ≤ n → ∃ st e junk,
        (execute_command sys cwd toks).children[i]? = some (some (st, e))
        ∧ handle_redirection sys.open_ok (redir_call ((split_at_pipes toks).getD i []) junk
            (if 0 < i then Stream.pipe_read (i - 1) else Stream.inherited)
            (if i < n then Stream.pipe_write i else Stream.inherited)) = some (st, e)
        ∧ st.stdin = bound sys.open_ok is_input
            (if 0 < i then Stream.pipe_read (i - 1) else Stream.inherited) st.opened
        ∧ st.stdout = bound sys.open_ok is_output
            (if i < n then Stream.pipe_write i else Stream.inherited) st.opened
        ∧ ((∀ c, sys.open_ok c = true) →
            st.opened = redirections ((split_at_pipes toks).getD i [])) := by
  subst hn
  have hmem : pipe_tok ∈ toks := List.count_pos_iff.1 (by omega)
  rw [execute_command_of_pipe sys cwd toks hmem,
    handle_piping_children sys cwd toks hlen hpipe hfork]
  refine ⟨by simp, ?_⟩
  intro i hi
  obtain ⟨junk, hchild⟩ := stage_child_piece sys toks hlen i hi
  obtain ⟨st, e, h, g1, g2⟩ := handle_redirection_streams sys.open_ok
    (redir_call ((split_at_pipes toks).getD i []) junk
      (if 0 < i then Stream.pipe_read (i - 1) else Stream.inherited)
      (if i < toks.count pipe_tok then Stream.pipe_write i else Stream.inherited)) rfl
  refine ⟨st, e, junk, ?_, h, g1, g2, ?_⟩
  · have hr : (List.range' 0 (toks.count pipe_tok + 1))[i]? = some i := by
      rw [List.getElem?_range' _ _ (show i < toks.count pipe_tok + 1 by omega)]
      simp
    simp only [List.getElem?_map, hr, Option.map_some', hchild, h]
  · intro hopen
    obtain ⟨st', e', h', k, _⟩ := handle_redirection_calls sys.open_ok
      ((split_at_pipes toks).getD i []) junk
      (if 0 < i then Stream.pipe_read (i - 1) else Stream.inherited)
      (if i < toks.count pipe_tok then Stream.pipe_write i else Stream.inherited) hopen
    rw [h] at h'
    cases h'
    exact k

/-- C12 at the tokens `sort < in | uniq | wc > out`, every call succeeding: three
children; the first reads `in` and writes to pipe 0, the second reads pipe 0 and
writes to pipe 1, the third reads pipe 1 and writes `out`. -/
theorem execute_command_pipeline_streams_witness :
    [tok "sort", tok "<", tok "in", tok "|", tok "uniq", tok "|", tok "wc", tok ">",
        tok "out"].length < MAX_TOKENS
    ∧ [tok "sort", tok "<", tok "in", tok "|", tok "uniq", tok "|", tok "wc", tok ">",
        tok "out"].count pipe_tok = 2
    ∧ (execute_command sys_ok (tok "/") [tok "sort", tok "<", tok "in", tok "|", tok "uniq",
        tok "|", tok "wc", tok ">", tok "out"]).children.length = 2 + 1
    ∧ (execute_command sys_ok (tok "/") [tok "sort", tok "<", tok "in", tok "|", tok "uniq",
        tok "|", tok "wc", tok ">", tok "out"]).children.map
          (Option.map (fun r => (r.1.stdin, r.1.stdout)))
        = [some (.file ⟨tok "in", [.O_RDONLY], none⟩, .pipe_write 0),
           some (.pipe_read 0, .pipe_write 1),
           some (.pipe_read 1, .file ⟨tok "out", [.O_WRONLY, .O_CREAT, .O_TRUNC], some 0o644⟩)] :=
  ⟨by decide, by decide,
   (execute_command_pipeline_streams sys_ok (tok "/") [tok "sort", tok "<", tok "in", tok "|",
      tok "uniq", tok "|", tok "wc", tok ">", tok "out"] 2 (by decide) (by decide) (by decide)
      (fun _ _ => rfl) (fun _ _ => rfl)).1,
   by decide⟩

/-- C11 (amended): the function `execute_command` tests for a token `|` before
it looks at `cd`.  A token list that holds a `|` is handed to `handle_piping`,
also when its first token is `cd`: the working directory of the interpreter
stays what it was and, when the pipes and the forks succeed, one child is
forked for each stage.  A token list without `|` whose first token is `cd`
changes the directory in the interpreter and forks no child. -/
theorem execute_command_tests_pipe_before_cd (sys : Sys) (cwd : Tok) (toks : List Tok) :
    (pipe_tok ∈ toks →
      execute_command sys cwd toks = handle_piping sys cwd toks
      ∧ (execute_command sys cwd toks).cwd = cwd
      ∧ (toks.length < MAX_TOKENS → (∀ i, i < toks.count pipe_tok → sys.pipe_ok i = true) →
          (∀ i, i ≤ toks.count pipe_tok → sys.fork_ok i = true) →
          (execute_command sys cwd toks).children.length = toks.count pipe_tok + 1
          ∧ 2 ≤ (execute_command sys cwd toks).children.length))
    ∧ (pipe_tok ∉ toks → toks.length < MAX_TOKENS → ∀ args, toks = tok "cd" :: args →
      (execute_command sys cwd toks).children = []
      ∧ (execute_command sys cwd toks).halt = Halt.returned
      ∧ (execute_command sys cwd toks).cwd
          = match args with
            | [] => if sys.chdir_ok sys.home then sys.home else cwd
            | path :: _ =>
              if path = tok "~" then (if sys.chdir_ok sys.home then sys.home else cwd)
              else if sys.chdir_ok path then path else cwd) := by
  constructor
  · intro hmem
    have heq := execute_command_of_pipe sys cwd toks hmem
    refine ⟨heq, ?_, ?_⟩
    · rw [heq]
      simp only [handle_piping]
      split
      · split <;> rfl
      · rfl
    · intro hlen hpipe hfork
      have hpos : 0 < toks.count pipe_tok := List.count_pos_iff.2 hmem
      rw [heq, handle_piping_children sys cwd toks hlen hpipe hfork]
      simp only [List.length_map, List.length_range']
      exact ⟨trivial, by omega⟩
  · intro hno hlen args hargs
    subst hargs
    simp only [execute_command, hno, if_false, if_true, Nat.not_le.2 hlen]
    cases args with
    | nil => simp
    | cons path rest =>
      by_cases h1 : path = tok "~"
      · simp [h1]
      · by_cases h2 : sys.chdir_ok path = true
        · simp [h1, h2]
        · simp [h1, h2]

/-- C11 (amended) at the tokens `cd /tmp | ls`, handed to `handle_piping`, and
at the tokens `cd /tmp`, which change the directory and fork no child. -/
theorem execute_command_tests_pipe_before_cd_witness :
    (pipe_tok ∈ [tok "cd", tok "/tmp", tok "|", tok "ls"]
      ∧ execute_command sys_ok (tok "/") [tok "cd", tok "/tmp", tok "|", tok "ls"]
          = handle_piping sys_ok (tok "/") [tok "cd", tok "/tmp", tok "|", tok "ls"]
      ∧ (execute_command sys_ok (tok "/") [tok "cd", tok "/tmp", tok "|", tok "ls"]).cwd = tok "/")
    ∧ (pipe_tok ∉ [tok "cd", tok "/tmp"]
      ∧ (execute_command sys_ok (tok "/") [tok "cd", tok "/tmp"]).children = []
      ∧ (execute_command sys_ok (tok "/") [tok "cd", tok "/tmp"]).cwd = tok "/tmp") :=
  ⟨⟨by decide,
    ((execute_command_tests_pipe_before_cd sys_ok (tok "/")
      [tok "cd", tok "/tmp", tok "|", tok "ls"]).1 (by decide)).1,
    ((execute_command_tests_pipe_before_cd sys_ok (tok "/")
      [tok "cd", tok "/tmp", tok "|", tok "ls"]).1 (by decide)).2.1⟩,
   ⟨by decide,
    ((execute_command_tests_pipe_before_cd sys_ok (tok "/") [tok "cd", tok "/tmp"]).2
      (by decide) (by decide) [tok "/tmp"] rfl).1,
    ((execute_command_tests_pipe_before_cd sys_ok (tok "/") [tok "cd", tok "/tmp"]).2
      (by decide) (by decide) [tok "/tmp"] rfl).2.2⟩⟩

/-! ## `execute_command` on concrete token lists -/

/-- C11 (counterexample): on the tokens `cd /tmp | ls` the function
`execute_command` finds the `|` before it looks at `cd`: the call is the call of
`handle_piping`, which forks two children, the first one loading the program
`cd`; the working directory of the interpreter stays what it was. -/
theorem execute_command_cd_with_pipe_is_piped :
    execute_command sys_ok (tok "/") [tok "cd", tok "/tmp", tok "|", tok "ls"]
      = handle_piping sys_ok (tok "/") [tok "cd", tok "/tmp", tok "|", tok "ls"]
    ∧ (execute_command sys_ok (tok "/") [tok "cd", tok "/tmp", tok "|", tok "ls"]).cwd = tok "/"
    ∧ (execute_command sys_ok (tok "/") [tok "cd", tok "/tmp", tok "|", tok "ls"]).children.map
        (Option.map (fun r => argv r.1.tokens)) = [some [tok "cd", tok "/tmp"], some [tok "ls"]] := by
  decide

/-- C15 (the code fails it): for the tokens `cd` and `cd ~` the function
`execute_command` calls `chdir(getenv("HOME"))` and drops its result: whether
the change succeeds or not, no `perror` is called.  When the home directory
cannot be entered the working directory is unchanged and nothing is reported,
while a failing `cd /nonexistent` is reported with `perror("cd")`. -/
theorem execute_command_cd_home_failure_unreported (sys : Sys) (cwd : Tok) :
    execute_command sys cwd [tok "cd"]
      = ⟨if sys.chdir_ok sys.home then sys.home else cwd, [], [], .returned⟩
    ∧ execute_command sys cwd [tok "cd", tok "~"]
      = ⟨if sys.chdir_ok sys.home then sys.home else cwd, [], [], .returned⟩
    ∧ execute_command sys_no_chdir (tok "/") [tok "cd"] = ⟨tok "/", [], [], .returned⟩
    ∧ execute_command sys_no_chdir (tok "/") [tok "cd", tok "~"] = ⟨tok "/", [], [], .returned⟩
    ∧ execute_command sys_no_chdir (tok "/") [tok "cd", tok "/nonexistent"]
      = ⟨tok "/", [tok "cd"], [], .returned⟩ := by
  refine ⟨?_, ?_, by decide, by decide, by decide⟩
  · simp [execute_command, tok, pipe_tok, MAX_TOKENS]
  · simp [execute_command, tok, pipe_tok, MAX_TOKENS]

/-- C16 (the code fails it): on a token list that is one operator alone, in an
array of two slots, `handle_redirection` opens nothing, takes two away from
`*token_count`, which becomes -1, and its last statement
`tokens[*token_count] = NULL` is a store at index -1, outside the array. -/
theorem handle_redirection_lone_operator_out_of_bounds (open_ok : OpenCall → Bool) :
    handle_redirection open_ok (redir_call [tok ">"] [] .inherited .inherited)
      = some (⟨[some (tok ">"), none], -1, .inherited, .inherited, [], 0⟩, .bad_access (-1))
    ∧ handle_redirection open_ok (redir_call [tok ">>"] [] .inherited .inherited)
      = some (⟨[some (tok ">>"), none], -1, .inherited, .inherited, [], 0⟩, .bad_access (-1))
    ∧ handle_redirection open_ok (redir_call [tok "<"] [] .inherited .inherited)
      = some (⟨[some (tok "<"), none], -1, .inherited, .inherited, [], 0⟩, .bad_access (-1)) :=
  ⟨rfl, rfl, rfl⟩

/-- C17 (the code fails it): on the tokens `> out` the child of
`execute_command` removes both tokens and calls `execvp(tokens_copy[0], ...)`
with `tokens_copy[0]` equal to `NULL`; on the tokens `ls |` the second stage of
`handle_piping` has no token and its child calls `execvp(cmd_tokens[0], ...)`
with `cmd_tokens[0]` equal to `NULL`. -/
theorem execute_command_loads_null_program :
    (execute_command sys_ok (tok "/") [tok ">", tok "out"]).children.map
        (Option.map (fun r => (program r.1, r.1.token_count, r.2)))
      = [some (none, 0, .finished)]
    ∧ (execute_command sys_ok (tok "/") [tok "ls", tok "|"]).children.map
        (Option.map (fun r => (program r.1, r.1.token_count, r.2)))
      = [some (some (tok "ls"), 1, .finished), some (none, 0, .finished)] := by
  decide

/-- C14 (counterexample): when `fork` fails, the line `ls`, the line `ls | wc`
and the line `true && ls` each end the interpreter with `exit(EXIT_FAILURE)`;
none of them is `exit` or `quit`. -/
theorem main_line_fork_failure_exits :
    main_line (all_exit 0) sys_no_fork (line_read (tok "ls")) (tok "/") = .exit_failure
    ∧ main_line (all_exit 0) sys_no_fork (line_read (tok "ls | wc")) (tok "/") = .exit_failure
    ∧ main_line world_no_fork sys_ok (line_read (tok "true && ls")) (tok "/") = .exit_failure
    ∧ execute_command sys_no_fork (tok "/") [tok "ls"] = ⟨tok "/", [tok "fork"], [], .exited⟩ := by
  decide

/-! ## A `fork` that fails -/

/-- The loop of `execute_logical_commands` in a world `w` whose fork number `k`
fails, compared with a world `w'` that differs in that this fork succeeds: if
the loop forks a child number `k` in `w'`, then in `w` it runs the same `k`
children, calls `perror("fork")` and ends the interpreter. -/
theorem logical_loop_fork_fails (w w' : World) (k : Nat)
    (hfork : ∀ j, j < k → w.fork_ok j = w'.fork_ok j)
    (hstatus : ∀ j, j < k → w.status j = w'.status j)
    (hk : w.fork_ok k = false) (hk' : w'.fork_ok k = true) :
    ∀ (fuel : Nat) (m : Mem) (cmd : Option Ptr) (trace : List Event), trace.length ≤ k →
      (∃ argv status, (logical_loop w' fuel m cmd trace).trace[k]? = some (Event.exec argv status)) →
      logical_loop w fuel m cmd trace
        = ⟨(logical_loop w' fuel m cmd trace).trace.take k ++ [Event.perror (tok "fork")],
            Halt.exited⟩ := by
  intro fuel
  induction fuel with
  | zero =>
    intro m cmd trace hlen hex
    obtain ⟨argv, status, h⟩ := hex
    simp only [logical_loop] at h
    rw [List.getElem?_eq_none hlen] at h
    cases h
  | succ fuel ih =>
    intro m cmd trace hlen hex
    cases cmd with
    | none =>
      obtain ⟨argv, status, h⟩ := hex
      simp only [logical_loop] at h
      rw [List.getElem?_eq_none hlen] at h
      cases h
    | some c =>
      simp only [logical_loop] at hex ⊢
      cases hr : (strtok m none ['&']).2 with
      | none =>
        exfalso
        obtain ⟨argv, status, h⟩ := hex
        simp only [hr, logical_loop_none] at h
        split at h
        · rcases Nat.lt_or_eq_of_le hlen with hlt | heq
          · rw [List.getElem?_eq_none (by simp; omega)] at h
            cases h
          · rw [← heq] at h
            simp at h
        · rw [List.getElem?_eq_none hlen] at h
          cases h
      | some cmd =>
        simp only [hr] at hex ⊢
        by_cases hc : 0 < (parse_command (strtok m none ['&']).1 ⟨.next_cmd, 0⟩ fresh_tokens).2.2
        · simp only [hc, if_true] at hex ⊢
          rcases Nat.lt_or_eq_of_le hlen with hlt | heq
          · rw [hfork _ hlt, hstatus _ hlt]
            by_cases hf : w'.fork_ok trace.length = true
            · simp only [hf, if_true] at hex ⊢
              split at hex
              · exfalso
                obtain ⟨argv, status, h⟩ := hex
                rw [List.getElem?_eq_none (by simp; omega)] at h
                cases h
              · rename_i hs
                simp only [hs, if_false]
                split at hex
                · exfalso
                  obtain ⟨argv, status, h⟩ := hex
                  rw [List.getElem?_eq_none (by simp; omega)] at h
                  cases h
                · rename_i m2 hcp
                  exact ih m2 _ _ (by simp; omega) hex
            · exfalso
              obtain ⟨argv, status, h⟩ := hex
              simp only [hf] at h
              rw [List.getElem?_eq_none (by simp; omega)] at h
              cases h
          · subst heq
            simp only [hk, hk', if_true]
            have hpre : ∀ r : Run, (∃ rest, r.trace = trace ++ rest) →
                (⟨trace ++ [Event.perror (tok "fork")], Halt.exited⟩ : Run)
                  = ⟨r.trace.take trace.length ++ [Event.perror (tok "fork")], Halt.exited⟩ := by
              intro r hrest
              obtain ⟨rest, h⟩ := hrest
              rw [h, List.take_left]
            simp only [Bool.false_eq_true, if_false]
            apply hpre
            split
            · exact ⟨_, rfl⟩
            · split
              · exact ⟨_, rfl⟩
              · obtain ⟨rest, h⟩ := logical_loop_trace_prefix w' fuel _ _ (trace ++ [Event.exec
                  (argv_of (parse_command (strtok m none ['&']).1 ⟨.next_cmd, 0⟩ fresh_tokens).1
                    (parse_command (strtok m none ['&']).1 ⟨.next_cmd, 0⟩ fresh_tokens).2.1)
                  (w'.status trace.length)])
                exact ⟨_, by rw [h, List.append_assoc]⟩
        · simp only [hc, if_false] at hex ⊢
          split at hex
          · exfalso
            obtain ⟨argv, status, h⟩ := hex
            rw [List.getElem?_eq_none hlen] at h
            cases h
          · rename_i m2 hcp
            exact ih m2 _ _ hlen hex

/-- The function `execute_logical_commands` in a world `w` whose fork number `k`
fails, compared with a world `w'` that differs in that this fork succeeds: if
the function forks a child number `k` in `w'`, then in `w` it runs the same `k`
children, calls `perror("fork")` and ends the interpreter. -/
theorem execute_logical_commands_fork_fails (w w' : World) (k : Nat)
    (hfork : ∀ j, j < k → w.fork_ok j = w'.fork_ok j)
    (hstatus : ∀ j, j < k → w.status j = w'.status j)
    (hk : w.fork_ok k = false) (hk' : w'.fork_ok k = true) (m : Mem) (command : Ptr)
    (hex : ∃ argv status,
      (execute_logical_commands w' m command).trace[k]? = some (Event.exec argv status)) :
    execute_logical_commands w m command
      = ⟨(execute_logical_commands w' m command).trace.take k ++ [Event.perror (tok "fork")],
          Halt.exited⟩ := by
  simp only [execute_logical_commands] at hex ⊢
  split at hex
  · obtain ⟨argv, status, h⟩ := hex
    simp at h
  · split at hex
    · obtain ⟨argv, status, h⟩ := hex
      simp at h
    · rename_i cmd hcmd m2 hcp
      exact logical_loop_fork_fails w w' k hfork hstatus hk hk' _ m2 _ [] (Nat.zero_le _) hex

/-- The events of the loop start with the events it was entered with. -/
theorem multiple_loop_trace_prefix : ∀ (fuel : Nat) (m : Mem) (cmd : Option Ptr)
    (trace : List Event), ∃ rest, (multiple_loop fuel m cmd trace).trace = trace ++ rest := by
  intro fuel
  induction fuel with
  | zero => intro m cmd trace; exact ⟨[], by simp [multiple_loop]⟩
  | succ fuel ih =>
    intro m cmd trace
    cases cmd with
    | none => exact ⟨[], by simp [multiple_loop]⟩
    | some c =>
      simp only [multiple_loop]
      split
      · exact ⟨[], by simp⟩
      · split
        · obtain ⟨rest, h⟩ := ih _ _ (trace ++ [Event.dispatch _])
          exact ⟨_, by rw [h, List.append_assoc]⟩
        · exact ih _ _ _

/-- A line `A ; R` whose first piece `A` has at least one word and fewer than
`MAX_TOKENS` words: the first thing `execute_multiple_commands` does is the
call of `execute_command` on the words of `A`. -/
theorem multiple_first_dispatch (m : Mem) (A R junk : List Char)
    (hA : ∀ c ∈ A, c ≠ NUL ∧ c ≠ ';') (hR : ∀ c ∈ R, c ≠ NUL)
    (hwA : words A ≠ []) (hlA : (words A).length < MAX_TOKENS)
    (hcmd : m.command = A ++ ';' :: (R ++ NUL :: junk)) :
    ∃ rest, (execute_multiple_commands m command_ptr).trace
      = Event.dispatch (words A) :: rest := by
  have hAne : A ≠ [] := by
    intro h; rw [h, words_nil] at hwA; exact hwA rfl
  have hsemi : ∀ c, c ≠ ';' → c ∉ [';'] := fun c h => by simpa using h
  -- the line is copied to `command_copy`
  have hstr : m.str command_ptr = A ++ ';' :: R := by
    have := cstr_run [] (A ++ ';' :: R) junk (by
      intro c hc
      simp only [List.mem_append, List.mem_cons] at hc
      rcases hc with h | h | h
      · exact (hA c h).1
      · rw [h]; decide
      · exact hR c h)
    simpa [Mem.str, Mem.get, command_ptr, hcmd] using this
  obtain ⟨J, hJ⟩ : ∃ J, J = (m.get .command_copy).drop ((A ++ ';' :: R).length + 1) := ⟨_, rfl⟩
  have h1 : strcpy m ⟨.command_copy, 0⟩ command_ptr
      = some (m.put .command_copy (A ++ ';' :: (R ++ NUL :: J))) := by
    rw [command_ptr, strcpy_from_other _ _ _ _ (by decide)]
    rw [show m.str ⟨.command, 0⟩ = A ++ ';' :: R from hstr, ← hJ]
    simp [stored]
  -- the first `strtok` cuts the first piece
  have h2 : strtok (m.put .command_copy (A ++ ';' :: (R ++ NUL :: J))) (some ⟨.command_copy, 0⟩) [';']
      = ({ (m.put .command_copy (A ++ ';' :: (R ++ NUL :: J))).put .command_copy
              (A ++ NUL :: (R ++ NUL :: J)) with save := ⟨.command_copy, A.length + 1⟩ },
          some ⟨.command_copy, 0⟩) := by
    rw [strtok_some]
    have := strtok_cut_token
      { m.put .command_copy (A ++ ';' :: (R ++ NUL :: J)) with save := ⟨.command_copy, 0⟩ } [';']
      .command_copy [] [] A ';' (R ++ NUL :: J) rfl (by simp [Mem.get, Mem.put]) (by simp)
      (fun c hc => ⟨(hA c hc).1, hsemi c (hA c hc).2⟩) hAne ⟨by decide, by simp⟩
    simpa [Mem.put] using this
  obtain ⟨bl, A', rfl, hbl, hA'ne, hA'head, hwA'⟩ := words_ne_nil_shape A hwA
  obtain ⟨m2, hm2⟩ : ∃ m2 : Mem, m2 = { (m.put .command_copy (bl ++ A' ++ ';' :: (R ++ NUL :: J))).put
      .command_copy (bl ++ A' ++ NUL :: (R ++ NUL :: J)) with
        save := ⟨.command_copy, (bl ++ A').length + 1⟩ } := ⟨_, rfl⟩
  have hm2buf : m2.get .command_copy = bl ++ (A' ++ NUL :: (R ++ NUL :: J)) := by
    rw [hm2]; simp [Mem.get, Mem.put]
  -- the leading blanks of the piece are skipped
  have h3 : skip_blanks m2 ⟨.command_copy, 0⟩ = ⟨.command_copy, bl.length⟩ := by
    have := skip_blanks_spec m2 .command_copy [] bl (A' ++ NUL :: (R ++ NUL :: J))
      (by simpa using hm2buf) hbl (by
        intro c hc
        cases A' with
        | nil => exact absurd rfl hA'ne
        | cons x r => exact hA'head c (by simpa using hc))
    simpa using this
  have hA'nul : ∀ c ∈ A', c ≠ NUL := fun c hc => (hA c (by simp [hc])).1
  -- the piece is copied to `cmd_copy`
  have hstr2 : m2.str ⟨.command_copy, bl.length⟩ = A' := by
    simp only [Mem.str, hm2buf]
    exact cstr_run bl A' (R ++ NUL :: J) hA'nul
  have h4 : strcpy m2 ⟨.cmd_copy, 0⟩ ⟨.command_copy, bl.length⟩
      = some (m2.put .cmd_copy (A' ++ NUL :: (m2.get .cmd_copy).drop (A'.length + 1))) := by
    rw [strcpy_from_other _ _ _ _ (by decide), hstr2]
    simp [stored]
  -- the piece is tokenized in `cmd_copy`
  obtain ⟨ptrs, rest, A'', m4, h5, h5str, _, _, _, _⟩ :=
    parse_command_spec (m2.put .cmd_copy (A' ++ NUL :: (m2.get .cmd_copy).drop (A'.length + 1)))
      .cmd_copy A' ((m2.get .cmd_copy).drop (A'.length + 1)) fresh_tokens hA'nul
      (by rw [Mem.get_put]) rfl
  rw [hwA', List.take_of_length_le (by simp only [MAX_TOKENS] at hlA ⊢; omega)] at h5str
  have hptrs : 0 < ptrs.length := by
    have := congrArg List.length h5str
    simp only [List.length_map] at this
    rw [this]
    exact List.length_pos.2 hwA
  have hargv : argv_of m4 (ptrs.map some ++ none :: rest) = words (bl ++ A') := by
    rw [argv_of_map_some, h5str]
  obtain ⟨f, hfuel⟩ : ∃ f, MAX_COMMAND_LENGTH = f + 1 := ⟨1023, rfl⟩
  simp only [execute_multiple_commands, h1, h2, hfuel]
  rw [multiple_loop]
  rw [← hm2]
  simp only [h3, h4, h5, hptrs, if_true, hargv, List.nil_append]
  obtain ⟨rest', h⟩ := multiple_loop_trace_prefix f (strtok m4 none [';']).1
    (strtok m4 none [';']).2 [Event.dispatch (words (bl ++ A'))]
  exact ⟨rest', by rw [h]; rfl⟩

theorem has_and_append (B : List Char) : ∀ A : List Char, has_and (A ++ '&' :: '&' :: B) = true := by
  intro A
  induction A with
  | nil => simp [has_and]
  | cons a A ih =>
    cases A with
    | nil => simp [has_and]
    | cons b A => simp only [List.cons_append, has_and] at ih ⊢; simp [ih]

/-- A line of two clauses `A && B` when the first `fork` of
`execute_logical_commands` fails: nothing is run, `perror("fork")` is called and
the interpreter ends. -/
theorem logical_first_fork_fails (w : World) (m : Mem) (A B junk : List Char)
    (hA : ∀ c ∈ A, c ≠ NUL ∧ c ≠ '&') (hB : ∀ c ∈ B, c ≠ NUL ∧ c ≠ '&')
    (hwA : words A ≠ []) (hlA : (words A).length < MAX_TOKENS) (hwB : words B ≠ [])
    (hcmd : m.command = A ++ '&' :: '&' :: (B ++ NUL :: junk))
    (hf0 : w.fork_ok 0 = false) :
    execute_logical_commands w m command_ptr = ⟨[Event.perror (tok "fork")], Halt.exited⟩ := by
  have hAne : A ≠ [] := by
    intro h; rw [h, words_nil] at hwA; exact hwA rfl
  have hBne : B ≠ [] := by
    intro h; rw [h, words_nil] at hwB; exact hwB rfl
  -- the first `strtok` cuts the first clause
  have h1 : strtok m (some command_ptr) ['&']
      = ({ m.put .command (A ++ NUL :: '&' :: (B ++ NUL :: junk)) with
            save := ⟨.command, A.length + 1⟩ }, some ⟨.command, 0⟩) := by
    rw [strtok_some]
    have := strtok_cut_token { m with save := command_ptr } ['&'] .command [] [] A '&'
      ('&' :: (B ++ NUL :: junk)) rfl (by simpa [Mem.get] using hcmd) (by simp)
      (fun c hc => ⟨(hA c hc).1, not_amp c (hA c hc).2⟩) hAne ⟨by decide, by simp⟩
    simpa using this
  -- the first clause is copied to `next_cmd`
  have hstrA : cstr (A ++ NUL :: '&' :: (B ++ NUL :: junk)) 0 = A := by
    have := cstr_run [] A ('&' :: (B ++ NUL :: junk)) (fun c hc => (hA c hc).1)
    simpa using this
  have h2 : strcpy { m.put .command (A ++ NUL :: '&' :: (B ++ NUL :: junk)) with
        save := ⟨.command, A.length + 1⟩ } ⟨.next_cmd, 0⟩ ⟨.command, 0⟩
      = some ⟨A ++ NUL :: '&' :: (B ++ NUL :: junk), m.command_copy, m.cmd_copy,
          A ++ NUL :: m.next_cmd.drop (A.length + 1), ⟨.command, A.length + 1⟩⟩ := by
    rw [strcpy_from_other _ _ _ _ (by decide)]
    simp [Mem.str, Mem.get, Mem.put, hstrA, stored]
  -- the second `strtok` finds the second clause
  have h3 : strtok ⟨A ++ NUL :: '&' :: (B ++ NUL :: junk), m.command_copy, m.cmd_copy,
        A ++ NUL :: m.next_cmd.drop (A.length + 1), ⟨.command, A.length + 1⟩⟩ none ['&']
      = (⟨A ++ NUL :: '&' :: (B ++ NUL :: junk), m.command_copy, m.cmd_copy,
          A ++ NUL :: m.next_cmd.drop (A.length + 1), ⟨.command, A.length + 1 + 1 + B.length⟩⟩,
        some ⟨.command, A.length + 1 + 1⟩) := by
    have := strtok_last_token ⟨A ++ NUL :: '&' :: (B ++ NUL :: junk), m.command_copy, m.cmd_copy,
        A ++ NUL :: m.next_cmd.drop (A.length + 1), ⟨.command, A.length + 1⟩⟩ ['&'] .command
      (A ++ [NUL]) ['&'] B junk (by simp) (by simp [Mem.get])
      (by simp; decide) (fun c hc => ⟨(hB c hc).1, not_amp c (hB c hc).2⟩) hBne
    simpa using this
  obtain ⟨bl, B', rfl, hbl, hB'ne, hB'head, hwB'⟩ := words_ne_nil_shape B hwB
  -- the leading blanks of the second clause are skipped
  have h4 : skip_blanks ⟨A ++ NUL :: '&' :: (bl ++ B' ++ NUL :: junk), m.command_copy, m.cmd_copy,
        A ++ NUL :: m.next_cmd.drop (A.length + 1),
        ⟨.command, A.length + 1 + 1 + (bl ++ B').length⟩⟩ ⟨.command, A.length + 1 + 1⟩
      = ⟨.command, A.length + 1 + 1 + bl.length⟩ := by
    have := skip_blanks_spec ⟨A ++ NUL :: '&' :: (bl ++ B' ++ NUL :: junk), m.command_copy,
        m.cmd_copy, A ++ NUL :: m.next_cmd.drop (A.length + 1),
        ⟨.command, A.length + 1 + 1 + (bl ++ B').length⟩⟩ .command (A ++ [NUL, '&']) bl
      (B' ++ NUL :: junk) (by simp [Mem.get]) hbl (by
        intro c hc
        cases B' with
        | nil => exact absurd rfl hB'ne
        | cons x r => exact hB'head c (by simpa using hc))
    simpa using this
  -- the first clause is tokenized in `next_cmd`
  obtain ⟨ptrs, rest, A', m4, h5, h5str, h5buf, h5len, h5other, h5save⟩ :=
    parse_command_spec ⟨A ++ NUL :: '&' :: (bl ++ B' ++ NUL :: junk), m.command_copy, m.cmd_copy,
        A ++ NUL :: m.next_cmd.drop (A.length + 1),
        ⟨.command, A.length + 1 + 1 + (bl ++ B').length⟩⟩ .next_cmd A
      (m.next_cmd.drop (A.length + 1)) fresh_tokens (fun c hc => (hA c hc).1) (by simp [Mem.get])
      rfl
  have h5save := h5save hlA
  have h5cmd := h5other .command (by decide)
  simp only [Mem.get] at h5buf h5cmd
  rw [List.take_of_length_le (by simp only [MAX_TOKENS] at hlA ⊢; omega)] at h5str
  have hptrs : 0 < ptrs.length := by
    have := congrArg List.length h5str
    simp only [List.length_map] at this
    rw [this]
    exact List.length_pos.2 hwA
  have hargvA : argv_of m4 (ptrs.map some ++ none :: rest) = words A := by
    rw [argv_of_map_some, h5str]
  obtain ⟨f, hfuel⟩ : ∃ f, MAX_COMMAND_LENGTH = f + 1 + 1 := ⟨1022, rfl⟩
  simp only [execute_logical_commands, h1, h2, hfuel]
  rw [logical_loop]
  simp only [h3, h4, h5, hptrs, if_true, List.length_nil, hf0, List.nil_append]
  rfl

/-- A call of `execute_command` whose first `fork` fails ends the interpreter,
unless the command is `cd` or a pipe cannot be made. -/
theorem execute_command_fork_fails (sys : Sys) (cwd : Tok) (toks : List Tok)
    (hne : toks ≠ []) (hlen : toks.length < MAX_TOKENS) (hfork : sys.fork_ok 0 = false)
    (hpipe : pipe_tok ∈ toks → ∀ i, i < toks.count pipe_tok → sys.pipe_ok i = true)
    (hcd : pipe_tok ∉ toks → toks.head? ≠ some (tok "cd")) :
    execute_command sys cwd toks = ⟨cwd, [tok "fork"], [], Halt.exited⟩ := by
  by_cases hmem : pipe_tok ∈ toks
  · rw [execute_command_of_pipe sys cwd toks hmem]
    have hpc : (pipe_scan (toks.map some ++ [none]) toks.length unset_ranges unset_ranges).pipe_count
        = toks.count pipe_tok := by
      rw [pipe_scan_spec toks [] unset_ranges unset_ranges hlen (by decide) (by decide)]
    simp only [handle_piping, hpc]
    rw [create_pipes_all sys _ 0 (fun k _ h => hpipe hmem k (by omega)),
      fork_stages_fails sys _ _ 0 [] 0 (le_refl _) (by omega) (fun j _ h => by omega) hfork]
    simp
  · match toks, hne, hcd hmem, hmem with
    | t0 :: args, _, hcd, hmem =>
      have h0 : ¬ t0 = tok "cd" := by
        intro h; apply hcd; simp [h]
      have hlen' : args.length + 1 < MAX_TOKENS := by simpa using hlen
      simp [execute_command, hmem, h0, hfork, hlen']

theorem has_and_of_eq_exit_or_quit (line : List Char)
    (h : line = tok "exit" ∨ line = tok "quit") : has_and line = false ∧ ';' ∉ line := by
  rcases h with h | h <;> rw [h] <;> decide

theorem line_end_of_dispatch (sys : Sys) (cwd : Tok) (r : Run) (argv : List Tok)
    (hmem : Event.dispatch argv ∈ r.trace)
    (hx : (execute_command sys cwd argv).halt = Halt.exited) :
    line_end sys cwd r = LineEnd.exit_failure := by
  unfold line_end
  rw [if_pos]
  rw [List.any_eq_true]
  exact ⟨_, hmem, by simp [hx]⟩

theorem line_end_of_exited (sys : Sys) (cwd : Tok) (r : Run) (h : r.halt = Halt.exited) :
    line_end sys cwd r = LineEnd.exit_failure := by
  unfold line_end
  split
  · rfl
  · simp [h]

/-- The iteration of `main` on a line with `;`, and on a line with `&&` and
without `;`. -/
theorem main_line_sequenced (w : World) (sys : Sys) (m : Mem) (cwd : Tok) :
    (';' ∈ m.str command_ptr →
      main_line w sys m cwd = line_end sys cwd (execute_multiple_commands m command_ptr))
    ∧ (';' ∉ m.str command_ptr → has_and (m.str command_ptr) = true →
      main_line w sys m cwd = line_end sys cwd (execute_logical_commands w m command_ptr)) := by
  constructor
  · intro h
    have h' : ';' ∈ m.str ⟨.command, 0⟩ := h
    have hx : ¬ (m.str ⟨.command, 0⟩ = tok "exit" ∨ m.str ⟨.command, 0⟩ = tok "quit") :=
      fun hx => (has_and_of_eq_exit_or_quit _ hx).2 h'
    simp only [main_line, hx, h', if_false, if_true]
    rfl
  · intro h hand
    have h' : ';' ∉ m.str ⟨.command, 0⟩ := h
    have hand' : has_and (m.str ⟨.command, 0⟩) = true := hand
    have hx : ¬ (m.str ⟨.command, 0⟩ = tok "exit" ∨ m.str ⟨.command, 0⟩ = tok "quit") := by
      intro hx
      rw [(has_and_of_eq_exit_or_quit _ hx).1] at hand'
      cases hand'
    simp only [main_line, hx, h', hand', if_false, if_true]
    rfl

/-- C14 (amended): a `fork` that fails ends the interpreter.  At each of the
three places the error is reported with `perror("fork")` and the function calls
`exit(EXIT_FAILURE)`: in `execute_command` and at every stage of
`handle_piping` (the pipes made), and at every `fork` of
`execute_logical_commands` (whenever the function would fork a child number `k`
if that `fork` succeeded, and it fails, the function has run the `k` children
before it, reports and exits; so for the first sub-command of a line
`A && B`).  So the loop of `main` does not go on to the next prompt: a line
without `;` and `&&`, a line `A ; R` and a line with `&&` end the interpreter
when a `fork` made for them fails, in the sequencing function or in a call of
`execute_command` it makes.  The lines `exit` and `quit` end the loop of `main`
with its `break`. -/
theorem fork_failure_ends_interpreter (w : World) (sys : Sys) (cwd : Tok) :
    (∀ (toks : List Tok), toks ≠ [] → toks.length < MAX_TOKENS → sys.fork_ok 0 = false →
        (pipe_tok ∈ toks → ∀ i, i < toks.count pipe_tok → sys.pipe_ok i = true) →
        (pipe_tok ∉ toks → toks.head? ≠ some (tok "cd")) →
        execute_command sys cwd toks = ⟨cwd, [tok "fork"], [], Halt.exited⟩)
    ∧ (∀ (toks : List Tok) (k : Nat), toks.length < MAX_TOKENS →
        (∀ i, i < toks.count pipe_tok → sys.pipe_ok i = true) → k ≤ toks.count pipe_tok →
        (∀ j, j < k → sys.fork_ok j = true) → sys.fork_ok k = false →
        ∃ children, handle_piping sys cwd toks = ⟨cwd, [tok "fork"], children, Halt.exited⟩
          ∧ children.length = k)
    ∧ (∀ (w' : World) (k : Nat) (m : Mem) (command : Ptr),
        (∀ j, j < k → w.fork_ok j = w'.fork_ok j) → (∀ j, j < k → w.status j = w'.status j) →
        w.fork_ok k = false → w'.fork_ok k = true →
        (∃ argv status,
          (execute_logical_commands w' m command).trace[k]? = some (Event.exec argv status)) →
        execute_logical_commands w m command
          = ⟨(execute_logical_commands w' m command).trace.take k
              ++ [Event.perror (tok "fork")], Halt.exited⟩)
    ∧ (∀ (m : Mem) (A B junk : List Char),
        (∀ c ∈ A, c ≠ NUL ∧ c ≠ '&') → (∀ c ∈ B, c ≠ NUL ∧ c ≠ '&') →
        words A ≠ [] → (words A).length < MAX_TOKENS → words B ≠ [] →
        m.command = A ++ '&' :: '&' :: (B ++ NUL :: junk) → w.fork_ok 0 = false →
        execute_logical_commands w m command_ptr = ⟨[Event.perror (tok "fork")], Halt.exited⟩)
    ∧ (∀ (m : Mem) (line junk : List Char), (∀ c ∈ line, c ≠ NUL) →
        m.command = line ++ NUL :: junk → ';' ∉ line → has_and line = false →
        line ≠ tok "exit" → line ≠ tok "quit" → line ≠ tok "history" →
        words line ≠ [] → (words line).length < MAX_TOKENS →
        (execute_command sys cwd (words line)).halt = Halt.exited →
        main_line w sys m cwd = LineEnd.exit_failure)
    ∧ (∀ (m : Mem) (A R junk : List Char), (∀ c ∈ A, c ≠ NUL ∧ c ≠ ';') → (∀ c ∈ R, c ≠ NUL) →
        words A ≠ [] → (words A).length < MAX_TOKENS →
        m.command = A ++ ';' :: (R ++ NUL :: junk) →
        (execute_command sys cwd (words A)).halt = Halt.exited →
        main_line w sys m cwd = LineEnd.exit_failure)
    ∧ (∀ (m : Mem), ';' ∉ m.str command_ptr → has_and (m.str command_ptr) = true →
        (execute_logical_commands w m command_ptr).halt = Halt.exited →
        main_line w sys m cwd = LineEnd.exit_failure)
    ∧ (∀ (m : Mem) (argv : List Tok),
        (';' ∈ m.str command_ptr
            ∧ Event.dispatch argv ∈ (execute_multiple_commands m command_ptr).trace)
          ∨ (';' ∉ m.str command_ptr ∧ has_and (m.str command_ptr) = true
            ∧ Event.dispatch argv ∈ (execute_logical_commands w m command_ptr).trace) →
        (execute_command sys cwd argv).halt = Halt.exited →
        main_line w sys m cwd = LineEnd.exit_failure)
    ∧ (∀ (m : Mem), m.str command_ptr = tok "exit" ∨ m.str command_ptr = tok "quit" →
        main_line w sys m cwd = LineEnd.break_loop) := by
  refine ⟨?_, ?_, ?_, ?_, ?_, ?_, ?_, ?_, ?_⟩
  · intro toks hne hlen hfork hpipe hcd
    exact execute_command_fork_fails sys cwd toks hne hlen hfork hpipe hcd
  · intro toks k hlen hpipe hk hbefore hfork
    have hpc : (pipe_scan (toks.map some ++ [none]) toks.length unset_ranges unset_ranges).pipe_count
        = toks.count pipe_tok := by
      rw [pipe_scan_spec toks [] unset_ranges unset_ranges hlen (by decide) (by decide)]
    refine ⟨(List.range' 0 k).map (stage_child sys
      (pipe_scan (toks.map some ++ [none]) toks.length unset_ranges unset_ranges)), ?_, by simp⟩
    simp only [handle_piping, hpc]
    rw [create_pipes_all sys _ 0 (fun i _ h => hpipe i (by omega)),
      fork_stages_fails sys _ _ 0 [] k (Nat.zero_le _) (by omega) (fun j _ h => hbefore j h) hfork]
    simp
  · intro w' k m command hfork hstatus hk hk' hex
    exact execute_logical_commands_fork_fails w w' k hfork hstatus hk hk' m command hex
  · intro m A B junk hA hB hwA hlA hwB hcmd hfork
    exact logical_first_fork_fails w m A B junk hA hB hwA hlA hwB hcmd hfork
  · intro m line junk hline hcmd hsemi hand hexit hquit hhist hw hlen hx
    have hstr : m.str ⟨.command, 0⟩ = line := by
      have := cstr_run [] line junk hline
      simpa [Mem.str, Mem.get, hcmd] using this
    obtain ⟨ptrs, rest, line', m', h1, h2, _, _, _, _⟩ :=
      parse_command_spec m .command line junk fresh_tokens hline (by simpa [Mem.get] using hcmd)
        (by decide)
    rw [List.take_of_length_le (by simp only [MAX_TOKENS] at hlen ⊢; omega)] at h2
    have hargv : argv_of m' (ptrs.map some ++ none :: rest) = words line := by
      rw [argv_of_map_some, h2]
    have hptrs : 0 < ptrs.length := by
      have := congrArg List.length h2
      simp only [List.length_map] at this
      rw [this]
      exact List.length_pos.2 hw
    have h3 : ¬ (line = tok "exit" ∨ line = tok "quit") := by
      rintro (h | h)
      · exact hexit h
      · exact hquit h
    simp only [main_line, hstr, h3, hsemi, hand, hhist, if_false, h1, hptrs, if_true, hargv, hx]
    simp
  · intro m A R junk hA hR hwA hlA hcmd hx
    have hstr : m.str command_ptr = A ++ ';' :: R := by
      have := cstr_run [] (A ++ ';' :: R) junk (by
        intro c hc
        simp only [List.mem_append, List.mem_cons] at hc
        rcases hc with h | h | h
        · exact (hA c h).1
        · rw [h]; decide
        · exact hR c h)
      simpa [Mem.str, Mem.get, command_ptr, hcmd] using this
    obtain ⟨rest, hrest⟩ := multiple_first_dispatch m A R junk hA hR hwA hlA hcmd
    rw [(main_line_sequenced w sys m cwd).1 (by rw [hstr]; simp)]
    exact line_end_of_dispatch sys cwd _ (words A) (by rw [hrest]; simp) hx
  · intro m hsemi hand hx
    rw [(main_line_sequenced w sys m cwd).2 hsemi hand]
    exact line_end_of_exited sys cwd _ hx
  · intro m argv h hx
    rcases h with ⟨hsemi, hmem⟩ | ⟨hsemi, hand, hmem⟩
    · rw [(main_line_sequenced w sys m cwd).1 hsemi]
      exact line_end_of_dispatch sys cwd _ argv hmem hx
    · rw [(main_line_sequenced w sys m cwd).2 hsemi hand]
      exact line_end_of_dispatch sys cwd _ argv hmem hx
  · intro m h
    have h' : m.str ⟨.command, 0⟩ = tok "exit" ∨ m.str ⟨.command, 0⟩ = tok "quit" := h
    simp only [main_line]
    rw [if_pos h']

/-- C14 (amended) when every `fork` fails, on the line `ls`, on the line
`ls ; pwd` and on the line `true && ls`; on the line `true && echo always`
when the second `fork` of `execute_logical_commands` fails; and on the line
`exit`. -/
theorem fork_failure_ends_interpreter_witness :
    (execute_command sys_no_fork (tok "/") [tok "ls"] = ⟨tok "/", [tok "fork"], [], Halt.exited⟩
      ∧ (line_read (tok "ls")).command = tok "ls" ++ NUL :: [] ∧ words (tok "ls") = [tok "ls"]
      ∧ main_line world_no_fork sys_no_fork (line_read (tok "ls")) (tok "/")
          = LineEnd.exit_failure)
    ∧ ((line_read (tok "ls ; pwd")).command = tok "ls " ++ ';' :: (tok " pwd" ++ NUL :: [])
      ∧ words (tok "ls ") = [tok "ls"]
      ∧ main_line world_no_fork sys_no_fork (line_read (tok "ls ; pwd")) (tok "/")
          = LineEnd.exit_failure)
    ∧ ((line_read (tok "true && ls")).command
          = tok "true " ++ '&' :: '&' :: (tok " ls" ++ NUL :: [])
      ∧ world_no_fork.fork_ok 0 = false
      ∧ execute_logical_commands world_no_fork (line_read (tok "true && ls")) command_ptr
          = ⟨[Event.perror (tok "fork")], Halt.exited⟩)
    ∧ (world_one_fork.fork_ok 1 = false ∧ (all_exit 0).fork_ok 1 = true
      ∧ (execute_logical_commands (all_exit 0) (line_read (tok "true && echo always"))
          command_ptr).trace[1]? = some (Event.exec [tok "echo", tok "always"] 0)
      ∧ execute_logical_commands world_one_fork (line_read (tok "true && echo always"))
          command_ptr
        = ⟨(execute_logical_commands (all_exit 0) (line_read (tok "true && echo always"))
              command_ptr).trace.take 1 ++ [Event.perror (tok "fork")], Halt.exited⟩
      ∧ (execute_logical_commands (all_exit 0) (line_read (tok "true && echo always"))
            command_ptr).trace.take 1 = [Event.exec [tok "true"] 0]
      ∧ main_line world_one_fork sys_ok (line_read (tok "true && echo always")) (tok "/")
          = LineEnd.exit_failure)
    ∧ ((line_read (tok "exit")).str command_ptr = tok "exit"
      ∧ main_line world_no_fork sys_no_fork (line_read (tok "exit")) (tok "/")
          = LineEnd.break_loop) :=
  ⟨⟨(fork_failure_ends_interpreter world_no_fork sys_no_fork (tok "/")).1 [tok "ls"]
      (by decide) (by decide) rfl (fun h => absurd h (by decide)) (fun _ => by decide),
    rfl, by decide,
    (fork_failure_ends_interpreter world_no_fork sys_no_fork (tok "/")).2.2.2.2.1
      (line_read (tok "ls")) (tok "ls") [] (by decide) rfl (by decide) (by decide) (by decide)
      (by decide) (by decide) (by decide) (by decide) (by decide)⟩,
   ⟨rfl, by decide,
    (fork_failure_ends_interpreter world_no_fork sys_no_fork (tok "/")).2.2.2.2.2.1
      (line_read (tok "ls ; pwd")) (tok "ls ") (tok " pwd") [] (by decide) (by decide)
      (by decide) (by decide) rfl (by decide)⟩,
   ⟨rfl, rfl,
    (fork_failure_ends_interpreter world_no_fork sys_no_fork (tok "/")).2.2.2.1
      (line_read (tok "true && ls")) (tok "true ") (tok " ls") [] (by decide) (by decide)
      (by decide) (by decide) (by decide) rfl rfl⟩,
   ⟨rfl, rfl, by decide,
    (fork_failure_ends_interpreter world_one_fork sys_ok (tok "/")).2.2.1 (all_exit 0) 1
      (line_read (tok "true && echo always")) command_ptr
      (fun j hj => by rw [Nat.lt_one_iff.1 hj]; rfl) (fun j hj => by rw [Nat.lt_one_iff.1 hj]; rfl)
      rfl rfl ⟨[tok "echo", tok "always"], 0, by decide⟩,
    by decide,
    (fork_failure_ends_interpreter world_one_fork sys_ok (tok "/")).2.2.2.2.2.2.1
      (line_read (tok "true && echo always")) (by decide) (by decide) (by decide)⟩,
   ⟨by decide,
    (fork_failure_ends_interpreter world_no_fork sys_no_fork (tok "/")).2.2.2.2.2.2.2.2
      (line_read (tok "exit")) (Or.inl (by decide))⟩⟩

end Shell
